import Mathlib

/-!
# Apex Pathfinder: the route engine of `route_planner.cpp`

A shallow embedding of `src/route_planner.cpp`.

* `double` is read in two ways. The first part reads it as exact arithmetic: finite
  values are rationals and `numeric_limits<double>::infinity()` is the top element of
  `WithTop ℚ`. The definitions under `Machine` are the same lines of the source with the
  arithmetic left open (`Machine.Arith`); IEEE 754 double precision, rounding to nearest,
  is the instance `Machine.binary64`. Statements that rounding decides are made there.
* `std::map<int, V>` is the list of its entries; `map_find` is `find`/`count`/`at`,
  `map_set` is the assignment `m[k] = v`, `map_index` is a read through `operator[]`
  (which inserts a value-initialised entry when the key is absent).
* `std::priority_queue<pair<double,int>, ..., greater<...>>` is the list of its
  entries; `pq_top` is the least entry for the lexicographic order of pairs.
* The globals `nodes_info` and `adj_list` are the two fields of `Graph`; functions
  that touch them take the graph and hand back the graph they leave behind.
* Loops that need not terminate take a fuel argument and return `none` when it runs out.
-/

namespace ApexPathfinder

/-! ## Data model -/

/-- The `struct Node` of the source. -/
structure Node where
  id : Int
  name : String
deriving DecidableEq

/-- The `struct Edge` of the source. -/
structure Edge where
  to_node_id : Int
  distance : ℚ
  speed_limit : ℚ
  traffic_multiplier : ℚ
  toll : ℚ
deriving DecidableEq

/-- A `double` read exactly: a rational or `+infinity`. -/
abbrev Cost := WithTop ℚ

/-- The two global containers `nodes_info` and `adj_list`. -/
structure Graph where
  nodes_info : List (Int × Node)
  adj_list : List (Int × List Edge)
deriving DecidableEq

/-! ## `std::map` operations -/

/-- The lookup `m.find(k)` (also `m.count(k)` and `m.at(k)`): the value stored under `k`. -/
def map_find {α : Type} (k : Int) : List (Int × α) → Option α
  | [] => none
  | (k', v) :: m => if k' = k then some v else map_find k m

/-- The assignment `m[k] = v`: overwrite the entry of `k`, or insert it in key order. -/
def map_set {α : Type} (k : Int) (v : α) : List (Int × α) → List (Int × α)
  | [] => [(k, v)]
  | (k', v') :: m =>
    if k' = k then (k, v) :: m
    else if k < k' then (k, v) :: (k', v') :: m
    else (k', v') :: map_set k v m

/-- The read `m[k]`: the stored value, or a freshly inserted default `d`. -/
def map_index {α : Type} (d : α) (k : Int) (m : List (Int × α)) : α × List (Int × α) :=
  match map_find k m with
  | some v => (v, m)
  | none => (d, map_set k d m)

/-! ## The priority queue -/

/-- The comparison `operator<` of `pair<double,int>`: lexicographic. -/
def pair_lt (a b : Cost × Int) : Prop :=
  a.1 < b.1 ∨ (¬ b.1 < a.1 ∧ a.2 < b.2)

instance (a b : Cost × Int) : Decidable (pair_lt a b) := by
  unfold pair_lt; infer_instance

/-- The entry `pq.top()` of the min-queue: the least entry, `none` when the queue is empty. -/
def pq_top : List (Cost × Int) → Option (Cost × Int)
  | [] => none
  | x :: xs =>
    match pq_top xs with
    | none => some x
    | some m => if pair_lt x m then some x else some m

/-- The queue after `pq.pop()`: one occurrence of the top entry is removed. -/
def pq_pop (pq : List (Cost × Int)) : List (Cost × Int) :=
  match pq_top pq with
  | none => pq
  | some m => pq.erase m

/-! ## Normalisation pre-pass (lines 61-72) -/

/-- The constant `fuel_price_per_km`. -/
def fuel_price_per_km : ℚ := 3 / 2

/-- The local `time` of an edge. -/
def edge_time (e : Edge) : ℚ :=
  (e.distance / e.speed_limit) * e.traffic_multiplier * 60

/-- The local `cost` of an edge. -/
def edge_cost (e : Edge) : ℚ :=
  e.toll + e.distance * fuel_price_per_km

/-- The three running maxima `max_time`, `max_dist`, `max_cost`. -/
structure Maxes where
  max_time : ℚ
  max_dist : ℚ
  max_cost : ℚ
deriving DecidableEq

/-- The body of the inner loop of the pre-pass, for one edge. -/
def scan_edge (m : Maxes) (e : Edge) : Maxes :=
  { max_time := if edge_time e > m.max_time then edge_time e else m.max_time
    max_dist := if e.distance > m.max_dist then e.distance else m.max_dist
    max_cost := if edge_cost e > m.max_cost then edge_cost e else m.max_cost }

/-- The pre-pass over every adjacency list. -/
def compute_maxes (adj : List (Int × List Edge)) : Maxes :=
  adj.foldl (fun m p => p.2.foldl scan_edge m) ⟨0, 0, 0⟩

/-- The local `norm_time`. -/
def norm_time (m : Maxes) (e : Edge) : ℚ :=
  if m.max_time > 0 then edge_time e / m.max_time else 0

/-- The local `norm_dist`. -/
def norm_dist (m : Maxes) (e : Edge) : ℚ :=
  if m.max_dist > 0 then e.distance / m.max_dist else 0

/-- The local `norm_cost`. -/
def norm_cost (m : Maxes) (e : Edge) : ℚ :=
  if m.max_cost > 0 then edge_cost e / m.max_cost else 0

/-- The local `unified_score` of an edge. -/
def unified_score (m : Maxes) (w_time w_dist w_cost : ℚ) (e : Edge) : ℚ :=
  (norm_time m e * w_time) + (norm_dist m e * w_dist) + (norm_cost m e * w_cost)

/-! ## The search (lines 74-115) -/

/-- The locals `pq`, `g_costs`, `parent_map` of `find_optimal_path`. -/
structure SearchState where
  pq : List (Cost × Int)
  g_costs : List (Int × Cost)
  parent_map : List (Int × Int)
deriving DecidableEq

/-- The body of the edge loop (lines 98-112) for one edge `e` of `current_node_id`;
`sc` is the edge's `unified_score`. -/
def relax_edge (sc : Edge → ℚ) (current_node_id : Int) (s : SearchState) (e : Edge) :
    SearchState :=
  let r1 := map_index (0 : Cost) current_node_id s.g_costs
  let new_g_cost : Cost := r1.1 + ((sc e : ℚ) : Cost)
  let r2 := map_index (0 : Cost) e.to_node_id r1.2
  if new_g_cost < r2.1 then
    { pq := (new_g_cost, e.to_node_id) :: s.pq
      g_costs := map_set e.to_node_id new_g_cost r2.2
      parent_map := map_set e.to_node_id current_node_id s.parent_map }
  else
    { s with g_costs := r2.2 }

/-- The state set up by lines 74-84. -/
def init_state (nodes_info : List (Int × Node)) (start_node : Int) : SearchState :=
  { pq := [((0 : Cost), start_node)]
    g_costs := map_set start_node (0 : Cost)
      (nodes_info.foldl (fun gc p => map_set p.1 (⊤ : Cost) gc) [])
    parent_map := map_set start_node (-1) [] }

/-- How the `while (!pq.empty())` loop ends: with `end_node` popped (`true`) or with
the queue empty (`false`), and the search state at that moment; `none` when the fuel
runs out first. One unit of fuel is one test of the loop condition. -/
def search_loop (adj : List (Int × List Edge)) (sc : Edge → ℚ) (end_node : Int) :
    Nat → SearchState → Option (Bool × SearchState)
  | 0, _ => none
  | fuel + 1, s =>
    match pq_top s.pq with
    | none => some (false, s)
    | some top =>
      let s1 : SearchState := { s with pq := pq_pop s.pq }
      if top.2 = end_node then some (true, s1)
      else
        match map_find top.2 adj with
        | none => search_loop adj sc end_node fuel s1
        | some es => search_loop adj sc end_node fuel (es.foldl (relax_edge sc top.2) s1)

/-! ## `reconstruct_path` (lines 31-57) -/

/-- What `reconstruct_path` prints. `path` carries the node IDs of the local vector
`path` next to the names that are printed for them. -/
inductive Report where
  | no_path
  | path (nodes : List Int) (names : List String) (score : Cost)
  | out_of_range
deriving DecidableEq

/-- The `while (parent_map.count(current_node))` loop: the vector `path` it leaves. -/
def walk_back (parent_map : List (Int × Int)) (start_node : Int) :
    Nat → Int → List Int → Option (List Int)
  | 0, _, _ => none
  | fuel + 1, current_node, path =>
    match map_find current_node parent_map with
    | none => some path
    | some p =>
      if current_node = start_node then some (path ++ [current_node])
      else walk_back parent_map start_node fuel p (path ++ [current_node])

/-- The printing loop of lines 52-55: the names printed, and `nodes_info` afterwards
(the read `nodes_info[path[i]]` goes through `operator[]`). -/
def print_names (nodes_info : List (Int × Node)) : List Int → List String × List (Int × Node)
  | [] => ([], nodes_info)
  | n :: rest =>
    let r := map_index (⟨0, ""⟩ : Node) n nodes_info
    let r2 := print_names r.2 rest
    (r.1.name :: r2.1, r2.2)

/-- The function `reconstruct_path`: the report printed and the graph left behind. -/
def reconstruct_path (fuel : Nat) (g : Graph) (start_node end_node : Int)
    (parent_map : List (Int × Int)) (g_costs : List (Int × Cost)) : Option (Report × Graph) :=
  match walk_back parent_map start_node fuel end_node [] with
  | none => none
  | some path =>
    if path = [] ∨ path.getLast? ≠ some start_node then some (Report.no_path, g)
    else
      let names := print_names g.nodes_info path.reverse
      let g' : Graph := { g with nodes_info := names.2 }
      match map_find end_node g_costs with
      | none => some (Report.out_of_range, g')
      | some score => some (Report.path path.reverse names.1 score, g')

/-- The function `find_optimal_path`: the report printed and the graph left behind;
`none` when one of its loops outlives the fuel. -/
def find_optimal_path (fuel : Nat) (g : Graph) (start_node end_node : Int)
    (w_time w_dist w_cost : ℚ) : Option (Report × Graph) :=
  let sc := unified_score (compute_maxes g.adj_list) w_time w_dist w_cost
  match search_loop g.adj_list sc end_node fuel (init_state g.nodes_info start_node) with
  | none => none
  | some (_, s) => reconstruct_path fuel g start_node end_node s.parent_map s.g_costs

/-! ## Loading (`parse_map_file`, lines 126-132) and `main` -/

/-- One element of the JSON array `edges`. -/
structure EdgeRecord where
  from_node : Int
  to_node : Int
  distance : ℚ
  speed_limit : ℚ
  traffic : ℚ
  toll : ℚ
deriving DecidableEq

/-- The parsed JSON document: the arrays `nodes` (id, name) and `edges`. -/
structure MapData where
  nodes : List (Int × String)
  edges : List EdgeRecord
deriving DecidableEq

/-- The statement `adj_list[k].push_back(e)`. -/
def adj_push (k : Int) (e : Edge) (adj : List (Int × List Edge)) : List (Int × List Edge) :=
  let r := map_index ([] : List Edge) k adj
  map_set k (r.1 ++ [e]) r.2

/-- The body of the loop over `data["edges"]`: two mirrored `push_back`s. -/
def load_edge (adj : List (Int × List Edge)) (r : EdgeRecord) : List (Int × List Edge) :=
  adj_push r.to_node ⟨r.from_node, r.distance, r.speed_limit, r.traffic, r.toll⟩
    (adj_push r.from_node ⟨r.to_node, r.distance, r.speed_limit, r.traffic, r.toll⟩ adj)

/-- The two loading loops of `parse_map_file`, run on the parsed document. -/
def parse_map_file (g : Graph) (data : MapData) : Graph :=
  { nodes_info := data.nodes.foldl (fun ni p => map_set p.1 ⟨p.1, p.2⟩ ni) g.nodes_info
    adj_list := data.edges.foldl load_edge g.adj_list }

/-- The test of line 163: `abs(w_time + w_dist + w_cost - 1.0) > 0.01`. -/
def weights_rejected (w_time w_dist w_cost : ℚ) : Bool :=
  decide (|w_time + w_dist + w_cost - 1| > 1 / 100)

/-- How `main` ends. -/
inductive MainResult where
  | invalid_weights
  | load_failed
  | searched (r : Report) (g : Graph)
deriving DecidableEq

/-- The function `main` after its prompts: `file` is the parsed map file (`none` when it
cannot be opened or parsed). The globals start out empty. -/
def main (fuel : Nat) (file : Option MapData) (start_node end_node : Int)
    (w_time w_dist w_cost : ℚ) : Option MainResult :=
  if weights_rejected w_time w_dist w_cost then some MainResult.invalid_weights
  else
    match file with
    | none => some MainResult.load_failed
    | some data =>
      match find_optimal_path fuel (parse_map_file ⟨[], []⟩ data) start_node end_node
          w_time w_dist w_cost with
      | none => none
      | some (r, g) => some (MainResult.searched r g)

/-! ## The scenario graph of the specification -/

/-- The map file of the scenario: nodes 1:"A", 2:"B", 3:"C", road segments 1-2 and 2-3. -/
def scenario_data : MapData :=
  { nodes := [(1, "A"), (2, "B"), (3, "C")]
    edges := [⟨1, 2, 10, 50, 1, 0⟩, ⟨2, 3, 5, 50, 1, 0⟩] }

/-- The scenario graph as `parse_map_file` loads it. -/
def scenario_graph : Graph := parse_map_file ⟨[], []⟩ scenario_data

/-! ## Specification-side notions -/

/-- The value the search reads for `g_costs[v]`: the stored one, or `0.0` when `v` has no entry. -/
def gval (g_costs : List (Int × Cost)) (v : Int) : Cost :=
  (map_find v g_costs).getD 0

/-- The edge list `es` leads from `u` to `v` in the adjacency map; every edge of it has a
target accepted by `ok`. -/
def IsWalk (adj : List (Int × List Edge)) (ok : Int → Prop) : Int → List Edge → Int → Prop
  | u, [], v => u = v
  | u, e :: es, v =>
    (∃ l, map_find u adj = some l ∧ e ∈ l) ∧ ok e.to_node_id ∧ IsWalk adj ok e.to_node_id es v

/-- The sum of the scores of the edges of a walk. -/
def walk_cost (sc : Edge → ℚ) (es : List Edge) : ℚ :=
  (es.map sc).sum

/-- The attribute ranges the data model gives an edge. -/
def valid_edge (e : Edge) : Prop :=
  0 < e.distance ∧ 0 < e.speed_limit ∧ 1 ≤ e.traffic_multiplier ∧ 0 ≤ e.toll

/-- Every edge of every adjacency list has attributes in the data model's ranges. -/
def valid_graph (g : Graph) : Prop :=
  ∀ p ∈ g.adj_list, ∀ e ∈ p.2, valid_edge e

/-- The number of edges stored in the adjacency map. -/
def edge_count (adj : List (Int × List Edge)) : Nat :=
  (adj.map (fun p => p.2.length)).sum

/-- Every node of the list of finalised nodes `D` (most recent first) is the start or has
its predecessor further down the list. -/
def Chain (parent_map : List (Int × Int)) (start : Int) : List Int → Prop
  | [] => True
  | u :: D => (u = start ∨ ∃ p, map_find u parent_map = some p ∧ p ∈ D) ∧
      Chain parent_map start D

/-- Every edge out of a finalised node has been relaxed. -/
def Closed (adj : List (Int × List Edge)) (sc : Edge → ℚ) (D : List Int) (s : SearchState) :
    Prop :=
  ∀ u ∈ D, ∀ es, map_find u adj = some es → ∀ e ∈ es,
    gval s.g_costs e.to_node_id ≤ gval s.g_costs u + ((sc e : ℚ) : Cost)

/-- The invariant of the search loop; `D` lists the nodes popped so far and `known` holds of
the keys of the node map. -/
structure Inv (adj : List (Int × List Edge)) (sc : Edge → ℚ) (known : Int → Prop)
    (start : Int) (D : List Int) (s : SearchState) : Prop where
  g_nonneg : ∀ v, 0 ≤ gval s.g_costs v
  start_zero : gval s.g_costs start = 0
  start_parent : map_find start s.parent_map = some (-1)
  undisc : ∀ v, map_find v s.parent_map = none →
    (known v → gval s.g_costs v = ⊤) ∧ (¬ known v → gval s.g_costs v = 0)
  disc_fin : ∀ v, map_find v s.parent_map ≠ none →
    ∃ q : ℚ, map_find v s.g_costs = some (q : Cost)
  disc_known : ∀ v, map_find v s.parent_map ≠ none → v = start ∨ known v
  pq_ge : ∀ x ∈ s.pq, map_find x.2 s.parent_map ≠ none ∧ gval s.g_costs x.2 ≤ x.1
  pq_has : ∀ v, map_find v s.parent_map ≠ none → v ∉ D → (gval s.g_costs v, v) ∈ s.pq
  done_le : ∀ u ∈ D, ∀ x ∈ s.pq, gval s.g_costs u ≤ x.1
  done_disc : ∀ u ∈ D, map_find u s.parent_map ≠ none
  parent_ok : ∀ v p, map_find v s.parent_map = some p → v ≠ start →
    p ∈ D ∧ ∃ es e, map_find p adj = some es ∧ e ∈ es ∧ e.to_node_id = v ∧
      gval s.g_costs v = gval s.g_costs p + ((sc e : ℚ) : Cost)
  sound : ∀ v, map_find v s.parent_map ≠ none →
    ∃ es, IsWalk adj (fun _ => True) start es v ∧
      gval s.g_costs v = ((walk_cost sc es : ℚ) : Cost)
  chain : Chain s.parent_map start D

/-- The number of edges stored under keys that are not in `D`. -/
def rem_edges : List (Int × List Edge) → List Int → Nat
  | [], _ => 0
  | p :: adj, D => (if p.1 ∈ D then 0 else p.2.length) + rem_edges adj D

/-- What holds when the search loop ends with flag `b` in state `s'`: the invariant held of
the state `s0` in which the last test of the queue was made. -/
def Post (adj : List (Int × List Edge)) (sc : Edge → ℚ) (known : Int → Prop)
    (start endn : Int) (F : Nat) (b : Bool) (s' : SearchState) : Prop :=
  ∃ D s0, Inv adj sc known start D s0 ∧ Closed adj sc D s0 ∧ endn ∉ D ∧ D.length + 1 ≤ F ∧
    s'.g_costs = s0.g_costs ∧ s'.parent_map = s0.parent_map ∧
    ((b = false ∧ s0.pq = []) ∨
     (b = true ∧ ∃ top, pq_top s0.pq = some top ∧ top.2 = endn))

/-- The ID `v` is a key of the node map. -/
def known_in (nodes_info : List (Int × Node)) (v : Int) : Prop :=
  map_find v nodes_info ≠ none

/-- The maxima `m` are at or above the three quantities of the edge `e`. -/
def Maxes.covers (m : Maxes) (e : Edge) : Prop :=
  edge_time e ≤ m.max_time ∧ e.distance ≤ m.max_dist ∧ edge_cost e ≤ m.max_cost

/-- Componentwise order of the running maxima. -/
def Maxes.below (m m' : Maxes) : Prop :=
  m.max_time ≤ m'.max_time ∧ m.max_dist ≤ m'.max_dist ∧ m.max_cost ≤ m'.max_cost

instance (e : Edge) : Decidable (valid_edge e) := by
  unfold valid_edge; infer_instance

instance (g : Graph) : Decidable (valid_graph g) := by
  unfold valid_graph; infer_instance

instance (ni : List (Int × Node)) (v : Int) : Decidable (known_in ni v) := by
  unfold known_in; infer_instance

/-- A map file whose only edge starts at node 1, which is not in its node list. -/
def dangling_data : MapData :=
  { nodes := [(2, "B")]
    edges := [⟨1, 2, 10, 50, 1, 0⟩] }

/-- The graph loaded from `dangling_data`. -/
def dangling_graph : Graph := parse_map_file ⟨[], []⟩ dangling_data

/-- A map file with two road segments that are not connected to each other: 1-2 is long and
fast, 3-4 is short and slow. -/
def cycle_data : MapData :=
  { nodes := [(1, "A"), (2, "B"), (3, "C"), (4, "D")]
    edges := [⟨1, 2, 10, 100, 1, 0⟩, ⟨3, 4, 1, 1, 1, 0⟩] }

/-- The graph loaded from `cycle_data`. -/
def cycle_graph : Graph := parse_map_file ⟨[], []⟩ cycle_data

/-- A map file in which node 2 is an end of two road segments but is not in the node list. -/
def detour_data : MapData :=
  { nodes := [(1, "A"), (3, "C")]
    edges := [⟨1, 2, 90, 90, 1, 0⟩, ⟨1, 3, 15, 25, 1, 0⟩, ⟨3, 2, 100, 1000, 1, 0⟩] }

/-- The graph loaded from `detour_data`. -/
def detour_graph : Graph := parse_map_file ⟨[], []⟩ detour_data

/-- Two search states with the same queue, the same predecessors and the same stored costs. -/
def SEquiv (s1 s2 : SearchState) : Prop :=
  s1.pq = s2.pq ∧ s1.parent_map = s2.parent_map ∧
    ∀ v, map_find v s1.g_costs = map_find v s2.g_costs

/-- The attribute ranges under which the three quantities of an edge are non-negative. -/
def nonneg_edge (e : Edge) : Prop :=
  0 ≤ e.distance ∧ 0 < e.speed_limit ∧ 0 ≤ e.traffic_multiplier ∧ 0 ≤ e.toll

/-- Every edge of every adjacency list has non-negative quantities. -/
def nonneg_graph (g : Graph) : Prop :=
  ∀ p ∈ g.adj_list, ∀ e ∈ p.2, nonneg_edge e

instance (e : Edge) : Decidable (nonneg_edge e) := by
  unfold nonneg_edge; infer_instance

instance (g : Graph) : Decidable (nonneg_graph g) := by
  unfold nonneg_graph; infer_instance

/-- The adjacency list stored under `k`, empty when `k` has no entry. -/
def edges_from (adj : List (Int × List Edge)) (k : Int) : List Edge :=
  (map_find k adj).getD []

/-- The edge that `load_edge` appends to the adjacency list of `r.from_node`. -/
def forward_edge (r : EdgeRecord) : Edge :=
  ⟨r.to_node, r.distance, r.speed_limit, r.traffic, r.toll⟩

/-- The edge that `load_edge` appends to the adjacency list of `r.to_node`. -/
def backward_edge (r : EdgeRecord) : Edge :=
  ⟨r.from_node, r.distance, r.speed_limit, r.traffic, r.toll⟩

/-- The adjacency map built by loading the edge records `rs` into the empty map. -/
def load_edges (rs : List EdgeRecord) : List (Int × List Edge) :=
  rs.foldl load_edge []

/-- The number of edges from `u` to `v` that carry the attributes `d`, `s`, `t`, `c`. -/
def edge_multiplicity (adj : List (Int × List Edge)) (u v : Int) (d s t c : ℚ) : Nat :=
  (edges_from adj u).count ⟨v, d, s, t, c⟩

/-- One iteration of the `while` loop once the popped entry `top` is known not to be the end
(lines 88 and 95-113): the pop, then the edge loop when the node has an adjacency list. -/
def process_pop (adj : List (Int × List Edge)) (sc : Edge → ℚ) (s : SearchState)
    (top : Cost × Int) : SearchState :=
  match map_find top.2 adj with
  | none => { s with pq := pq_pop s.pq }
  | some es => es.foldl (relax_edge sc top.2) { s with pq := pq_pop s.pq }

/-- The iterations that the `while` loop runs through within the given fuel, in order: the
node popped, the search state before the pop, and the search state after the iteration.
The iteration that pops the end is not listed (it only pops). -/
def search_trace (adj : List (Int × List Edge)) (sc : Edge → ℚ) (end_node : Int) :
    Nat → SearchState → List (Int × SearchState × SearchState)
  | 0, _ => []
  | fuel + 1, s =>
    match pq_top s.pq with
    | none => []
    | some top =>
      if top.2 = end_node then []
      else (top.2, s, process_pop adj sc s top) ::
        search_trace adj sc end_node fuel (process_pop adj sc s top)

/-- Every target of an edge out of a finalised node has an entry in `g_costs`. -/
def Touched (adj : List (Int × List Edge)) (D : List Int) (s : SearchState) : Prop :=
  ∀ u ∈ D, ∀ es, map_find u adj = some es → ∀ e ∈ es,
    map_find e.to_node_id s.g_costs ≠ none

/-- What a later iteration `b` leaves of an earlier iteration `a` of the loop: the cost and
the predecessor of the node popped by `a` are those it had when `a` popped it, and when `b`
pops the same node again, `b` only pops. -/
def Frozen (a b : Int × SearchState × SearchState) : Prop :=
  gval b.2.2.g_costs a.1 = gval a.2.1.g_costs a.1 ∧
  map_find a.1 b.2.2.parent_map = map_find a.1 a.2.1.parent_map ∧
  (b.1 = a.1 → b.2.2 = { b.2.1 with pq := pq_pop b.2.1.pq })

/-- The edge `e` out of `u`, turned round: same attributes, target `u`. -/
def mirror_edge (u : Int) (e : Edge) : Edge :=
  { e with to_node_id := u }

/-- The attribute ranges of the data model for an edge record, both of whose end points are
keys of the node map. -/
def valid_record (nodes_info : List (Int × Node)) (r : EdgeRecord) : Prop :=
  0 < r.distance ∧ 0 < r.speed_limit ∧ 1 ≤ r.traffic ∧ 0 ≤ r.toll ∧
    known_in nodes_info r.from_node ∧ known_in nodes_info r.to_node

instance (ni : List (Int × Node)) (r : EdgeRecord) : Decidable (valid_record ni r) := by
  unfold valid_record; infer_instance

/-! ## The same code over machine arithmetic

The definitions above read `double` as exact arithmetic. The ones below are the same lines
of the source with the arithmetic left open: every operation on `double` is a field of
`Machine.Arith`, so that a rounding, absorbing, overflowing or underflowing arithmetic is
an instance. `Machine.binary64` is the IEEE 754 double precision arithmetic, rounding to
nearest, ties to even. The attributes of an `Edge` are the numbers of the map file here,
and `of_num` is their conversion to `double`. -/

/-- The operations on `double` that `find_optimal_path` uses. -/
structure Machine.Arith (F : Type) where
  /-- The `double` of a numeric literal or of a number of the map file. -/
  of_num : ℚ → F
  /-- The value `numeric_limits<double>::infinity()`. -/
  infinity : F
  /-- The operator `+`. -/
  add : F → F → F
  /-- The operator `*`. -/
  mul : F → F → F
  /-- The operator `/`. -/
  div : F → F → F
  /-- The operator `<` (and `>` with its operands exchanged). -/
  lt : F → F → Bool

/-- The comparison `operator<` of `pair<double,int>`: lexicographic. -/
def Machine.pair_lt {F : Type} (A : Machine.Arith F) (a b : F × Int) : Bool :=
  A.lt a.1 b.1 || (!A.lt b.1 a.1 && decide (a.2 < b.2))

/-- The entry `pq.top()` of the min-queue: the least entry, `none` when the queue is empty. -/
def Machine.pq_top {F : Type} (A : Machine.Arith F) : List (F × Int) → Option (F × Int)
  | [] => none
  | x :: xs =>
    match Machine.pq_top A xs with
    | none => some x
    | some m => if Machine.pair_lt A x m then some x else some m

/-- The queue after `pq.pop()`: one occurrence of the top entry is removed. -/
def Machine.pq_pop {F : Type} [DecidableEq F] (A : Machine.Arith F) (pq : List (F × Int)) :
    List (F × Int) :=
  match Machine.pq_top A pq with
  | none => pq
  | some m => pq.erase m

/-- The local `time` of an edge (lines 66 and 98). -/
def Machine.edge_time {F : Type} (A : Machine.Arith F) (e : Edge) : F :=
  A.mul (A.mul (A.div (A.of_num e.distance) (A.of_num e.speed_limit))
    (A.of_num e.traffic_multiplier)) (A.of_num 60)

/-- The local `cost` of an edge (lines 67 and 99). -/
def Machine.edge_cost {F : Type} (A : Machine.Arith F) (e : Edge) : F :=
  A.add (A.of_num e.toll) (A.mul (A.of_num e.distance) (A.of_num fuel_price_per_km))

/-- The three running maxima `max_time`, `max_dist`, `max_cost`. -/
structure Machine.Maxes (F : Type) where
  max_time : F
  max_dist : F
  max_cost : F

/-- The body of the inner loop of the pre-pass (lines 66-70), for one edge. -/
def Machine.scan_edge {F : Type} (A : Machine.Arith F) (m : Machine.Maxes F) (e : Edge) :
    Machine.Maxes F :=
  { max_time := if A.lt m.max_time (Machine.edge_time A e) then Machine.edge_time A e
      else m.max_time
    max_dist := if A.lt m.max_dist (A.of_num e.distance) then A.of_num e.distance
      else m.max_dist
    max_cost := if A.lt m.max_cost (Machine.edge_cost A e) then Machine.edge_cost A e
      else m.max_cost }

/-- The pre-pass over every adjacency list (lines 61-72). -/
def Machine.compute_maxes {F : Type} (A : Machine.Arith F) (adj : List (Int × List Edge)) :
    Machine.Maxes F :=
  adj.foldl (fun m p => p.2.foldl (Machine.scan_edge A) m) ⟨A.of_num 0, A.of_num 0, A.of_num 0⟩

/-- The local `norm_time` (line 101). -/
def Machine.norm_time {F : Type} (A : Machine.Arith F) (m : Machine.Maxes F) (e : Edge) : F :=
  if A.lt (A.of_num 0) m.max_time then A.div (Machine.edge_time A e) m.max_time else A.of_num 0

/-- The local `norm_dist` (line 102). -/
def Machine.norm_dist {F : Type} (A : Machine.Arith F) (m : Machine.Maxes F) (e : Edge) : F :=
  if A.lt (A.of_num 0) m.max_dist then A.div (A.of_num e.distance) m.max_dist else A.of_num 0

/-- The local `norm_cost` (line 103). -/
def Machine.norm_cost {F : Type} (A : Machine.Arith F) (m : Machine.Maxes F) (e : Edge) : F :=
  if A.lt (A.of_num 0) m.max_cost then A.div (Machine.edge_cost A e) m.max_cost else A.of_num 0

/-- The local `unified_score` of an edge (line 105). -/
def Machine.unified_score {F : Type} (A : Machine.Arith F) (m : Machine.Maxes F)
    (w_time w_dist w_cost : F) (e : Edge) : F :=
  A.add (A.add (A.mul (Machine.norm_time A m e) w_time) (A.mul (Machine.norm_dist A m e) w_dist))
    (A.mul (Machine.norm_cost A m e) w_cost)

/-- The locals `pq`, `g_costs`, `parent_map` of `find_optimal_path`. -/
structure Machine.SearchState (F : Type) where
  pq : List (F × Int)
  g_costs : List (Int × F)
  parent_map : List (Int × Int)

/-- The body of the edge loop (lines 98-112) for one edge `e` of `current_node_id`;
`sc` is the edge's `unified_score`. -/
def Machine.relax_edge {F : Type} (A : Machine.Arith F) (sc : Edge → F) (current_node_id : Int)
    (s : Machine.SearchState F) (e : Edge) : Machine.SearchState F :=
  let r1 := map_index (A.of_num 0) current_node_id s.g_costs
  let new_g_cost : F := A.add r1.1 (sc e)
  let r2 := map_index (A.of_num 0) e.to_node_id r1.2
  if A.lt new_g_cost r2.1 then
    { pq := (new_g_cost, e.to_node_id) :: s.pq
      g_costs := map_set e.to_node_id new_g_cost r2.2
      parent_map := map_set e.to_node_id current_node_id s.parent_map }
  else
    { s with g_costs := r2.2 }

/-- The state set up by lines 74-84. -/
def Machine.init_state {F : Type} (A : Machine.Arith F) (nodes_info : List (Int × Node))
    (start_node : Int) : Machine.SearchState F :=
  { pq := [(A.of_num 0, start_node)]
    g_costs := map_set start_node (A.of_num 0)
      (nodes_info.foldl (fun gc p => map_set p.1 A.infinity gc) [])
    parent_map := map_set start_node (-1) [] }

/-- How the `while (!pq.empty())` loop ends: with `end_node` popped (`true`) or with
the queue empty (`false`), and the search state at that moment; `none` when the fuel
runs out first. One unit of fuel is one test of the loop condition. -/
def Machine.search_loop {F : Type} [DecidableEq F] (A : Machine.Arith F)
    (adj : List (Int × List Edge)) (sc : Edge → F) (end_node : Int) :
    Nat → Machine.SearchState F → Option (Bool × Machine.SearchState F)
  | 0, _ => none
  | fuel + 1, s =>
    match Machine.pq_top A s.pq with
    | none => some (false, s)
    | some top =>
      let s1 : Machine.SearchState F := { s with pq := Machine.pq_pop A s.pq }
      if top.2 = end_node then some (true, s1)
      else
        match map_find top.2 adj with
        | none => Machine.search_loop A adj sc end_node fuel s1
        | some es =>
          Machine.search_loop A adj sc end_node fuel (es.foldl (Machine.relax_edge A sc top.2) s1)

/-- What `reconstruct_path` prints. `path` carries the node IDs of the local vector
`path` next to the names that are printed for them. -/
inductive Machine.Report (F : Type) where
  | no_path
  | path (nodes : List Int) (names : List String) (score : F)
  | out_of_range
deriving DecidableEq

/-- The function `reconstruct_path`: the report printed and the graph left behind. -/
def Machine.reconstruct_path {F : Type} (fuel : Nat) (g : Graph) (start_node end_node : Int)
    (parent_map : List (Int × Int)) (g_costs : List (Int × F)) :
    Option (Machine.Report F × Graph) :=
  match walk_back parent_map start_node fuel end_node [] with
  | none => none
  | some path =>
    if path = [] ∨ path.getLast? ≠ some start_node then some (Machine.Report.no_path, g)
    else
      let names := print_names g.nodes_info path.reverse
      let g' : Graph := { g with nodes_info := names.2 }
      match map_find end_node g_costs with
      | none => some (Machine.Report.out_of_range, g')
      | some score => some (Machine.Report.path path.reverse names.1 score, g')

/-- The function `find_optimal_path`: the report printed and the graph left behind;
`none` when one of its loops outlives the fuel. -/
def Machine.find_optimal_path {F : Type} [DecidableEq F] (A : Machine.Arith F) (fuel : Nat)
    (g : Graph) (start_node end_node : Int) (w_time w_dist w_cost : F) :
    Option (Machine.Report F × Graph) :=
  let sc := Machine.unified_score A (Machine.compute_maxes A g.adj_list) w_time w_dist w_cost
  match Machine.search_loop A g.adj_list sc end_node fuel
      (Machine.init_state A g.nodes_info start_node) with
  | none => none
  | some (_, s) => Machine.reconstruct_path fuel g start_node end_node s.parent_map s.g_costs

/-! ## IEEE 754 double precision -/

/-- The number `2^1024`, which no finite `double` reaches, counted in units of `2^-1074`. -/
def Machine.F64.limit : Nat := 2 ^ 2098

/-- A `double`: a NaN, an infinity with its sign, or a finite value with its sign and its
magnitude counted in units of `2^-1074`, the least positive `double`. Every finite `double` is
a whole number of these units, below `2^1024`. -/
inductive Machine.F64 where
  | nan
  | inf (neg : Bool)
  | fin (neg : Bool) (units : Nat) (below : units < Machine.F64.limit)
deriving DecidableEq

/-- The zero of sign `neg`. -/
def Machine.F64.zero (neg : Bool) : Machine.F64 :=
  Machine.F64.fin neg 0 (by unfold Machine.F64.limit; apply Nat.two_pow_pos)

/-- The number of binary digits of `n`: `0` for `0`, and `k + 1` when `2^k <= n < 2^(k+1)`.
The first argument bounds the number of halvings. -/
def Machine.F64.bit_length : Nat → Nat → Nat
  | 0, _ => 0
  | fuel + 1, n => if n = 0 then 0 else Machine.F64.bit_length fuel (n / 2) + 1

/-- The nearest representable magnitude, in units of `2^-1074`, of `num / den` units. A
`double` keeps 53 binary digits, so the doubles around `num / den` are `2^j` units apart,
where `j + 53` is the number of binary digits of the whole part of `num / den` (and `j = 0`
below `2^53` units, where every whole number of units is a `double`). The quotient is
rounded to the nearest multiple of the spacing; a tie goes to the even multiple. -/
def Machine.F64.round_units (num den : Nat) : Nat :=
  let j := Machine.F64.bit_length (num / den) (num / den) - 53
  let d := den * 2 ^ j
  let k := num / d
  let r := num % d
  (if 2 * r < d then k else if d < 2 * r then k + 1 else if k % 2 = 0 then k else k + 1) * 2 ^ j

/-- The `double` of sign `neg` nearest to the magnitude `q`: an infinity when the rounded
magnitude reaches `2^1024`. -/
def Machine.F64.of_abs (neg : Bool) (q : ℚ) : Machine.F64 :=
  if h : Machine.F64.round_units (q.num.natAbs * 2 ^ 1074) q.den < Machine.F64.limit then
    Machine.F64.fin neg (Machine.F64.round_units (q.num.natAbs * 2 ^ 1074) q.den) h
  else Machine.F64.inf neg

/-- The `double` nearest to the rational `q`. -/
def Machine.F64.of_num (q : ℚ) : Machine.F64 :=
  Machine.F64.of_abs (decide (q < 0)) |q|

/-- The rational value of the finite `double` of sign `neg` and magnitude `units`. -/
def Machine.F64.val (neg : Bool) (units : Nat) : ℚ :=
  if neg then - ((units : ℚ) / 2 ^ 1074) else (units : ℚ) / 2 ^ 1074

/-- The sum of two doubles. -/
def Machine.F64.add : Machine.F64 → Machine.F64 → Machine.F64
  | .nan, _ => .nan
  | _, .nan => .nan
  | .inf s, .inf t => if s = t then .inf s else .nan
  | .inf s, .fin _ _ _ => .inf s
  | .fin _ _ _, .inf t => .inf t
  | .fin s u _, .fin t v _ =>
    if Machine.F64.val s u + Machine.F64.val t v = 0 then Machine.F64.zero (s && t)
    else Machine.F64.of_num (Machine.F64.val s u + Machine.F64.val t v)

/-- The product of two doubles. -/
def Machine.F64.mul : Machine.F64 → Machine.F64 → Machine.F64
  | .nan, _ => .nan
  | _, .nan => .nan
  | .inf s, .inf t => .inf (xor s t)
  | .inf s, .fin t v _ => if v = 0 then .nan else .inf (xor s t)
  | .fin s u _, .inf t => if u = 0 then .nan else .inf (xor s t)
  | .fin s u _, .fin t v _ =>
    Machine.F64.of_abs (xor s t) |Machine.F64.val s u * Machine.F64.val t v|

/-- The quotient of two doubles. -/
def Machine.F64.div : Machine.F64 → Machine.F64 → Machine.F64
  | .nan, _ => .nan
  | _, .nan => .nan
  | .inf _, .inf _ => .nan
  | .inf s, .fin t _ _ => .inf (xor s t)
  | .fin s _ _, .inf t => Machine.F64.zero (xor s t)
  | .fin s u _, .fin t v _ =>
    if v = 0 then (if u = 0 then .nan else .inf (xor s t))
    else Machine.F64.of_abs (xor s t) |Machine.F64.val s u / Machine.F64.val t v|

/-- The comparison `<` of two doubles: false when either is a NaN. -/
def Machine.F64.lt : Machine.F64 → Machine.F64 → Bool
  | .nan, _ => false
  | _, .nan => false
  | .inf s, .inf t => s && !t
  | .inf s, .fin _ _ _ => s
  | .fin _ _ _, .inf t => !t
  | .fin s u _, .fin t v _ => decide (Machine.F64.val s u < Machine.F64.val t v)

/-- IEEE 754 double precision arithmetic, rounding to nearest, ties to even. -/
def Machine.binary64 : Machine.Arith Machine.F64 :=
  { of_num := Machine.F64.of_num
    infinity := Machine.F64.inf false
    add := Machine.F64.add
    mul := Machine.F64.mul
    div := Machine.F64.div
    lt := Machine.F64.lt }

/-- A map file with a very short road segment 1-2 and a very long one 2-3. -/
def underflow_data : MapData :=
  { nodes := [(1, "A"), (2, "B"), (3, "C")]
    edges := [⟨1, 2, 1 / 10 ^ 200, 50, 1, 0⟩, ⟨2, 3, 10 ^ 200, 50, 1, 0⟩] }

/-- The graph loaded from `underflow_data`. -/
def underflow_graph : Graph := parse_map_file ⟨[], []⟩ underflow_data

/-- The value the search reads for `g_costs[v]`: the stored one, or `0.0` when `v` has no
entry. -/
def Machine.gval {F : Type} (A : Machine.Arith F) (g_costs : List (Int × F)) (v : Int) : F :=
  (map_find v g_costs).getD (A.of_num 0)

theorem map_find_set {α : Type} (k k' : Int) (v : α) (m : List (Int × α)) :
    map_find k' (map_set k v m) = if k' = k then some v else map_find k' m := by
  induction m with
  | nil =>
    by_cases h : k' = k
    · simp [map_set, map_find, h]
    · have h' : ¬ k = k' := fun e => h e.symm
      simp [map_set, map_find, h, h']
  | cons x m ih =>
    obtain ⟨k0, v0⟩ := x
    by_cases h0 : k0 = k
    · subst h0
      by_cases h : k' = k0
      · simp [map_set, map_find, h]
      · have h' : ¬ k0 = k' := fun e => h e.symm
        simp [map_set, map_find, h, h']
    · by_cases hlt : k < k0
      · by_cases h : k' = k
        · simp [map_set, map_find, h0, hlt, h]
        · have h' : ¬ k = k' := fun e => h e.symm
          simp [map_set, map_find, h0, hlt, h, h']
      · by_cases h : k' = k
        · subst h
          simp [map_set, map_find, h0, hlt, ih]
        · by_cases h1 : k0 = k'
          · subst h1
            simp [map_set, map_find, h0, hlt]
          · simp [map_set, map_find, h0, hlt, h, h1, ih]

theorem map_index_fst {α : Type} (d : α) (k : Int) (m : List (Int × α)) :
    (map_index d k m).1 = (map_find k m).getD d := by
  unfold map_index
  cases h : map_find k m <;> simp

theorem map_find_index {α : Type} (d : α) (k k' : Int) (m : List (Int × α)) :
    map_find k' (map_index d k m).2 =
      if k' = k then some ((map_find k m).getD d) else map_find k' m := by
  unfold map_index
  cases h : map_find k m with
  | none => simp [map_find_set]
  | some v =>
    by_cases hk : k' = k
    · subst hk; simp [h]
    · simp [hk]

theorem map_index_of_find {α : Type} (d : α) (k : Int) (m : List (Int × α)) (v : α)
    (h : map_find k m = some v) : map_index d k m = (v, m) := by
  unfold map_index; rw [h]

theorem gval_of_find {g : List (Int × Cost)} {v : Int} {c : Cost}
    (h : map_find v g = some c) : gval g v = c := by
  simp [gval, h]

/-! ## Lemmas on the priority queue -/

theorem pq_top_eq_none {pq : List (Cost × Int)} : pq_top pq = none ↔ pq = [] := by
  cases pq with
  | nil => simp [pq_top]
  | cons x xs =>
    simp only [pq_top]
    cases pq_top xs with
    | none => simp
    | some m => by_cases h : pair_lt x m <;> simp [h]

theorem pq_top_mem {pq : List (Cost × Int)} {m : Cost × Int} (h : pq_top pq = some m) :
    m ∈ pq := by
  induction pq generalizing m with
  | nil => simp [pq_top] at h
  | cons x xs ih =>
    simp only [pq_top] at h
    cases hx : pq_top xs with
    | none => rw [hx] at h; simp at h; simp [h]
    | some m' =>
      rw [hx] at h
      by_cases hl : pair_lt x m'
      · simp [hl] at h; simp [h]
      · simp [hl] at h; subst h; exact List.mem_cons_of_mem _ (ih hx)

theorem pair_lt_trans_not {a b c : Cost × Int} (h1 : ¬ pair_lt b a) (h2 : ¬ pair_lt c b) :
    ¬ pair_lt c a := by
  unfold pair_lt at *
  push_neg at *
  obtain ⟨h1a, h1b⟩ := h1
  obtain ⟨h2a, h2b⟩ := h2
  exact ⟨le_trans h1a h2a, fun hca =>
    le_trans (h1b (le_trans h2a hca)) (h2b (le_trans hca h1a))⟩

theorem pq_top_least {pq : List (Cost × Int)} {m : Cost × Int} (h : pq_top pq = some m) :
    ∀ y ∈ pq, ¬ pair_lt y m := by
  induction pq generalizing m with
  | nil => simp [pq_top] at h
  | cons x xs ih =>
    simp only [pq_top] at h
    have hirr : ∀ z : Cost × Int, ¬ pair_lt z z := by
      intro z hz
      unfold pair_lt at hz
      rcases hz with hz | ⟨_, hz⟩
      · exact lt_irrefl _ hz
      · exact lt_irrefl _ hz
    cases hx : pq_top xs with
    | none =>
      rw [hx] at h; simp at h; subst h
      have : xs = [] := pq_top_eq_none.mp hx
      subst this
      intro y hy
      simp at hy; subst hy; exact hirr _
    | some m' =>
      rw [hx] at h
      by_cases hl : pair_lt x m'
      · simp [hl] at h; subst h
        intro y hy
        rcases List.mem_cons.mp hy with rfl | hy
        · exact hirr _
        · have h1 := ih hx y hy
          have h2 : ¬ pair_lt m' x := by
            unfold pair_lt at hl ⊢
            push_neg
            rcases hl with hl | ⟨hl1, hl2⟩
            · exact ⟨hl.le, fun hh => absurd hl (not_lt.mpr hh)⟩
            · exact ⟨not_lt.mp hl1, fun _ => hl2.le⟩
          exact pair_lt_trans_not h2 h1
      · simp [hl] at h; subst h
        intro y hy
        rcases List.mem_cons.mp hy with rfl | hy
        · exact hl
        · exact ih hx y hy

theorem pq_top_fst_le {pq : List (Cost × Int)} {m : Cost × Int} (h : pq_top pq = some m) :
    ∀ y ∈ pq, m.1 ≤ y.1 := by
  intro y hy
  have := pq_top_least h y hy
  unfold pair_lt at this
  push_neg at this
  exact this.1

/-! ## One relaxation step -/

theorem gval_index (k v : Int) (g : List (Int × Cost)) :
    gval (map_index (0 : Cost) k g).2 v = gval g v := by
  unfold gval
  rw [map_find_index]
  by_cases h : v = k
  · subst h; simp
  · simp [h]

theorem relax_edge_cond (sc : Edge → ℚ) (cur : Int) (s : SearchState) (e : Edge) :
    relax_edge sc cur s e =
      if gval s.g_costs cur + ((sc e : ℚ) : Cost) < gval s.g_costs e.to_node_id then
        { pq := (gval s.g_costs cur + ((sc e : ℚ) : Cost), e.to_node_id) :: s.pq
          g_costs := map_set e.to_node_id (gval s.g_costs cur + ((sc e : ℚ) : Cost))
            (map_index (0 : Cost) e.to_node_id (map_index (0 : Cost) cur s.g_costs).2).2
          parent_map := map_set e.to_node_id cur s.parent_map }
      else
        { s with g_costs :=
            (map_index (0 : Cost) e.to_node_id (map_index (0 : Cost) cur s.g_costs).2).2 } := by
  have h1 : (map_index (0 : Cost) cur s.g_costs).1 = gval s.g_costs cur := by
    rw [map_index_fst]; rfl
  have h2 : (map_index (0 : Cost) e.to_node_id (map_index (0 : Cost) cur s.g_costs).2).1
      = gval s.g_costs e.to_node_id := by
    rw [map_index_fst]
    exact gval_index cur e.to_node_id s.g_costs
  unfold relax_edge
  simp only [h1, h2]

theorem relax_edge_hit (sc : Edge → ℚ) (cur : Int) (s : SearchState) (e : Edge)
    (h : gval s.g_costs cur + ((sc e : ℚ) : Cost) < gval s.g_costs e.to_node_id) :
    (relax_edge sc cur s e).pq
        = (gval s.g_costs cur + ((sc e : ℚ) : Cost), e.to_node_id) :: s.pq ∧
    (relax_edge sc cur s e).parent_map = map_set e.to_node_id cur s.parent_map ∧
    ∀ v, map_find v (relax_edge sc cur s e).g_costs =
      if v = e.to_node_id then some (gval s.g_costs cur + ((sc e : ℚ) : Cost))
      else if v = cur then some (gval s.g_costs cur) else map_find v s.g_costs := by
  rw [relax_edge_cond, if_pos h]
  refine ⟨rfl, rfl, fun v => ?_⟩
  simp only [map_find_set, map_find_index]
  by_cases h1 : v = e.to_node_id
  · simp [h1]
  · by_cases h2 : v = cur
    · subst h2; simp [h1, gval]
    · simp [h1, h2]

theorem relax_edge_miss (sc : Edge → ℚ) (cur : Int) (s : SearchState) (e : Edge)
    (h : ¬ gval s.g_costs cur + ((sc e : ℚ) : Cost) < gval s.g_costs e.to_node_id) :
    (relax_edge sc cur s e).pq = s.pq ∧
    (relax_edge sc cur s e).parent_map = s.parent_map ∧
    ∀ v, map_find v (relax_edge sc cur s e).g_costs =
      if v = e.to_node_id ∨ v = cur then some (gval s.g_costs v) else map_find v s.g_costs := by
  rw [relax_edge_cond, if_neg h]
  refine ⟨rfl, rfl, fun v => ?_⟩
  simp only [map_find_index]
  by_cases h1 : v = e.to_node_id
  · subst h1
    by_cases h2 : e.to_node_id = cur
    · simp [h2, gval]
    · simp [h2, gval]
  · by_cases h2 : v = cur
    · subst h2
      have h3 : ¬ e.to_node_id = v := fun h => h1 h.symm
      simp [h1, h3, gval]
    · simp [h1, h2]

theorem relax_edge_miss_gval (sc : Edge → ℚ) (cur : Int) (s : SearchState) (e : Edge)
    (h : ¬ gval s.g_costs cur + ((sc e : ℚ) : Cost) < gval s.g_costs e.to_node_id) (v : Int) :
    gval (relax_edge sc cur s e).g_costs v = gval s.g_costs v := by
  have h3 := (relax_edge_miss sc cur s e h).2.2 v
  unfold gval at *
  rw [h3]
  by_cases hv : v = e.to_node_id ∨ v = cur
  · simp [hv]
  · simp [hv]

theorem relax_edge_hit_gval (sc : Edge → ℚ) (cur : Int) (s : SearchState) (e : Edge)
    (h : gval s.g_costs cur + ((sc e : ℚ) : Cost) < gval s.g_costs e.to_node_id) (v : Int) :
    gval (relax_edge sc cur s e).g_costs v =
      if v = e.to_node_id then gval s.g_costs cur + ((sc e : ℚ) : Cost) else gval s.g_costs v := by
  have h3 := (relax_edge_hit sc cur s e h).2.2 v
  unfold gval at *
  rw [h3]
  by_cases h1 : v = e.to_node_id
  · simp [h1]
  · by_cases h2 : v = cur
    · subst h2; simp [h1]
    · simp [h1, h2]

theorem relax_edge_find_keep (sc : Edge → ℚ) (cur : Int) (s : SearchState) (e : Edge)
    (v : Int) (c : Cost) (hv : map_find v s.g_costs = some c)
    (hne : v = e.to_node_id → ¬ gval s.g_costs cur + ((sc e : ℚ) : Cost) < gval s.g_costs v) :
    map_find v (relax_edge sc cur s e).g_costs = some c := by
  have hg : gval s.g_costs v = c := gval_of_find hv
  by_cases h : gval s.g_costs cur + ((sc e : ℚ) : Cost) < gval s.g_costs e.to_node_id
  · rw [(relax_edge_hit sc cur s e h).2.2 v]
    by_cases h1 : v = e.to_node_id
    · subst h1; exact absurd h (hne rfl)
    · by_cases h2 : v = cur
      · subst h2; simp [h1, hg]
      · simp [h1, h2, hv]
  · rw [(relax_edge_miss sc cur s e h).2.2 v]
    by_cases h1 : v = e.to_node_id ∨ v = cur
    · simp [h1, hg]
    · simp [h1, hv]

/-! ## Walks -/

theorem IsWalk_snoc {adj : List (Int × List Edge)} {ok : Int → Prop} {u v : Int}
    {es : List Edge} (h : IsWalk adj ok u es v) (e : Edge) (l : List Edge)
    (hl : map_find v adj = some l) (he : e ∈ l) (hok : ok e.to_node_id) :
    IsWalk adj ok u (es ++ [e]) e.to_node_id := by
  induction es generalizing u with
  | nil =>
    simp only [IsWalk] at h
    subst h
    exact ⟨⟨l, hl, he⟩, hok, rfl⟩
  | cons x xs ih =>
    obtain ⟨h1, h2, h3⟩ := h
    exact ⟨h1, h2, ih h3⟩

theorem walk_cost_snoc (sc : Edge → ℚ) (es : List Edge) (e : Edge) :
    walk_cost sc (es ++ [e]) = walk_cost sc es + sc e := by
  simp [walk_cost]

theorem walk_cost_cons (sc : Edge → ℚ) (es : List Edge) (e : Edge) :
    walk_cost sc (e :: es) = sc e + walk_cost sc es := by
  simp [walk_cost]

theorem IsWalk_mono {adj : List (Int × List Edge)} {ok ok' : Int → Prop} {u v : Int}
    {es : List Edge} (h : IsWalk adj ok u es v)
    (hok : ∀ w l e, map_find w adj = some l → e ∈ l → ok' e.to_node_id) :
    IsWalk adj ok' u es v := by
  induction es generalizing u with
  | nil => exact h
  | cons x xs ih =>
    obtain ⟨⟨l, hl, he⟩, _, h3⟩ := h
    exact ⟨⟨l, hl, he⟩, hok u l x hl he, ih h3⟩

theorem walk_cost_nonneg {adj : List (Int × List Edge)} {ok : Int → Prop} {sc : Edge → ℚ}
    (hsc : ∀ w l e, map_find w adj = some l → e ∈ l → 0 ≤ sc e) {u v : Int}
    {es : List Edge} (h : IsWalk adj ok u es v) : 0 ≤ walk_cost sc es := by
  induction es generalizing u with
  | nil => simp [walk_cost]
  | cons x xs ih =>
    obtain ⟨⟨l, hl, he⟩, _, h3⟩ := h
    rw [walk_cost_cons]
    exact add_nonneg (hsc u l x hl he) (ih h3)

/-! ## Preservation of the invariant -/

theorem Chain_congr {P P' : List (Int × Int)} {start : Int} {D : List Int}
    (h : ∀ u ∈ D, map_find u P' = map_find u P) (hc : Chain P start D) :
    Chain P' start D := by
  induction D with
  | nil => trivial
  | cons u D ih =>
    obtain ⟨h1, h2⟩ := hc
    refine ⟨?_, ih (fun w hw => h w (List.mem_cons_of_mem _ hw)) h2⟩
    rcases h1 with h1 | ⟨p, hp, hpD⟩
    · exact Or.inl h1
    · exact Or.inr ⟨p, by rw [h u (List.mem_cons_self _ _)]; exact hp, hpD⟩

theorem Inv_transfer {adj : List (Int × List Edge)} {sc : Edge → ℚ} {known : Int → Prop}
    {start : Int} {D : List Int} {s s' : SearchState}
    (hI : Inv adj sc known start D s) (hpq : s'.pq = s.pq)
    (hP : s'.parent_map = s.parent_map)
    (hg : ∀ v, gval s'.g_costs v = gval s.g_costs v)
    (hk : ∀ v c, map_find v s.g_costs = some c → map_find v s'.g_costs = some c) :
    Inv adj sc known start D s' := by
  constructor
  · intro v; rw [hg]; exact hI.g_nonneg v
  · rw [hg]; exact hI.start_zero
  · rw [hP]; exact hI.start_parent
  · intro v hv; rw [hP] at hv; rw [hg]; exact hI.undisc v hv
  · intro v hv; rw [hP] at hv
    obtain ⟨q, hq⟩ := hI.disc_fin v hv
    exact ⟨q, hk v _ hq⟩
  · intro v hv; rw [hP] at hv; exact hI.disc_known v hv
  · intro x hx; rw [hpq] at hx; rw [hP, hg]; exact hI.pq_ge x hx
  · intro v hv hD; rw [hP] at hv; rw [hpq, hg]; exact hI.pq_has v hv hD
  · intro u hu x hx; rw [hpq] at hx; rw [hg]; exact hI.done_le u hu x hx
  · intro u hu; rw [hP]; exact hI.done_disc u hu
  · intro v p hv hne; rw [hP] at hv
    obtain ⟨h1, es, e, h2, h3, h4, h5⟩ := hI.parent_ok v p hv hne
    exact ⟨h1, es, e, h2, h3, h4, by rw [hg, hg]; exact h5⟩
  · intro v hv; rw [hP] at hv
    obtain ⟨es, h1, h2⟩ := hI.sound v hv
    exact ⟨es, h1, by rw [hg]; exact h2⟩
  · rw [hP]; exact hI.chain

theorem Closed_transfer {adj : List (Int × List Edge)} {sc : Edge → ℚ}
    {D : List Int} {s s' : SearchState} (hC : Closed adj sc D s)
    (hg : ∀ v, gval s'.g_costs v = gval s.g_costs v) : Closed adj sc D s' := by
  intro u hu es hes e he
  rw [hg, hg]
  exact hC u hu es hes e he

theorem relax_edge_miss_inv {adj : List (Int × List Edge)} {sc : Edge → ℚ}
    {known : Int → Prop} {start : Int} {D : List Int} {s : SearchState} (cur : Int) (e : Edge)
    (hI : Inv adj sc known start D s)
    (h : ¬ gval s.g_costs cur + ((sc e : ℚ) : Cost) < gval s.g_costs e.to_node_id) :
    Inv adj sc known start D (relax_edge sc cur s e) := by
  obtain ⟨h1, h2, _⟩ := relax_edge_miss sc cur s e h
  refine Inv_transfer hI h1 h2 (relax_edge_miss_gval sc cur s e h) ?_
  intro v c hv
  exact relax_edge_find_keep sc cur s e v c hv (fun hh => by subst hh; exact h)

theorem relax_edge_hit_inv {adj : List (Int × List Edge)} {sc : Edge → ℚ}
    {known : Int → Prop} {start : Int} {D : List Int} {s : SearchState} {cur : Int}
    {es : List Edge} {e : Edge} (hsc : 0 ≤ sc e)
    (hI : Inv adj sc known start D s) (hcur : cur ∈ D)
    (hes : map_find cur adj = some es) (he : e ∈ es)
    (hle : ∀ u ∈ D, gval s.g_costs u ≤ gval s.g_costs cur)
    (h : gval s.g_costs cur + ((sc e : ℚ) : Cost) < gval s.g_costs e.to_node_id) :
    Inv adj sc known start D (relax_edge sc cur s e) ∧ e.to_node_id ∉ D := by
  obtain ⟨hpq, hP, hfind⟩ := relax_edge_hit sc cur s e h
  have hgv := relax_edge_hit_gval sc cur s e h
  have hsc' : (0 : Cost) ≤ ((sc e : ℚ) : Cost) := by exact_mod_cast hsc
  have hcge : gval s.g_costs cur ≤ gval s.g_costs cur + ((sc e : ℚ) : Cost) :=
    le_add_of_nonneg_right hsc'
  have hc0 : (0 : Cost) ≤ gval s.g_costs cur + ((sc e : ℚ) : Cost) :=
    le_trans (hI.g_nonneg cur) hcge
  have htD : e.to_node_id ∉ D := fun ht =>
    absurd h (not_lt.mpr (le_trans (hle _ ht) hcge))
  have hts : e.to_node_id ≠ start := fun ht =>
    absurd h (not_lt.mpr (by rw [ht, hI.start_zero]; exact hc0))
  have hct : cur ≠ e.to_node_id := fun hh => htD (hh ▸ hcur)
  obtain ⟨q, hq⟩ := hI.disc_fin cur (hI.done_disc cur hcur)
  have hgq : gval s.g_costs cur = (q : Cost) := gval_of_find hq
  have hkn : known e.to_node_id := by
    by_cases hd : map_find e.to_node_id s.parent_map = none
    · by_contra hk
      have := (hI.undisc _ hd).2 hk
      rw [this] at h
      exact absurd h (not_lt.mpr hc0)
    · rcases hI.disc_known _ hd with h1 | h1
      · exact absurd h1 hts
      · exact h1
  have hPf : ∀ v, map_find v (relax_edge sc cur s e).parent_map =
      if v = e.to_node_id then some cur else map_find v s.parent_map := by
    intro v; rw [hP, map_find_set]
  have hgD : ∀ u ∈ D, gval (relax_edge sc cur s e).g_costs u = gval s.g_costs u := by
    intro u hu
    rw [hgv, if_neg (fun hh : u = e.to_node_id => htD (hh ▸ hu))]
  refine ⟨?_, htD⟩
  constructor
  · intro v; rw [hgv]
    by_cases hv : v = e.to_node_id
    · rw [if_pos hv]; exact hc0
    · rw [if_neg hv]; exact hI.g_nonneg v
  · rw [hgv, if_neg (fun hh => hts hh.symm)]; exact hI.start_zero
  · rw [hPf, if_neg (fun hh => hts hh.symm)]; exact hI.start_parent
  · intro v hv
    rw [hPf] at hv
    by_cases hvt : v = e.to_node_id
    · rw [if_pos hvt] at hv; exact absurd hv (by simp)
    · rw [if_neg hvt] at hv
      rw [hgv, if_neg hvt]; exact hI.undisc v hv
  · intro v hv
    by_cases hvt : v = e.to_node_id
    · refine ⟨q + sc e, ?_⟩
      rw [hfind, if_pos hvt, hgq]; rfl
    · rw [hPf, if_neg hvt] at hv
      obtain ⟨q', hq'⟩ := hI.disc_fin v hv
      exact ⟨q', relax_edge_find_keep sc cur s e v _ hq' (fun hh => absurd hh hvt)⟩
  · intro v hv
    by_cases hvt : v = e.to_node_id
    · rw [hvt]; exact Or.inr hkn
    · rw [hPf, if_neg hvt] at hv
      exact hI.disc_known v hv
  · intro x hx
    rw [hpq] at hx
    rcases List.mem_cons.mp hx with hx | hx
    · subst hx
      refine ⟨?_, ?_⟩
      · rw [hPf]; simp
      · rw [hgv]; simp
    · obtain ⟨h1, h2⟩ := hI.pq_ge x hx
      by_cases hxt : x.2 = e.to_node_id
      · refine ⟨?_, ?_⟩
        · rw [hPf, if_pos hxt]; simp
        · rw [hgv, if_pos hxt]
          rw [hxt] at h2
          exact le_trans h.le h2
      · refine ⟨?_, ?_⟩
        · rw [hPf, if_neg hxt]; exact h1
        · rw [hgv, if_neg hxt]; exact h2
  · intro v hv hvD
    rw [hpq]
    by_cases hvt : v = e.to_node_id
    · rw [hgv, if_pos hvt, hvt]; exact List.mem_cons_self _ _
    · rw [hPf, if_neg hvt] at hv
      rw [hgv, if_neg hvt]
      exact List.mem_cons_of_mem _ (hI.pq_has v hv hvD)
  · intro u hu x hx
    rw [hgD u hu]
    rw [hpq] at hx
    rcases List.mem_cons.mp hx with hx | hx
    · subst hx; exact le_trans (hle u hu) hcge
    · exact hI.done_le u hu x hx
  · intro u hu
    rw [hPf, if_neg (fun hh : u = e.to_node_id => htD (hh ▸ hu))]
    exact hI.done_disc u hu
  · intro v p hv hvs
    by_cases hvt : v = e.to_node_id
    · rw [hPf, if_pos hvt] at hv
      have hp : p = cur := by simpa using hv.symm
      subst hp
      refine ⟨hcur, es, e, hes, he, hvt.symm, ?_⟩
      rw [hgD p hcur, hgv, if_pos hvt]
    · rw [hPf, if_neg hvt] at hv
      obtain ⟨h1, es', e', h2, h3, h4, h5⟩ := hI.parent_ok v p hv hvs
      refine ⟨h1, es', e', h2, h3, h4, ?_⟩
      rw [hgD p h1, hgv, if_neg hvt]; exact h5
  · intro v hv
    by_cases hvt : v = e.to_node_id
    · obtain ⟨es0, hw, hcost⟩ := hI.sound cur (hI.done_disc cur hcur)
      refine ⟨es0 ++ [e], ?_, ?_⟩
      · rw [hvt]; exact IsWalk_snoc hw e es hes he trivial
      · rw [hgv, if_pos hvt, hcost, walk_cost_snoc]; rfl
    · rw [hPf, if_neg hvt] at hv
      obtain ⟨es0, hw, hcost⟩ := hI.sound v hv
      exact ⟨es0, hw, by rw [hgv, if_neg hvt]; exact hcost⟩
  · refine Chain_congr ?_ hI.chain
    intro u hu
    rw [hPf, if_neg (fun hh : u = e.to_node_id => htD (hh ▸ hu))]

theorem relax_edge_step {adj : List (Int × List Edge)} {sc : Edge → ℚ}
    {known : Int → Prop} {start : Int} {D : List Int} {s : SearchState} {cur : Int}
    {es : List Edge} {e : Edge} (hsc : 0 ≤ sc e)
    (hI : Inv adj sc known start D s) (hcur : cur ∈ D)
    (hes : map_find cur adj = some es) (he : e ∈ es)
    (hle : ∀ u ∈ D, gval s.g_costs u ≤ gval s.g_costs cur) :
    Inv adj sc known start D (relax_edge sc cur s e) ∧
    (∀ u ∈ D, gval (relax_edge sc cur s e).g_costs u = gval s.g_costs u) ∧
    (∀ u ∈ D, map_find u (relax_edge sc cur s e).parent_map = map_find u s.parent_map) ∧
    (∀ v, gval (relax_edge sc cur s e).g_costs v ≤ gval s.g_costs v) ∧
    gval (relax_edge sc cur s e).g_costs e.to_node_id
      ≤ gval s.g_costs cur + ((sc e : ℚ) : Cost) ∧
    (relax_edge sc cur s e).pq.length ≤ s.pq.length + 1 := by
  by_cases h : gval s.g_costs cur + ((sc e : ℚ) : Cost) < gval s.g_costs e.to_node_id
  · obtain ⟨hI', htD⟩ := relax_edge_hit_inv hsc hI hcur hes he hle h
    obtain ⟨hpq, hP, _⟩ := relax_edge_hit sc cur s e h
    have hgv := relax_edge_hit_gval sc cur s e h
    refine ⟨hI', ?_, ?_, ?_, ?_, ?_⟩
    · intro u hu
      rw [hgv, if_neg (fun hh : u = e.to_node_id => htD (hh ▸ hu))]
    · intro u hu
      rw [hP, map_find_set, if_neg (fun hh : u = e.to_node_id => htD (hh ▸ hu))]
    · intro v
      rw [hgv]
      by_cases hv : v = e.to_node_id
      · rw [if_pos hv, hv]; exact h.le
      · rw [if_neg hv]
    · rw [hgv, if_pos rfl]
    · rw [hpq]; simp
  · obtain ⟨hpq, hP, _⟩ := relax_edge_miss sc cur s e h
    have hgv := relax_edge_miss_gval sc cur s e h
    refine ⟨relax_edge_miss_inv cur e hI h, fun u _ => hgv u, fun u _ => by rw [hP],
      fun v => (hgv v).le, ?_, ?_⟩
    · rw [hgv]; exact not_lt.mp h
    · rw [hpq]; simp

theorem fold_relax_fresh {adj : List (Int × List Edge)} {sc : Edge → ℚ}
    {known : Int → Prop} {start : Int} {D : List Int} {cur : Int} {es : List Edge}
    (hsc : ∀ e ∈ es, 0 ≤ sc e) (hcur : cur ∈ D) (hes : map_find cur adj = some es)
    (l : List Edge) (hl : ∀ e ∈ l, e ∈ es) (s : SearchState)
    (hI : Inv adj sc known start D s)
    (hle : ∀ u ∈ D, gval s.g_costs u ≤ gval s.g_costs cur) :
    Inv adj sc known start D (l.foldl (relax_edge sc cur) s) ∧
    (∀ u ∈ D, gval (l.foldl (relax_edge sc cur) s).g_costs u = gval s.g_costs u) ∧
    (∀ u ∈ D, map_find u (l.foldl (relax_edge sc cur) s).parent_map
      = map_find u s.parent_map) ∧
    (∀ v, gval (l.foldl (relax_edge sc cur) s).g_costs v ≤ gval s.g_costs v) ∧
    (∀ e ∈ l, gval (l.foldl (relax_edge sc cur) s).g_costs e.to_node_id
      ≤ gval s.g_costs cur + ((sc e : ℚ) : Cost)) ∧
    (l.foldl (relax_edge sc cur) s).pq.length ≤ s.pq.length + l.length := by
  induction l generalizing s with
  | nil =>
    exact ⟨hI, fun _ _ => rfl, fun _ _ => rfl, fun _ => le_refl _,
      fun e he => absurd he (List.not_mem_nil e), by simp⟩
  | cons e l ih =>
    simp only [List.foldl_cons]
    have he : e ∈ es := hl e (List.mem_cons_self _ _)
    obtain ⟨h1, h2, h3, h4, h5, h6⟩ := relax_edge_step (hsc e he) hI hcur hes he hle
    have hle' : ∀ u ∈ D, gval (relax_edge sc cur s e).g_costs u
        ≤ gval (relax_edge sc cur s e).g_costs cur := by
      intro u hu
      rw [h2 u hu, h2 cur hcur]; exact hle u hu
    obtain ⟨k1, k2, k3, k4, k5, k6⟩ :=
      ih (fun x hx => hl x (List.mem_cons_of_mem _ hx)) (relax_edge sc cur s e) h1 hle'
    refine ⟨k1, ?_, ?_, ?_, ?_, ?_⟩
    · intro u hu; rw [k2 u hu, h2 u hu]
    · intro u hu; rw [k3 u hu, h3 u hu]
    · intro v; exact le_trans (k4 v) (h4 v)
    · intro x hx
      rcases List.mem_cons.mp hx with hx | hx
      · subst hx; exact le_trans (k4 _) h5
      · have := k5 x hx
        rw [h2 cur hcur] at this
        exact this
    · simp only [List.length_cons]; omega

theorem fold_relax_stale {adj : List (Int × List Edge)} {sc : Edge → ℚ}
    {known : Int → Prop} {start : Int} {D : List Int} (cur : Int)
    (l : List Edge) (s : SearchState) (hI : Inv adj sc known start D s)
    (hl : ∀ e ∈ l, gval s.g_costs e.to_node_id ≤ gval s.g_costs cur + ((sc e : ℚ) : Cost)) :
    Inv adj sc known start D (l.foldl (relax_edge sc cur) s) ∧
    (∀ v, gval (l.foldl (relax_edge sc cur) s).g_costs v = gval s.g_costs v) ∧
    (l.foldl (relax_edge sc cur) s).pq = s.pq ∧
    (l.foldl (relax_edge sc cur) s).parent_map = s.parent_map := by
  induction l generalizing s with
  | nil => exact ⟨hI, fun _ => rfl, rfl, rfl⟩
  | cons e l ih =>
    simp only [List.foldl_cons]
    have h : ¬ gval s.g_costs cur + ((sc e : ℚ) : Cost) < gval s.g_costs e.to_node_id :=
      not_lt.mpr (hl e (List.mem_cons_self _ _))
    obtain ⟨hpq, hP, _⟩ := relax_edge_miss sc cur s e h
    have hgv := relax_edge_miss_gval sc cur s e h
    obtain ⟨k1, k2, k3, k4⟩ := ih (relax_edge sc cur s e) (relax_edge_miss_inv cur e hI h)
      (fun x hx => by rw [hgv, hgv]; exact hl x (List.mem_cons_of_mem _ hx))
    exact ⟨k1, fun v => by rw [k2, hgv], by rw [k3, hpq], by rw [k4, hP]⟩

/-! ## Popping the queue -/

theorem pq_pop_of_top {pq : List (Cost × Int)} {top : Cost × Int} (h : pq_top pq = some top) :
    pq_pop pq = pq.erase top := by
  unfold pq_pop; rw [h]

theorem pq_pop_length {pq : List (Cost × Int)} {top : Cost × Int} (h : pq_top pq = some top) :
    (pq_pop pq).length + 1 = pq.length := by
  rw [pq_pop_of_top h, List.length_erase_of_mem (pq_top_mem h)]
  have : 0 < pq.length := List.length_pos_of_mem (pq_top_mem h)
  omega

theorem Inv_pop_stale {adj : List (Int × List Edge)} {sc : Edge → ℚ} {known : Int → Prop}
    {start : Int} {D : List Int} {s : SearchState} {top : Cost × Int}
    (hI : Inv adj sc known start D s) (ht : pq_top s.pq = some top) (hD : top.2 ∈ D) :
    Inv adj sc known start D { s with pq := pq_pop s.pq } := by
  have hsub : ∀ x ∈ pq_pop s.pq, x ∈ s.pq := by
    intro x hx; rw [pq_pop_of_top ht] at hx; exact List.mem_of_mem_erase hx
  constructor
  · exact hI.g_nonneg
  · exact hI.start_zero
  · exact hI.start_parent
  · exact hI.undisc
  · exact hI.disc_fin
  · exact hI.disc_known
  · intro x hx; exact hI.pq_ge x (hsub x hx)
  · intro v hv hvD
    show (gval s.g_costs v, v) ∈ pq_pop s.pq
    rw [pq_pop_of_top ht]
    have hne : (gval s.g_costs v, v) ≠ top := by
      intro hh; apply hvD; rw [← hh] at hD; exact hD
    exact (List.mem_erase_of_ne hne).mpr (hI.pq_has v hv hvD)
  · intro u hu x hx; exact hI.done_le u hu x (hsub x hx)
  · exact hI.done_disc
  · exact hI.parent_ok
  · exact hI.sound
  · exact hI.chain

theorem Inv_pop_fresh {adj : List (Int × List Edge)} {sc : Edge → ℚ} {known : Int → Prop}
    {start : Int} {D : List Int} {s : SearchState} {top : Cost × Int}
    (hI : Inv adj sc known start D s) (ht : pq_top s.pq = some top) (hD : top.2 ∉ D) :
    Inv adj sc known start (top.2 :: D) { s with pq := pq_pop s.pq } ∧
    (∀ u ∈ top.2 :: D, gval s.g_costs u ≤ gval s.g_costs top.2) := by
  have hsub : ∀ x ∈ pq_pop s.pq, x ∈ s.pq := by
    intro x hx; rw [pq_pop_of_top ht] at hx; exact List.mem_of_mem_erase hx
  have htop := pq_top_mem ht
  have hdisc := (hI.pq_ge top htop).1
  have hge := (hI.pq_ge top htop).2
  have hmem := hI.pq_has top.2 hdisc hD
  have heq : top.1 ≤ gval s.g_costs top.2 := pq_top_fst_le ht _ hmem
  have hle : ∀ u ∈ top.2 :: D, gval s.g_costs u ≤ gval s.g_costs top.2 := by
    intro u hu
    rcases List.mem_cons.mp hu with hu | hu
    · rw [hu]
    · exact le_trans (hI.done_le u hu top htop) heq
  refine ⟨?_, hle⟩
  constructor
  · exact hI.g_nonneg
  · exact hI.start_zero
  · exact hI.start_parent
  · exact hI.undisc
  · exact hI.disc_fin
  · exact hI.disc_known
  · intro x hx; exact hI.pq_ge x (hsub x hx)
  · intro v hv hvD
    show (gval s.g_costs v, v) ∈ pq_pop s.pq
    rw [pq_pop_of_top ht]
    have hvt : v ≠ top.2 := fun hh => hvD (hh ▸ List.mem_cons_self _ _)
    have hvD' : v ∉ D := fun hh => hvD (List.mem_cons_of_mem _ hh)
    have hne : (gval s.g_costs v, v) ≠ top := by
      intro hh; apply hvt; rw [← hh]
    exact (List.mem_erase_of_ne hne).mpr (hI.pq_has v hv hvD')
  · intro u hu x hx
    exact le_trans (le_trans (hle u hu) hge) (pq_top_fst_le ht x (hsub x hx))
  · intro u hu
    rcases List.mem_cons.mp hu with hu | hu
    · rw [hu]; exact hdisc
    · exact hI.done_disc u hu
  · intro v p hv hvs
    obtain ⟨h1, h2⟩ := hI.parent_ok v p hv hvs
    exact ⟨List.mem_cons_of_mem _ h1, h2⟩
  · exact hI.sound
  · refine ⟨?_, hI.chain⟩
    by_cases hs : top.2 = start
    · exact Or.inl hs
    · cases hp : map_find top.2 s.parent_map with
      | none => exact absurd hp hdisc
      | some p => exact Or.inr ⟨p, rfl, (hI.parent_ok top.2 p hp hs).1⟩

/-! ## The search loop ends, and the invariant holds when it does -/

theorem rem_edges_nil (adj : List (Int × List Edge)) : rem_edges adj [] = edge_count adj := by
  induction adj with
  | nil => rfl
  | cons p adj ih => simp [rem_edges, edge_count, ih] at *

theorem rem_edges_cons_le (adj : List (Int × List Edge)) (x : Int) (D : List Int) :
    rem_edges adj (x :: D) ≤ rem_edges adj D := by
  induction adj with
  | nil => simp [rem_edges]
  | cons p adj ih =>
    simp only [rem_edges]
    by_cases h1 : p.1 ∈ D
    · have h2 : p.1 ∈ x :: D := List.mem_cons_of_mem _ h1
      simp only [h1, h2, if_true]; omega
    · by_cases h2 : p.1 ∈ x :: D
      · simp only [h1, h2, if_true, if_false]; omega
      · simp only [h1, h2, if_false]; omega

theorem rem_edges_pop {adj : List (Int × List Edge)} {cur : Int} {es : List Edge}
    {D : List Int} (hes : map_find cur adj = some es) (hD : cur ∉ D) :
    rem_edges adj (cur :: D) + es.length ≤ rem_edges adj D := by
  induction adj with
  | nil => simp [map_find] at hes
  | cons p adj ih =>
    obtain ⟨k, l⟩ := p
    simp only [map_find] at hes
    simp only [rem_edges]
    by_cases hk : k = cur
    · rw [if_pos hk] at hes
      have hl : l = es := by simpa using hes
      subst hk; subst hl
      have := rem_edges_cons_le adj k D
      simp only [List.mem_cons, true_or, if_true, hD, if_false]
      omega
    · rw [if_neg hk] at hes
      have := ih hes
      by_cases h1 : k ∈ D
      · have h2 : k ∈ cur :: D := List.mem_cons_of_mem _ h1
        simp only [h1, h2, if_true]; omega
      · have h2 : k ∉ cur :: D := by
          intro hh
          rcases List.mem_cons.mp hh with hh | hh
          · exact hk hh
          · exact h1 hh
        simp only [h1, h2, if_false]; omega

theorem search_loop_post {adj : List (Int × List Edge)} {sc : Edge → ℚ}
    {known : Int → Prop} {start endn : Int} (F : Nat)
    (hsc : ∀ w l e, map_find w adj = some l → e ∈ l → 0 ≤ sc e) :
    ∀ (fuel : Nat) (s : SearchState) (D : List Int),
      Inv adj sc known start D s → Closed adj sc D s → endn ∉ D →
      s.pq.length + rem_edges adj D < fuel → D.length + fuel ≤ F →
      ∃ b s', search_loop adj sc endn fuel s = some (b, s') ∧
        Post adj sc known start endn F b s' := by
  intro fuel
  induction fuel with
  | zero => intro s D _ _ _ h _; omega
  | succ fuel ih =>
    intro s D hI hC hE hm hF
    unfold search_loop
    cases ht : pq_top s.pq with
    | none =>
      refine ⟨false, s, rfl, D, s, hI, hC, hE, by omega, rfl, rfl, Or.inl ⟨rfl, ?_⟩⟩
      exact pq_top_eq_none.mp ht
    | some top =>
      simp only
      by_cases hte : top.2 = endn
      · rw [if_pos hte]
        exact ⟨true, _, rfl, D, s, hI, hC, hE, by omega, rfl, rfl, Or.inr ⟨rfl, top, ht, hte⟩⟩
      · rw [if_neg hte]
        have hlen := pq_pop_length ht
        by_cases hD : top.2 ∈ D
        · -- a stale entry: nothing changes
          have hI1 := Inv_pop_stale hI ht hD
          have hC1 : Closed adj sc D { s with pq := pq_pop s.pq } :=
            Closed_transfer hC (fun _ => rfl)
          cases hes : map_find top.2 adj with
          | none =>
            exact ih _ D hI1 hC1 hE (by simp only; omega) (by omega)
          | some es =>
            simp only
            obtain ⟨k1, k2, k3, _⟩ := fold_relax_stale top.2 es _ hI1
              (fun e he => hC1 top.2 hD es hes e he)
            exact ih _ D k1 (Closed_transfer hC1 k2) hE (by rw [k3]; simp only; omega)
              (by omega)
        · -- the first pop of this node
          obtain ⟨hI1, hle⟩ := Inv_pop_fresh hI ht hD
          have hC1 : Closed adj sc D { s with pq := pq_pop s.pq } :=
            Closed_transfer hC (fun _ => rfl)
          have hE' : endn ∉ top.2 :: D := by
            intro hh
            rcases List.mem_cons.mp hh with hh | hh
            · exact hte hh.symm
            · exact hE hh
          cases hes : map_find top.2 adj with
          | none =>
            have hC2 : Closed adj sc (top.2 :: D) { s with pq := pq_pop s.pq } := by
              intro u hu es' hes' e he
              rcases List.mem_cons.mp hu with hu | hu
              · rw [hu, hes] at hes'; exact absurd hes' (by simp)
              · exact hC1 u hu es' hes' e he
            have := rem_edges_cons_le adj top.2 D
            exact ih _ (top.2 :: D) hI1 hC2 hE' (by simp only; omega)
              (by simp only [List.length_cons]; omega)
          | some es =>
            simp only
            obtain ⟨k1, k2, _, k4, k5, k6⟩ := fold_relax_fresh (fun e he => hsc top.2 es e hes he)
              (List.mem_cons_self _ _) hes es (fun _ h => h) _ hI1 hle
            have hC2 : Closed adj sc (top.2 :: D)
                (es.foldl (relax_edge sc top.2) { s with pq := pq_pop s.pq }) := by
              intro u hu es' hes' e he
              rw [k2 u hu]
              rcases List.mem_cons.mp hu with hu' | hu'
              · rw [hu', hes] at hes'
                have : es = es' := by simpa using hes'
                subst this
                rw [hu']
                exact k5 e he
              · exact le_trans (k4 _) (hC1 u hu' es' hes' e he)
            have := rem_edges_pop hes hD
            simp only at k6
            exact ih _ (top.2 :: D) k1 hC2 hE' (by omega)
              (by simp only [List.length_cons]; omega)

/-! ## The initial state -/

theorem map_find_init_fold (v : Int) (l : List (Int × Node)) (acc : List (Int × Cost)) :
    map_find v (l.foldl (fun gc p => map_set p.1 (⊤ : Cost) gc) acc) =
      if map_find v l ≠ none then some ⊤ else map_find v acc := by
  induction l generalizing acc with
  | nil => simp [map_find]
  | cons p l ih =>
    obtain ⟨k, n⟩ := p
    simp only [List.foldl_cons, ih, map_find, map_find_set]
    by_cases hk : k = v
    · subst hk
      by_cases h : map_find k l ≠ none
      · simp [h]
      · simp [h]
    · have hk' : ¬ v = k := fun hh => hk hh.symm
      by_cases h : map_find v l ≠ none
      · simp [h, hk]
      · simp [h, hk, hk']

theorem init_state_find (ni : List (Int × Node)) (start v : Int) :
    map_find v (init_state ni start).g_costs =
      if v = start then some 0 else if map_find v ni ≠ none then some ⊤ else none := by
  simp only [init_state, map_find_set, map_find_init_fold, map_find]

theorem init_state_gval (ni : List (Int × Node)) (start v : Int) :
    gval (init_state ni start).g_costs v =
      if v = start then 0 else if map_find v ni ≠ none then ⊤ else 0 := by
  unfold gval
  rw [init_state_find]
  by_cases h1 : v = start
  · simp [h1]
  · by_cases h2 : map_find v ni ≠ none
    · simp [h1, h2]
    · simp [h1, h2]

theorem init_state_parent (ni : List (Int × Node)) (start v : Int) :
    map_find v (init_state ni start).parent_map = if v = start then some (-1) else none := by
  show map_find v (map_set start (-1) []) = _
  rw [map_find_set]
  rfl

theorem Inv_init (adj : List (Int × List Edge)) (sc : Edge → ℚ) (ni : List (Int × Node))
    (start : Int) : Inv adj sc (known_in ni) start [] (init_state ni start) := by
  have hP := init_state_parent ni start
  have hg := init_state_gval ni start
  have hd : ∀ v, map_find v (init_state ni start).parent_map ≠ none → v = start := by
    intro v hv
    rw [hP] at hv
    by_contra hh
    rw [if_neg hh] at hv
    exact hv rfl
  constructor
  · intro v; rw [hg]
    by_cases h1 : v = start
    · simp [h1]
    · by_cases h2 : map_find v ni ≠ none
      · simp [h1, h2]
      · simp [h1, h2]
  · rw [hg]; simp
  · rw [hP]; simp
  · intro v hv
    have h1 : v ≠ start := by
      intro hh; rw [hP, if_pos hh] at hv; simp at hv
    rw [hg, if_neg h1]
    unfold known_in
    constructor
    · intro hk; rw [if_pos hk]
    · intro hk; rw [if_neg hk]
  · intro v hv
    have := hd v hv
    subst this
    exact ⟨0, by rw [init_state_find]; simp⟩
  · intro v hv; exact Or.inl (hd v hv)
  · intro x hx
    have hx' : x = ((0 : Cost), start) := by simpa [init_state] using hx
    subst hx'
    refine ⟨by rw [hP]; simp, ?_⟩
    rw [hg]; simp
  · intro v hv _
    have := hd v hv
    subst this
    rw [hg]; simp [init_state]
  · intro u hu; exact absurd hu (List.not_mem_nil u)
  · intro u hu; exact absurd hu (List.not_mem_nil u)
  · intro v p hv hvs
    exact absurd (hd v (by rw [hv]; simp)) hvs
  · intro v hv
    have := hd v hv
    subst this
    exact ⟨[], rfl, by rw [hg]; simp [walk_cost]⟩
  · trivial

theorem Closed_nil (adj : List (Int × List Edge)) (sc : Edge → ℚ) (s : SearchState) :
    Closed adj sc [] s := by
  intro u hu; exact absurd hu (List.not_mem_nil u)

/-! ## What the invariant gives when the loop ends -/

theorem exit_bound {adj : List (Int × List Edge)} {sc : Edge → ℚ} {known : Int → Prop}
    {start : Int} {D : List Int} {s : SearchState}
    (hsc : ∀ w l e, map_find w adj = some l → e ∈ l → 0 ≤ sc e)
    (hI : Inv adj sc known start D s) (hC : Closed adj sc D s) (m : Cost)
    (hm : ∀ x ∈ s.pq, m ≤ x.1) :
    ∀ (es : List Edge) (u v : Int), u ∈ D → v ∉ D →
      IsWalk adj (fun t => t = start ∨ known t) u es v →
      m ≤ gval s.g_costs u + ((walk_cost sc es : ℚ) : Cost) := by
  intro es
  induction es with
  | nil =>
    intro u v hu hv hw
    simp only [IsWalk] at hw
    subst hw
    exact absurd hu hv
  | cons e es ih =>
    intro u v hu hv hw
    obtain ⟨⟨l, hl, he⟩, hok, hw'⟩ := hw
    have hcl := hC u hu l hl e he
    have hb : (0 : Cost) ≤ ((walk_cost sc es : ℚ) : Cost) := by
      exact_mod_cast walk_cost_nonneg hsc hw'
    have hsplit : gval s.g_costs u + ((walk_cost sc (e :: es) : ℚ) : Cost)
        = (gval s.g_costs u + ((sc e : ℚ) : Cost)) + ((walk_cost sc es : ℚ) : Cost) := by
      rw [walk_cost_cons, WithTop.coe_add, add_assoc]
    rw [hsplit]
    by_cases ht : e.to_node_id ∈ D
    · exact le_trans (ih e.to_node_id v ht hv hw') (add_le_add_right hcl _)
    · obtain ⟨q, hq⟩ := hI.disc_fin u (hI.done_disc u hu)
      have hgu : gval s.g_costs u = (q : Cost) := gval_of_find hq
      have hdisc : map_find e.to_node_id s.parent_map ≠ none := by
        intro hnd
        rcases hok with h1 | h1
        · rw [h1, hI.start_parent] at hnd; simp at hnd
        · have := (hI.undisc _ hnd).1 h1
          rw [this, hgu, ← WithTop.coe_add] at hcl
          exact absurd hcl (not_le.mpr (WithTop.coe_lt_top _))
      have h1 := hm _ (hI.pq_has _ hdisc ht)
      exact le_trans (le_trans h1 hcl) (le_add_of_nonneg_right hb)

theorem Post_true_opt {adj : List (Int × List Edge)} {sc : Edge → ℚ} {known : Int → Prop}
    {start endn : Int} {F : Nat} {s' : SearchState}
    (hsc : ∀ w l e, map_find w adj = some l → e ∈ l → 0 ≤ sc e)
    (hP : Post adj sc known start endn F true s') (es : List Edge)
    (hw : IsWalk adj (fun t => t = start ∨ known t) start es endn) :
    gval s'.g_costs endn ≤ ((walk_cost sc es : ℚ) : Cost) := by
  obtain ⟨D, s0, hI, hC, hE, _, hg, _, hb⟩ := hP
  rcases hb with ⟨hb, _⟩ | ⟨_, top, ht, hte⟩
  · exact absurd hb (by simp)
  · rw [hg]
    have htm := pq_top_mem ht
    have h1 : gval s0.g_costs endn ≤ top.1 := by
      have := (hI.pq_ge top htm).2
      rw [hte] at this; exact this
    refine le_trans h1 ?_
    by_cases hs : start ∈ D
    · have := exit_bound hsc hI hC top.1 (pq_top_fst_le ht) es start endn hs hE hw
      rw [hI.start_zero, zero_add] at this
      exact this
    · have h2 := pq_top_fst_le ht _ (hI.pq_has start (by rw [hI.start_parent]; simp) hs)
      simp only [hI.start_zero] at h2
      refine le_trans h2 ?_
      exact_mod_cast walk_cost_nonneg hsc hw

theorem Post_true_sound {adj : List (Int × List Edge)} {sc : Edge → ℚ} {known : Int → Prop}
    {start endn : Int} {F : Nat} {s' : SearchState}
    (hP : Post adj sc known start endn F true s') :
    ∃ es, IsWalk adj (fun _ => True) start es endn ∧
      map_find endn s'.g_costs = some ((walk_cost sc es : ℚ) : Cost) := by
  obtain ⟨D, s0, hI, _, _, _, hg, _, hb⟩ := hP
  rcases hb with ⟨hb, _⟩ | ⟨_, top, ht, hte⟩
  · exact absurd hb (by simp)
  · have hd : map_find endn s0.parent_map ≠ none := by
      have := (hI.pq_ge top (pq_top_mem ht)).1
      rw [hte] at this; exact this
    obtain ⟨es, hw, hc⟩ := hI.sound endn hd
    obtain ⟨q, hq⟩ := hI.disc_fin endn hd
    refine ⟨es, hw, ?_⟩
    rw [hg, hq, ← hc, gval_of_find hq]

theorem Post_false_undisc {adj : List (Int × List Edge)} {sc : Edge → ℚ}
    {known : Int → Prop} {start endn : Int} {F : Nat} {s' : SearchState}
    (hP : Post adj sc known start endn F false s') :
    map_find endn s'.parent_map = none := by
  obtain ⟨D, s0, hI, _, hE, _, _, hp, hb⟩ := hP
  rcases hb with ⟨_, hpq⟩ | ⟨hb, _⟩
  · by_contra hd
    rw [hp] at hd
    have := hI.pq_has endn hd hE
    rw [hpq] at this
    exact absurd this (List.not_mem_nil _)
  · exact absurd hb (by simp)

theorem Post_false_unreach {adj : List (Int × List Edge)} {sc : Edge → ℚ}
    {known : Int → Prop} {start endn : Int} {F : Nat} {s' : SearchState}
    (hP : Post adj sc known start endn F false s') (es : List Edge) :
    ¬ IsWalk adj (fun t => t = start ∨ known t) start es endn := by
  obtain ⟨D, s0, hI, hC, hE, _, _, _, hb⟩ := hP
  rcases hb with ⟨_, hpq⟩ | ⟨hb, _⟩
  · have hall : ∀ v, map_find v s0.parent_map ≠ none → v ∈ D := by
      intro v hv
      by_contra hvD
      have := hI.pq_has v hv hvD
      rw [hpq] at this
      exact absurd this (List.not_mem_nil _)
    have hs : start ∈ D := hall start (by rw [hI.start_parent]; simp)
    have key : ∀ (l : List Edge) (u : Int), u ∈ D →
        IsWalk adj (fun t => t = start ∨ known t) u l endn → False := by
      intro l
      induction l with
      | nil =>
        intro u hu hw
        simp only [IsWalk] at hw
        subst hw
        exact hE hu
      | cons e l ih =>
        intro u hu hw
        obtain ⟨⟨l', hl', he⟩, hok, hw'⟩ := hw
        refine ih e.to_node_id (hall _ ?_) hw'
        intro hnd
        have hcl := hC u hu l' hl' e he
        obtain ⟨q, hq⟩ := hI.disc_fin u (hI.done_disc u hu)
        rcases hok with h1 | h1
        · rw [h1, hI.start_parent] at hnd; simp at hnd
        · have := (hI.undisc _ hnd).1 h1
          rw [this, gval_of_find hq, ← WithTop.coe_add] at hcl
          exact absurd hcl (not_le.mpr (WithTop.coe_lt_top _))
    exact key es start hs
  · exact absurd hb (by simp)

/-! ## The predecessor walk and the report -/

theorem walk_back_done {P : List (Int × Int)} {start : Int} :
    ∀ (D : List Int), Chain P start D → (∀ u ∈ D, map_find u P ≠ none) →
      ∀ (u : Int), u ∈ D → ∀ (fuel : Nat), D.length ≤ fuel → ∀ (acc : List Int),
        ∃ l, walk_back P start fuel u acc = some (acc ++ l) ∧ l.head? = some u ∧
          l.getLast? = some start ∧ ∀ x ∈ l, x ∈ D := by
  intro D
  induction D with
  | nil => intro _ _ u hu; exact absurd hu (List.not_mem_nil u)
  | cons d D ih =>
    intro hc hd u hu fuel hf acc
    obtain ⟨h1, h2⟩ := hc
    have hd' : ∀ u ∈ D, map_find u P ≠ none := fun w hw => hd w (List.mem_cons_of_mem _ hw)
    simp only [List.length_cons] at hf
    by_cases huD : u ∈ D
    · obtain ⟨l, k1, k2, k3, k4⟩ := ih h2 hd' u huD fuel (by omega) acc
      exact ⟨l, k1, k2, k3, fun x hx => List.mem_cons_of_mem _ (k4 x hx)⟩
    · have hud : u = d := by
        rcases List.mem_cons.mp hu with h | h
        · exact h
        · exact absurd h huD
      subst hud
      cases fuel with
      | zero => omega
      | succ n =>
        simp only [walk_back]
        cases hp : map_find u P with
        | none => exact absurd hp (hd u hu)
        | some p =>
          simp only
          by_cases hs : u = start
          · rw [if_pos hs]
            exact ⟨[u], rfl, rfl, by simp [hs], fun x hx => by
              have : x = u := by simpa using hx
              rw [this]; exact hu⟩
          · rw [if_neg hs]
            rcases h1 with h1 | ⟨p', hp', hpD⟩
            · exact absurd h1 hs
            · have hpp : p' = p := by rw [hp] at hp'; simpa using hp'.symm
              subst hpp
              obtain ⟨l, k1, k2, k3, k4⟩ := ih h2 hd' p' hpD n (by omega) (acc ++ [u])
              refine ⟨u :: l, ?_, rfl, ?_, ?_⟩
              · rw [k1]; simp
              · cases l with
                | nil => simp at k2
                | cons y ys => rw [List.getLast?_cons_cons]; exact k3
              · intro x hx
                rcases List.mem_cons.mp hx with h | h
                · rw [h]; exact hu
                · exact List.mem_cons_of_mem _ (k4 x h)

theorem walk_back_end {adj : List (Int × List Edge)} {sc : Edge → ℚ} {known : Int → Prop}
    {start endn : Int} {D : List Int} {s : SearchState} {F : Nat}
    (hI : Inv adj sc known start D s) (hd : map_find endn s.parent_map ≠ none)
    (hF : D.length + 1 ≤ F) :
    ∃ l, walk_back s.parent_map start F endn [] = some l ∧ l.head? = some endn ∧
      l.getLast? = some start ∧ ∀ x ∈ l, map_find x s.parent_map ≠ none := by
  cases F with
  | zero => omega
  | succ n =>
    simp only [walk_back]
    cases hp : map_find endn s.parent_map with
    | none => exact absurd hp hd
    | some p =>
      simp only
      by_cases hs : endn = start
      · rw [if_pos hs]
        exact ⟨[endn], rfl, rfl, by simp [hs], fun x hx => by
          have : x = endn := by simpa using hx
          rw [this]; exact hd⟩
      · rw [if_neg hs]
        have hpD := (hI.parent_ok endn p hp hs).1
        obtain ⟨l, k1, k2, k3, k4⟩ :=
          walk_back_done D hI.chain hI.done_disc p hpD n (by omega) ([] ++ [endn])
        refine ⟨endn :: l, ?_, rfl, ?_, ?_⟩
        · rw [k1]; simp
        · cases l with
          | nil => simp at k2
          | cons y ys => rw [List.getLast?_cons_cons]; exact k3
        · intro x hx
          rcases List.mem_cons.mp hx with h | h
          · rw [h]; exact hd
          · exact hI.done_disc x (k4 x h)

theorem print_names_known (ni : List (Int × Node)) (l : List Int)
    (h : ∀ x ∈ l, map_find x ni ≠ none) : (print_names ni l).2 = ni := by
  induction l with
  | nil => rfl
  | cons x l ih =>
    simp only [print_names]
    cases hx : map_find x ni with
    | none => exact absurd hx (h x (List.mem_cons_self _ _))
    | some n =>
      rw [map_index_of_find _ _ _ _ hx]
      exact ih (fun y hy => h y (List.mem_cons_of_mem _ hy))

theorem reconstruct_path_found (fuel : Nat) (g : Graph) (start endn : Int)
    (P : List (Int × Int)) (gc : List (Int × Cost)) (l : List Int) (q : Cost)
    (hwb : walk_back P start fuel endn [] = some l) (hl : l.getLast? = some start)
    (hq : map_find endn gc = some q) :
    reconstruct_path fuel g start endn P gc =
      some (Report.path l.reverse (print_names g.nodes_info l.reverse).1 q,
        { g with nodes_info := (print_names g.nodes_info l.reverse).2 }) := by
  unfold reconstruct_path
  rw [hwb]
  have hne : l ≠ [] := by
    intro h; rw [h] at hl; simp at hl
  simp [hne, hl, hq]

theorem reconstruct_path_undisc (fuel : Nat) (g : Graph) (start endn : Int)
    (P : List (Int × Int)) (gc : List (Int × Cost)) (hd : map_find endn P = none) :
    reconstruct_path (fuel + 1) g start endn P gc = some (Report.no_path, g) := by
  unfold reconstruct_path
  simp [walk_back, hd]

/-! ## Scores are non-negative on a valid graph -/

theorem map_find_mem {α : Type} {k : Int} {v : α} {m : List (Int × α)}
    (h : map_find k m = some v) : (k, v) ∈ m := by
  induction m with
  | nil => simp [map_find] at h
  | cons x m ih =>
    obtain ⟨k0, v0⟩ := x
    simp only [map_find] at h
    by_cases hk : k0 = k
    · rw [if_pos hk] at h
      have : v0 = v := by simpa using h
      rw [hk, this]; exact List.mem_cons_self _ _
    · rw [if_neg hk] at h
      exact List.mem_cons_of_mem _ (ih h)

theorem edge_time_nonneg {e : Edge} (h : valid_edge e) : 0 ≤ edge_time e := by
  obtain ⟨h1, h2, h3, _⟩ := h
  unfold edge_time
  have : 0 ≤ e.traffic_multiplier := le_trans zero_le_one h3
  positivity

theorem edge_cost_nonneg {e : Edge} (h : valid_edge e) : 0 ≤ edge_cost e := by
  obtain ⟨h1, _, _, h4⟩ := h
  unfold edge_cost fuel_price_per_km
  positivity

theorem norm_time_nonneg (m : Maxes) {e : Edge} (h : valid_edge e) : 0 ≤ norm_time m e := by
  unfold norm_time
  split
  · exact div_nonneg (edge_time_nonneg h) (le_of_lt (by assumption))
  · exact le_refl _

theorem norm_dist_nonneg (m : Maxes) {e : Edge} (h : valid_edge e) : 0 ≤ norm_dist m e := by
  unfold norm_dist
  split
  · exact div_nonneg (le_of_lt h.1) (le_of_lt (by assumption))
  · exact le_refl _

theorem norm_cost_nonneg (m : Maxes) {e : Edge} (h : valid_edge e) : 0 ≤ norm_cost m e := by
  unfold norm_cost
  split
  · exact div_nonneg (edge_cost_nonneg h) (le_of_lt (by assumption))
  · exact le_refl _

theorem unified_score_nonneg (m : Maxes) {w_time w_dist w_cost : ℚ} {e : Edge}
    (h : valid_edge e) (ht : 0 ≤ w_time) (hd : 0 ≤ w_dist) (hc : 0 ≤ w_cost) :
    0 ≤ unified_score m w_time w_dist w_cost e := by
  unfold unified_score
  have h1 := mul_nonneg (norm_time_nonneg m h) ht
  have h2 := mul_nonneg (norm_dist_nonneg m h) hd
  have h3 := mul_nonneg (norm_cost_nonneg m h) hc
  linarith

theorem score_nonneg_of_valid {g : Graph} (hv : valid_graph g) (m : Maxes)
    {w_time w_dist w_cost : ℚ} (ht : 0 ≤ w_time) (hd : 0 ≤ w_dist) (hc : 0 ≤ w_cost) :
    ∀ w l e, map_find w g.adj_list = some l → e ∈ l →
      0 ≤ unified_score m w_time w_dist w_cost e := by
  intro w l e hl he
  exact unified_score_nonneg m (hv (w, l) (map_find_mem hl) e he) ht hd hc

/-! ## The search as a whole -/

theorem search_post {g : Graph} {sc : Edge → ℚ} (start endn : Int)
    (hsc : ∀ w l e, map_find w g.adj_list = some l → e ∈ l → 0 ≤ sc e)
    (fuel : Nat) (hf : edge_count g.adj_list + 2 ≤ fuel) :
    ∃ b s', search_loop g.adj_list sc endn fuel (init_state g.nodes_info start) = some (b, s') ∧
      Post g.adj_list sc (known_in g.nodes_info) start endn fuel b s' := by
  refine search_loop_post fuel hsc fuel _ [] (Inv_init _ _ _ _) (Closed_nil _ _ _)
    (List.not_mem_nil _) ?_ (by simp)
  rw [rem_edges_nil]
  simp only [init_state, List.length_singleton]
  omega

theorem find_optimal_path_true {g : Graph} {start endn : Int} {w_time w_dist w_cost : ℚ}
    {fuel : Nat} {s' : SearchState}
    (hs : search_loop g.adj_list (unified_score (compute_maxes g.adj_list) w_time w_dist w_cost)
      endn fuel (init_state g.nodes_info start) = some (true, s'))
    (hP : Post g.adj_list (unified_score (compute_maxes g.adj_list) w_time w_dist w_cost)
      (known_in g.nodes_info) start endn fuel true s') :
    ∃ l es, walk_back s'.parent_map start fuel endn [] = some l ∧
      l.head? = some endn ∧ l.getLast? = some start ∧
      (∀ x ∈ l, map_find x s'.parent_map ≠ none ∧ (x = start ∨ known_in g.nodes_info x)) ∧
      IsWalk g.adj_list (fun _ => True) start es endn ∧
      map_find endn s'.g_costs = some ((walk_cost
        (unified_score (compute_maxes g.adj_list) w_time w_dist w_cost) es : ℚ) : Cost) ∧
      find_optimal_path fuel g start endn w_time w_dist w_cost =
        some (Report.path l.reverse (print_names g.nodes_info l.reverse).1
          ((walk_cost (unified_score (compute_maxes g.adj_list) w_time w_dist w_cost) es : ℚ)
            : Cost),
          { g with nodes_info := (print_names g.nodes_info l.reverse).2 }) := by
  obtain ⟨es, hw, hq⟩ := Post_true_sound hP
  obtain ⟨D, s0, hI, _, _, hF, _, hp, hb⟩ := hP
  rcases hb with ⟨hb, _⟩ | ⟨_, top, ht, hte⟩
  · exact absurd hb (by simp)
  · have hd : map_find endn s0.parent_map ≠ none := by
      have := (hI.pq_ge top (pq_top_mem ht)).1
      rw [hte] at this; exact this
    obtain ⟨l, k1, k2, k3, k4⟩ := walk_back_end hI hd hF
    rw [← hp] at k1 k4
    refine ⟨l, es, k1, k2, k3, ?_, hw, hq, ?_⟩
    · intro x hx
      refine ⟨k4 x hx, hI.disc_known x ?_⟩
      rw [← hp]; exact k4 x hx
    · unfold find_optimal_path
      simp only [hs]
      exact reconstruct_path_found fuel g start endn _ _ l _ k1 k3 hq

theorem find_optimal_path_false {g : Graph} {start endn : Int} {w_time w_dist w_cost : ℚ}
    {fuel : Nat} {s' : SearchState}
    (hs : search_loop g.adj_list (unified_score (compute_maxes g.adj_list) w_time w_dist w_cost)
      endn fuel (init_state g.nodes_info start) = some (false, s'))
    (hP : Post g.adj_list (unified_score (compute_maxes g.adj_list) w_time w_dist w_cost)
      (known_in g.nodes_info) start endn fuel false s') :
    find_optimal_path fuel g start endn w_time w_dist w_cost = some (Report.no_path, g) := by
  have hd := Post_false_undisc hP
  obtain ⟨D, _, _, _, _, hF, _, _, _⟩ := hP
  unfold find_optimal_path
  simp only [hs]
  cases fuel with
  | zero => omega
  | succ n => exact reconstruct_path_undisc n g start endn _ _ hd

/-! ## The maxima of the pre-pass bound every edge -/

theorem Maxes.covers_mono {m m' : Maxes} {e : Edge} (h : m.below m') (hc : m.covers e) :
    m'.covers e :=
  ⟨le_trans hc.1 h.1, le_trans hc.2.1 h.2.1, le_trans hc.2.2 h.2.2⟩

theorem scan_edge_below (m : Maxes) (e : Edge) : m.below (scan_edge m e) := by
  unfold Maxes.below scan_edge
  refine ⟨?_, ?_, ?_⟩ <;> simp only <;> split <;> first | exact le_of_lt (by assumption) | exact le_refl _

theorem scan_edge_covers (m : Maxes) (e : Edge) : (scan_edge m e).covers e := by
  unfold Maxes.covers scan_edge
  refine ⟨?_, ?_, ?_⟩ <;> simp only <;> split <;> first | exact le_refl _ | exact not_lt.mp (by assumption)

theorem fold_scan_below (l : List Edge) (m : Maxes) : m.below (l.foldl scan_edge m) := by
  induction l generalizing m with
  | nil => exact ⟨le_refl _, le_refl _, le_refl _⟩
  | cons e l ih =>
    have h1 := scan_edge_below m e
    have h2 := ih (scan_edge m e)
    exact ⟨le_trans h1.1 h2.1, le_trans h1.2.1 h2.2.1, le_trans h1.2.2 h2.2.2⟩

theorem fold_scan_covers (l : List Edge) (m : Maxes) :
    ∀ e ∈ l, (l.foldl scan_edge m).covers e := by
  induction l generalizing m with
  | nil => intro e he; exact absurd he (List.not_mem_nil e)
  | cons x l ih =>
    intro e he
    rcases List.mem_cons.mp he with h | h
    · subst h
      exact Maxes.covers_mono (fold_scan_below l _) (scan_edge_covers m e)
    · exact ih (scan_edge m x) e h

theorem fold_adj_below (adj : List (Int × List Edge)) (m : Maxes) :
    m.below (adj.foldl (fun m p => p.2.foldl scan_edge m) m) := by
  induction adj generalizing m with
  | nil => exact ⟨le_refl _, le_refl _, le_refl _⟩
  | cons p adj ih =>
    have h1 := fold_scan_below p.2 m
    have h2 := ih (p.2.foldl scan_edge m)
    exact ⟨le_trans h1.1 h2.1, le_trans h1.2.1 h2.2.1, le_trans h1.2.2 h2.2.2⟩

theorem fold_adj_covers (adj : List (Int × List Edge)) (m : Maxes) :
    ∀ p ∈ adj, ∀ e ∈ p.2, (adj.foldl (fun m p => p.2.foldl scan_edge m) m).covers e := by
  induction adj generalizing m with
  | nil => intro p hp; exact absurd hp (List.not_mem_nil p)
  | cons x adj ih =>
    intro p hp e he
    rcases List.mem_cons.mp hp with h | h
    · subst h
      exact Maxes.covers_mono (fold_adj_below adj _) (fold_scan_covers p.2 m e he)
    · exact ih (x.2.foldl scan_edge m) p h e he

theorem compute_maxes_covers (adj : List (Int × List Edge)) :
    ∀ p ∈ adj, ∀ e ∈ p.2, (compute_maxes adj).covers e :=
  fold_adj_covers adj ⟨0, 0, 0⟩

theorem norm_time_le_one {m : Maxes} {e : Edge} (h : m.covers e) : norm_time m e ≤ 1 := by
  unfold norm_time
  split
  · exact (div_le_one (by assumption)).mpr h.1
  · exact zero_le_one

theorem norm_dist_le_one {m : Maxes} {e : Edge} (h : m.covers e) : norm_dist m e ≤ 1 := by
  unfold norm_dist
  split
  · exact (div_le_one (by assumption)).mpr h.2.1
  · exact zero_le_one

theorem norm_cost_le_one {m : Maxes} {e : Edge} (h : m.covers e) : norm_cost m e ≤ 1 := by
  unfold norm_cost
  split
  · exact (div_le_one (by assumption)).mpr h.2.2
  · exact zero_le_one

/-! ## More fuel changes nothing -/

theorem search_loop_mono {adj : List (Int × List Edge)} {sc : Edge → ℚ} {endn : Int}
    (k : Nat) : ∀ (fuel : Nat) (s : SearchState) (r : Bool × SearchState),
      search_loop adj sc endn fuel s = some r → search_loop adj sc endn (fuel + k) s = some r := by
  intro fuel
  induction fuel with
  | zero => intro s r h; simp [search_loop] at h
  | succ n ih =>
    intro s r h
    rw [Nat.add_right_comm]
    unfold search_loop at h ⊢
    cases ht : pq_top s.pq with
    | none => rw [ht] at h; exact h
    | some top =>
      rw [ht] at h
      simp only at h ⊢
      by_cases hte : top.2 = endn
      · rw [if_pos hte] at h ⊢; exact h
      · rw [if_neg hte] at h ⊢
        cases hes : map_find top.2 adj with
        | none => rw [hes] at h; exact ih _ _ h
        | some es => rw [hes] at h; exact ih _ _ h

theorem walk_back_mono {P : List (Int × Int)} {start : Int} (k : Nat) :
    ∀ (fuel : Nat) (cur : Int) (acc l : List Int),
      walk_back P start fuel cur acc = some l → walk_back P start (fuel + k) cur acc = some l := by
  intro fuel
  induction fuel with
  | zero => intro cur acc l h; simp [walk_back] at h
  | succ n ih =>
    intro cur acc l h
    rw [Nat.add_right_comm]
    unfold walk_back at h ⊢
    cases hp : map_find cur P with
    | none => rw [hp] at h; exact h
    | some p =>
      rw [hp] at h
      simp only at h ⊢
      by_cases hs : cur = start
      · rw [if_pos hs] at h ⊢; exact h
      · rw [if_neg hs] at h ⊢; exact ih _ _ _ h

theorem reconstruct_path_mono {fuel : Nat} {g : Graph} {start endn : Int}
    {P : List (Int × Int)} {gc : List (Int × Cost)} {r : Report × Graph} (k : Nat)
    (h : reconstruct_path fuel g start endn P gc = some r) :
    reconstruct_path (fuel + k) g start endn P gc = some r := by
  unfold reconstruct_path at h ⊢
  cases hw : walk_back P start fuel endn [] with
  | none => rw [hw] at h; simp at h
  | some l =>
    rw [hw] at h
    rw [walk_back_mono k fuel endn [] l hw]
    exact h

theorem find_optimal_path_mono {fuel : Nat} {g : Graph} {start endn : Int}
    {w_time w_dist w_cost : ℚ} {r : Report × Graph} (k : Nat)
    (h : find_optimal_path fuel g start endn w_time w_dist w_cost = some r) :
    find_optimal_path (fuel + k) g start endn w_time w_dist w_cost = some r := by
  unfold find_optimal_path at h ⊢
  simp only at h ⊢
  cases hs : search_loop g.adj_list
      (unified_score (compute_maxes g.adj_list) w_time w_dist w_cost) endn fuel
      (init_state g.nodes_info start) with
  | none => rw [hs] at h; simp at h
  | some bs =>
    rw [hs] at h
    rw [search_loop_mono k fuel _ bs hs]
    obtain ⟨b, s'⟩ := bs
    simp only at h ⊢
    exact reconstruct_path_mono k h

theorem Post_true_disc {adj : List (Int × List Edge)} {sc : Edge → ℚ} {known : Int → Prop}
    {start endn : Int} {F : Nat} {s' : SearchState}
    (hP : Post adj sc known start endn F true s') :
    map_find endn s'.parent_map ≠ none ∧ (endn = start ∨ known endn) := by
  obtain ⟨D, s0, hI, _, _, _, _, hp, hb⟩ := hP
  rcases hb with ⟨hb, _⟩ | ⟨_, top, ht, hte⟩
  · exact absurd hb (by simp)
  · have hd : map_find endn s0.parent_map ≠ none := by
      have := (hI.pq_ge top (pq_top_mem ht)).1
      rw [hte] at this; exact this
    exact ⟨by rw [hp]; exact hd, hI.disc_known endn hd⟩

theorem no_path_of_unreachable {g : Graph} {start endn : Int} {w_time w_dist w_cost : ℚ}
    (hvalid : valid_graph g) (hwt : 0 ≤ w_time) (hwd : 0 ≤ w_dist) (hwc : 0 ≤ w_cost)
    (hun : ∀ es, ¬ IsWalk g.adj_list (fun _ => True) start es endn)
    (fuel : Nat) (hfuel : edge_count g.adj_list + 2 ≤ fuel) :
    find_optimal_path fuel g start endn w_time w_dist w_cost = some (Report.no_path, g) := by
  have hsc := score_nonneg_of_valid hvalid (compute_maxes g.adj_list) hwt hwd hwc
  obtain ⟨b, s', hs, hP⟩ := search_post start endn hsc fuel hfuel
  cases b with
  | false => exact find_optimal_path_false hs hP
  | true =>
    obtain ⟨es, hw, _⟩ := Post_true_sound hP
    exact absurd hw (hun es)

theorem no_path_of_unknown_end {g : Graph} {start endn : Int} {w_time w_dist w_cost : ℚ}
    (hvalid : valid_graph g) (hwt : 0 ≤ w_time) (hwd : 0 ≤ w_dist) (hwc : 0 ≤ w_cost)
    (hunk : ¬ known_in g.nodes_info endn) (hne : endn ≠ start)
    (fuel : Nat) (hfuel : edge_count g.adj_list + 2 ≤ fuel) :
    find_optimal_path fuel g start endn w_time w_dist w_cost = some (Report.no_path, g) := by
  have hsc := score_nonneg_of_valid hvalid (compute_maxes g.adj_list) hwt hwd hwc
  obtain ⟨b, s', hs, hP⟩ := search_post start endn hsc fuel hfuel
  cases b with
  | false => exact find_optimal_path_false hs hP
  | true =>
    rcases (Post_true_disc hP).2 with h | h
    · exact absurd h hne
    · exact absurd h hunk

theorem no_walk_of_no_adj {adj : List (Int × List Edge)} {start endn : Int}
    (hadj : map_find start adj = none) (hne : endn ≠ start) :
    ∀ es, ¬ IsWalk adj (fun _ => True) start es endn := by
  intro es hw
  cases es with
  | nil => exact hne hw.symm
  | cons e es =>
    obtain ⟨⟨l, hl, _⟩, _⟩ := hw
    rw [hadj] at hl
    exact absurd hl (by simp)

theorem scenario_no_walk_to_4 :
    ∀ es, ¬ IsWalk scenario_graph.adj_list (fun _ => True) 1 es 4 := by
  have hadj : scenario_graph.adj_list =
      [(1, [⟨2, 10, 50, 1, 0⟩]), (2, [⟨1, 10, 50, 1, 0⟩, ⟨3, 5, 50, 1, 0⟩]),
       (3, [⟨2, 5, 50, 1, 0⟩])] := by decide!
  have key : ∀ (es : List Edge) (u : Int), (u = 1 ∨ u = 2 ∨ u = 3) →
      ¬ IsWalk scenario_graph.adj_list (fun _ => True) u es 4 := by
    intro es
    induction es with
    | nil =>
      intro u hu hw
      simp only [IsWalk] at hw
      omega
    | cons e es ih =>
      intro u hu hw
      obtain ⟨⟨l, hl, he⟩, _, hw'⟩ := hw
      refine ih e.to_node_id ?_ hw'
      rw [hadj] at hl
      rcases hu with rfl | rfl | rfl
      · simp [map_find] at hl
        subst hl
        simp at he
        subst he
        simp
      · simp [map_find] at hl
        subst hl
        simp at he
        rcases he with rfl | rfl <;> simp
      · simp [map_find] at hl
        subst hl
        simp at he
        subst he
        simp
  exact fun es => key es 1 (Or.inl rfl)

/-! ## A search that never ends: a cycle of negative score -/

theorem cycle_search_diverges :
    ∀ (fuel : Nat) (s : SearchState) (q : ℚ) (v o : Int),
      ((v = 1 ∧ o = 2) ∨ (v = 2 ∧ o = 1)) → s.pq = [(((q : ℚ) : Cost), v)] →
      gval s.g_costs v = ((q : ℚ) : Cost) →
      ((q : ℚ) : Cost) + (((-4 / 5 : ℚ)) : Cost) < gval s.g_costs o →
      search_loop cycle_graph.adj_list
        (unified_score (compute_maxes cycle_graph.adj_list) 2 (-1) 0) 3 fuel s = none := by
  intro fuel
  induction fuel with
  | zero => intro s q v o _ _ _ _; rfl
  | succ n ih =>
    intro s q v o hvo hpq hgv hlt
    have htop : pq_top s.pq = some (((q : ℚ) : Cost), v) := by rw [hpq]; rfl
    have hpop : pq_pop s.pq = [] := by
      rw [pq_pop_of_top htop, hpq]; simp
    have hv3 : v ≠ 3 := by rcases hvo with ⟨h, _⟩ | ⟨h, _⟩ <;> omega
    have hvne : v ≠ o := by rcases hvo with ⟨h, h'⟩ | ⟨h, h'⟩ <;> omega
    have hadj : ∃ e : Edge, map_find v cycle_graph.adj_list = some [e] ∧ e.to_node_id = o ∧
        unified_score (compute_maxes cycle_graph.adj_list) 2 (-1) 0 e = -4 / 5 := by
      rcases hvo with ⟨h, h'⟩ | ⟨h, h'⟩
      · subst h; subst h'
        exact ⟨⟨2, 10, 100, 1, 0⟩, by decide!, rfl, by decide!⟩
      · subst h; subst h'
        exact ⟨⟨1, 10, 100, 1, 0⟩, by decide!, rfl, by decide!⟩
    obtain ⟨e, he1, he2, he3⟩ := hadj
    unfold search_loop
    simp only [htop, if_neg hv3, he1, List.foldl_cons, List.foldl_nil, hpop]
    have hhit : gval ({ s with pq := ([] : List (Cost × Int)) } : SearchState).g_costs v
        + (((unified_score (compute_maxes cycle_graph.adj_list) 2 (-1) 0 e : ℚ)) : Cost)
        < gval ({ s with pq := ([] : List (Cost × Int)) } : SearchState).g_costs e.to_node_id := by
      rw [he3, he2]; simp only; rw [hgv]; exact hlt
    obtain ⟨k1, _, _⟩ := relax_edge_hit _ v _ e hhit
    have k3 := relax_edge_hit_gval _ v _ e hhit
    refine ih _ (q + -4 / 5) o v (by tauto) ?_ ?_ ?_
    · rw [k1, he3, he2]; simp only; rw [hgv]; rfl
    · rw [k3, he2, if_pos rfl, he3]; simp only; rw [hgv]; rfl
    · rw [k3, he2, if_neg hvne]; simp only; rw [hgv, ← WithTop.coe_add]
      exact_mod_cast (by linarith : q + -4 / 5 + -4 / 5 < q)

theorem cycle_no_walk_to_3 :
    ∀ es, ¬ IsWalk cycle_graph.adj_list (fun _ => True) 1 es 3 := by
  have hadj : cycle_graph.adj_list =
      [(1, [⟨2, 10, 100, 1, 0⟩]), (2, [⟨1, 10, 100, 1, 0⟩]),
       (3, [⟨4, 1, 1, 1, 0⟩]), (4, [⟨3, 1, 1, 1, 0⟩])] := by decide!
  have key : ∀ (es : List Edge) (u : Int), (u = 1 ∨ u = 2) →
      ¬ IsWalk cycle_graph.adj_list (fun _ => True) u es 3 := by
    intro es
    induction es with
    | nil =>
      intro u hu hw
      simp only [IsWalk] at hw
      omega
    | cons e es ih =>
      intro u hu hw
      obtain ⟨⟨l, hl, he⟩, _, hw'⟩ := hw
      refine ih e.to_node_id ?_ hw'
      rw [hadj] at hl
      rcases hu with rfl | rfl
      · simp [map_find] at hl
        subst hl
        simp at he
        subst he
        simp
      · simp [map_find] at hl
        subst hl
        simp at he
        subst he
        simp
  exact fun es => key es 1 (Or.inl rfl)

/-- Exact arithmetic has endless descent. On the graph loaded from the road segments 1-2 and
3-4, node 3 cannot be reached from node 1; with the weights (2, -1, 0) the edge between 1
and 2 has the score -4/5 in both directions, and over the rationals every pop relaxes the
node on the other side: the query from 1 to 3 outlives every amount of fuel. In double
precision the sums stop decreasing and the same query ends. -/
theorem exact_negative_cycle_never_returns :
    (∀ es, ¬ IsWalk cycle_graph.adj_list (fun _ => True) 1 es 3) ∧
    ∀ fuel, find_optimal_path fuel cycle_graph 1 3 2 (-1) 0 = none := by
  refine ⟨cycle_no_walk_to_3, fun fuel => ?_⟩
  have h := cycle_search_diverges fuel (init_state cycle_graph.nodes_info 1) 0 1 2
    (Or.inl ⟨rfl, rfl⟩) rfl (by rw [init_state_gval]; simp)
    (by rw [init_state_gval]
        have h2 : map_find (2 : Int) cycle_graph.nodes_info ≠ none := by decide!
        rw [if_neg (by decide), if_pos h2]
        exact WithTop.coe_lt_top _)
  unfold find_optimal_path
  simp only [h]

/-! ## Runs from equivalent states -/

theorem gval_congr {g1 g2 : List (Int × Cost)}
    (h : ∀ v, map_find v g1 = map_find v g2) (v : Int) : gval g1 v = gval g2 v := by
  unfold gval; rw [h]

theorem relax_edge_congr (sc : Edge → ℚ) (cur : Int) (e : Edge) {s1 s2 : SearchState}
    (h : SEquiv s1 s2) : SEquiv (relax_edge sc cur s1 e) (relax_edge sc cur s2 e) := by
  obtain ⟨hpq, hP, hg⟩ := h
  have hgv := gval_congr hg
  by_cases hit : gval s1.g_costs cur + ((sc e : ℚ) : Cost) < gval s1.g_costs e.to_node_id
  · have hit2 : gval s2.g_costs cur + ((sc e : ℚ) : Cost) < gval s2.g_costs e.to_node_id := by
      rw [← hgv, ← hgv]; exact hit
    obtain ⟨a1, a2, a3⟩ := relax_edge_hit sc cur s1 e hit
    obtain ⟨b1, b2, b3⟩ := relax_edge_hit sc cur s2 e hit2
    refine ⟨?_, ?_, ?_⟩
    · rw [a1, b1, hpq, hgv]
    · rw [a2, b2, hP]
    · intro v; rw [a3, b3, hg, hgv]
  · have hit2 : ¬ gval s2.g_costs cur + ((sc e : ℚ) : Cost) < gval s2.g_costs e.to_node_id := by
      rw [← hgv, ← hgv]; exact hit
    obtain ⟨a1, a2, a3⟩ := relax_edge_miss sc cur s1 e hit
    obtain ⟨b1, b2, b3⟩ := relax_edge_miss sc cur s2 e hit2
    refine ⟨?_, ?_, ?_⟩
    · rw [a1, b1, hpq]
    · rw [a2, b2, hP]
    · intro v; rw [a3, b3, hg, hgv]

theorem fold_relax_congr (sc : Edge → ℚ) (cur : Int) (l : List Edge) :
    ∀ {s1 s2 : SearchState}, SEquiv s1 s2 →
      SEquiv (l.foldl (relax_edge sc cur) s1) (l.foldl (relax_edge sc cur) s2) := by
  induction l with
  | nil => intro s1 s2 h; exact h
  | cons e l ih => intro s1 s2 h; exact ih (relax_edge_congr sc cur e h)

theorem search_loop_congr {adj : List (Int × List Edge)} {sc : Edge → ℚ} {endn : Int} :
    ∀ (fuel : Nat) (s1 s2 : SearchState) (b : Bool) (s1' : SearchState), SEquiv s1 s2 →
      search_loop adj sc endn fuel s1 = some (b, s1') →
      ∃ s2', search_loop adj sc endn fuel s2 = some (b, s2') ∧ SEquiv s1' s2' := by
  intro fuel
  induction fuel with
  | zero => intro s1 s2 b s1' _ h; simp [search_loop] at h
  | succ n ih =>
    intro s1 s2 b s1' heq h
    obtain ⟨hpq, hP, hg⟩ := heq
    unfold search_loop at h ⊢
    rw [← hpq]
    cases ht : pq_top s1.pq with
    | none =>
      rw [ht] at h
      simp only at h ⊢
      have h' := Option.some.inj h
      have hb : false = b := congrArg Prod.fst h'
      have hs : s1 = s1' := congrArg Prod.snd h'
      subst hb; subst hs
      exact ⟨s2, rfl, hpq, hP, hg⟩
    | some top =>
      rw [ht] at h
      simp only at h ⊢
      have heq1 : SEquiv { s1 with pq := pq_pop s1.pq } { s2 with pq := pq_pop s1.pq } :=
        ⟨rfl, hP, hg⟩
      by_cases hte : top.2 = endn
      · rw [if_pos hte] at h ⊢
        have h' := Option.some.inj h
        have hb : true = b := congrArg Prod.fst h'
        have hs : _ = s1' := congrArg Prod.snd h'
        subst hb; subst hs
        exact ⟨_, rfl, heq1⟩
      · rw [if_neg hte] at h ⊢
        cases hes : map_find top.2 adj with
        | none => rw [hes] at h; exact ih _ _ b s1' heq1 h
        | some es =>
          rw [hes] at h
          exact ih _ _ b s1' (fold_relax_congr sc top.2 es heq1) h

/-! ## Printing the names twice -/

theorem print_names_find (l : List Int) : ∀ (ni : List (Int × Node)) (v : Int),
    map_find v (print_names ni l).2 =
      if map_find v ni ≠ none then map_find v ni
      else if v ∈ l then some (⟨0, ""⟩ : Node) else none := by
  induction l with
  | nil =>
    intro ni v
    simp only [print_names]
    by_cases h : map_find v ni ≠ none
    · rw [if_pos h]
    · rw [if_neg h]; simpa using h
  | cons x l ih =>
    intro ni v
    simp only [print_names]
    rw [ih, map_find_index]
    by_cases hvx : v = x
    · subst hvx
      cases hx : map_find v ni with
      | none => simp
      | some n => simp
    · by_cases h : map_find v ni ≠ none
      · simp [hvx, h]
      · simp [hvx, h]

theorem print_names_again (l : List Int) : ∀ (ni ni' : List (Int × Node)),
    (∀ v, map_find v ni ≠ none → map_find v ni' = map_find v ni) →
    (∀ x ∈ l, map_find x ni = none → map_find x ni' = some (⟨0, ""⟩ : Node)) →
    print_names ni' l = ((print_names ni l).1, ni') := by
  induction l with
  | nil => intro ni ni' _ _; rfl
  | cons x l ih =>
    intro ni ni' hext hnew
    have hx : map_find x ni' = some (map_index (⟨0, ""⟩ : Node) x ni).1 := by
      rw [map_index_fst]
      cases h : map_find x ni with
      | none => rw [hnew x (List.mem_cons_self _ _) h]; rfl
      | some n => rw [hext x (by rw [h]; simp), h]; rfl
    have hrec := ih (map_index (⟨0, ""⟩ : Node) x ni).2 ni'
      (by
        intro v hv
        rw [map_find_index] at hv ⊢
        by_cases hvx : v = x
        · rw [if_pos hvx, hvx, hx, map_index_fst]
        · rw [if_neg hvx] at hv ⊢
          exact hext v hv)
      (by
        intro y hy hnone
        rw [map_find_index] at hnone
        by_cases hyx : y = x
        · rw [if_pos hyx] at hnone; simp at hnone
        · rw [if_neg hyx] at hnone
          exact hnew y (List.mem_cons_of_mem _ hy) hnone)
    simp only [print_names]
    rw [map_index_of_find _ _ _ _ hx]
    simp only [hrec]

theorem print_names_idem (ni : List (Int × Node)) (l : List Int) :
    print_names (print_names ni l).2 l = ((print_names ni l).1, (print_names ni l).2) := by
  apply print_names_again
  · intro v hv
    rw [print_names_find, if_pos hv]
  · intro x hx hnone
    rw [print_names_find, if_neg (by simp [hnone]), if_pos hx]

/-! ## The pre-pass computes maxima -/

theorem scan_edge_attained (S : Edge → Prop) (m0 m : Maxes) (e : Edge) (he : S e)
    (h : (m.max_time = m0.max_time ∨ ∃ x, S x ∧ edge_time x = m.max_time) ∧
      (m.max_dist = m0.max_dist ∨ ∃ x, S x ∧ x.distance = m.max_dist) ∧
      (m.max_cost = m0.max_cost ∨ ∃ x, S x ∧ edge_cost x = m.max_cost)) :
    ((scan_edge m e).max_time = m0.max_time ∨
        ∃ x, S x ∧ edge_time x = (scan_edge m e).max_time) ∧
      ((scan_edge m e).max_dist = m0.max_dist ∨
        ∃ x, S x ∧ x.distance = (scan_edge m e).max_dist) ∧
      ((scan_edge m e).max_cost = m0.max_cost ∨
        ∃ x, S x ∧ edge_cost x = (scan_edge m e).max_cost) := by
  obtain ⟨h1, h2, h3⟩ := h
  unfold scan_edge
  refine ⟨?_, ?_, ?_⟩ <;> simp only <;> split
  · exact Or.inr ⟨e, he, rfl⟩
  · exact h1
  · exact Or.inr ⟨e, he, rfl⟩
  · exact h2
  · exact Or.inr ⟨e, he, rfl⟩
  · exact h3

theorem fold_scan_attained (S : Edge → Prop) (m0 : Maxes) (l : List Edge) :
    ∀ (m : Maxes), (∀ e ∈ l, S e) →
      ((m.max_time = m0.max_time ∨ ∃ x, S x ∧ edge_time x = m.max_time) ∧
        (m.max_dist = m0.max_dist ∨ ∃ x, S x ∧ x.distance = m.max_dist) ∧
        (m.max_cost = m0.max_cost ∨ ∃ x, S x ∧ edge_cost x = m.max_cost)) →
      (((l.foldl scan_edge m).max_time = m0.max_time ∨
          ∃ x, S x ∧ edge_time x = (l.foldl scan_edge m).max_time) ∧
        ((l.foldl scan_edge m).max_dist = m0.max_dist ∨
          ∃ x, S x ∧ x.distance = (l.foldl scan_edge m).max_dist) ∧
        ((l.foldl scan_edge m).max_cost = m0.max_cost ∨
          ∃ x, S x ∧ edge_cost x = (l.foldl scan_edge m).max_cost)) := by
  induction l with
  | nil => intro m _ h; exact h
  | cons e l ih =>
    intro m hS h
    exact ih (scan_edge m e) (fun x hx => hS x (List.mem_cons_of_mem _ hx))
      (scan_edge_attained S m0 m e (hS e (List.mem_cons_self _ _)) h)

theorem fold_adj_attained (S : Edge → Prop) (m0 : Maxes) (adj : List (Int × List Edge)) :
    ∀ (m : Maxes), (∀ p ∈ adj, ∀ e ∈ p.2, S e) →
      ((m.max_time = m0.max_time ∨ ∃ x, S x ∧ edge_time x = m.max_time) ∧
        (m.max_dist = m0.max_dist ∨ ∃ x, S x ∧ x.distance = m.max_dist) ∧
        (m.max_cost = m0.max_cost ∨ ∃ x, S x ∧ edge_cost x = m.max_cost)) →
      (((adj.foldl (fun m p => p.2.foldl scan_edge m) m).max_time = m0.max_time ∨
          ∃ x, S x ∧ edge_time x = (adj.foldl (fun m p => p.2.foldl scan_edge m) m).max_time) ∧
        ((adj.foldl (fun m p => p.2.foldl scan_edge m) m).max_dist = m0.max_dist ∨
          ∃ x, S x ∧ x.distance = (adj.foldl (fun m p => p.2.foldl scan_edge m) m).max_dist) ∧
        ((adj.foldl (fun m p => p.2.foldl scan_edge m) m).max_cost = m0.max_cost ∨
          ∃ x, S x ∧ edge_cost x
            = (adj.foldl (fun m p => p.2.foldl scan_edge m) m).max_cost)) := by
  induction adj with
  | nil => intro m _ h; exact h
  | cons p adj ih =>
    intro m hS h
    exact ih (p.2.foldl scan_edge m) (fun q hq => hS q (List.mem_cons_of_mem _ hq))
      (fold_scan_attained S m0 p.2 m (hS p (List.mem_cons_self _ _)) h)

theorem compute_maxes_attained (adj : List (Int × List Edge)) :
    ((compute_maxes adj).max_time = 0 ∨
        ∃ p ∈ adj, ∃ e ∈ p.2, edge_time e = (compute_maxes adj).max_time) ∧
      ((compute_maxes adj).max_dist = 0 ∨
        ∃ p ∈ adj, ∃ e ∈ p.2, e.distance = (compute_maxes adj).max_dist) ∧
      ((compute_maxes adj).max_cost = 0 ∨
        ∃ p ∈ adj, ∃ e ∈ p.2, edge_cost e = (compute_maxes adj).max_cost) := by
  have h := fold_adj_attained (fun e => ∃ p ∈ adj, e ∈ p.2) ⟨0, 0, 0⟩ adj ⟨0, 0, 0⟩
    (fun p hp e he => ⟨p, hp, he⟩) ⟨Or.inl rfl, Or.inl rfl, Or.inl rfl⟩
  obtain ⟨h1, h2, h3⟩ := h
  refine ⟨?_, ?_, ?_⟩
  · rcases h1 with h1 | ⟨x, ⟨p, hp, hx⟩, hxe⟩
    · exact Or.inl h1
    · exact Or.inr ⟨p, hp, x, hx, hxe⟩
  · rcases h2 with h2 | ⟨x, ⟨p, hp, hx⟩, hxe⟩
    · exact Or.inl h2
    · exact Or.inr ⟨p, hp, x, hx, hxe⟩
  · rcases h3 with h3 | ⟨x, ⟨p, hp, hx⟩, hxe⟩
    · exact Or.inl h3
    · exact Or.inr ⟨p, hp, x, hx, hxe⟩

theorem edge_time_nonneg_weak {e : Edge} (h : nonneg_edge e) : 0 ≤ edge_time e := by
  obtain ⟨h1, h2, h3, _⟩ := h
  unfold edge_time
  positivity

theorem edge_cost_nonneg_weak {e : Edge} (h : nonneg_edge e) : 0 ≤ edge_cost e := by
  obtain ⟨h1, _, _, h4⟩ := h
  unfold edge_cost fuel_price_per_km
  positivity

theorem compute_maxes_no_edges (adj : List (Int × List Edge)) (h : ∀ p ∈ adj, p.2 = []) :
    compute_maxes adj = ⟨0, 0, 0⟩ := by
  unfold compute_maxes
  generalize (⟨0, 0, 0⟩ : Maxes) = m
  induction adj with
  | nil => rfl
  | cons p adj ih =>
    simp only [List.foldl_cons, h p (List.mem_cons_self _ _), List.foldl_nil]
    exact ih (fun q hq => h q (List.mem_cons_of_mem _ hq))

/-! ## Loading edge records -/

theorem map_find_adj_push (k k' : Int) (e : Edge) (adj : List (Int × List Edge)) :
    map_find k' (adj_push k e adj) =
      if k' = k then some (edges_from adj k ++ [e]) else map_find k' adj := by
  unfold adj_push
  simp only [map_find_set, map_index_fst, map_find_index]
  by_cases h : k' = k
  · simp [h, edges_from]
  · simp [h]

theorem edges_from_adj_push (k k' : Int) (e : Edge) (adj : List (Int × List Edge)) :
    edges_from (adj_push k e adj) k' =
      edges_from adj k' ++ (if k' = k then [e] else []) := by
  unfold edges_from
  rw [map_find_adj_push]
  by_cases h : k' = k
  · subst h; simp [edges_from]
  · simp [h]

theorem edges_from_load_edge (adj : List (Int × List Edge)) (r : EdgeRecord) (k : Int) :
    edges_from (load_edge adj r) k =
      edges_from adj k ++ (if k = r.from_node then [forward_edge r] else []) ++
        (if k = r.to_node then [backward_edge r] else []) := by
  unfold load_edge
  rw [edges_from_adj_push, edges_from_adj_push]
  rfl

theorem map_find_load_edge (adj : List (Int × List Edge)) (r : EdgeRecord) (k : Int) :
    map_find k (load_edge adj r) =
      if k = r.from_node ∨ k = r.to_node then
        some (edges_from adj k ++ (if k = r.from_node then [forward_edge r] else []) ++
          (if k = r.to_node then [backward_edge r] else []))
      else map_find k adj := by
  unfold load_edge
  rw [map_find_adj_push, edges_from_adj_push, map_find_adj_push]
  by_cases h1 : k = r.to_node
  · by_cases h2 : k = r.from_node
    · have h3 : r.to_node = r.from_node := by rw [← h1, h2]
      simp [h1, h3, forward_edge, backward_edge]
    · have h3 : ¬ r.to_node = r.from_node := by rw [← h1]; exact h2
      simp [h1, h3, forward_edge, backward_edge]
  · by_cases h2 : k = r.from_node
    · have h3 : ¬ r.from_node = r.to_node := by rw [← h2]; exact h1
      subst h2
      simp [h3, forward_edge, backward_edge]
    · simp [h1, h2]

theorem edge_multiplicity_load_edge (adj : List (Int × List Edge)) (r : EdgeRecord)
    (u v : Int) (d s t c : ℚ) :
    edge_multiplicity (load_edge adj r) u v d s t c =
      edge_multiplicity adj u v d s t c +
        (if u = r.from_node ∧ (⟨v, d, s, t, c⟩ : Edge) = forward_edge r then 1 else 0) +
        (if u = r.to_node ∧ (⟨v, d, s, t, c⟩ : Edge) = backward_edge r then 1 else 0) := by
  unfold edge_multiplicity
  rw [edges_from_load_edge, List.count_append, List.count_append]
  congr 1
  · congr 1
    by_cases h : u = r.from_node
    · by_cases h2 : (⟨v, d, s, t, c⟩ : Edge) = forward_edge r
      · simp [h, h2]
      · have h3 : ¬ forward_edge r = (⟨v, d, s, t, c⟩ : Edge) := fun hh => h2 hh.symm
        simp [h, h2, List.count_singleton, h3]
    · simp [h]
  · by_cases h : u = r.to_node
    · by_cases h2 : (⟨v, d, s, t, c⟩ : Edge) = backward_edge r
      · simp [h, h2]
      · have h3 : ¬ backward_edge r = (⟨v, d, s, t, c⟩ : Edge) := fun hh => h2 hh.symm
        simp [h, h2, List.count_singleton, h3]
    · simp [h]

theorem mirrored_load_edge (adj : List (Int × List Edge)) (r : EdgeRecord)
    (h : ∀ u v d s t c, edge_multiplicity adj u v d s t c = edge_multiplicity adj v u d s t c) :
    ∀ u v d s t c, edge_multiplicity (load_edge adj r) u v d s t c
      = edge_multiplicity (load_edge adj r) v u d s t c := by
  intro u v d s t c
  rw [edge_multiplicity_load_edge, edge_multiplicity_load_edge, h u v d s t c]
  have e1 : (u = r.from_node ∧ (⟨v, d, s, t, c⟩ : Edge) = forward_edge r) ↔
      (v = r.to_node ∧ (⟨u, d, s, t, c⟩ : Edge) = backward_edge r) := by
    simp only [forward_edge, backward_edge, Edge.mk.injEq]
    tauto
  have e2 : (u = r.to_node ∧ (⟨v, d, s, t, c⟩ : Edge) = backward_edge r) ↔
      (v = r.from_node ∧ (⟨u, d, s, t, c⟩ : Edge) = forward_edge r) := by
    simp only [forward_edge, backward_edge, Edge.mk.injEq]
    tauto
  simp only [e1, e2]
  omega

theorem mirrored_fold (rs : List EdgeRecord) :
    ∀ (adj : List (Int × List Edge)),
      (∀ u v d s t c, edge_multiplicity adj u v d s t c = edge_multiplicity adj v u d s t c) →
      ∀ u v d s t c, edge_multiplicity (rs.foldl load_edge adj) u v d s t c
        = edge_multiplicity (rs.foldl load_edge adj) v u d s t c := by
  induction rs with
  | nil => intro adj h; exact h
  | cons r rs ih => intro adj h; exact ih (load_edge adj r) (mirrored_load_edge adj r h)

/-! ## The reported path is a chain of predecessors -/

theorem walk_back_shape {P : List (Int × Int)} {start : Int} :
    ∀ (fuel : Nat) (cur : Int) (acc res : List Int),
      walk_back P start fuel cur acc = some res →
      ∃ l, res = acc ++ l ∧
        List.Chain' (fun x y => x ≠ start ∧ map_find x P = some y) l ∧
        ∀ x, l.head? = some x → x = cur := by
  intro fuel
  induction fuel with
  | zero => intro cur acc res h; simp [walk_back] at h
  | succ n ih =>
    intro cur acc res h
    unfold walk_back at h
    cases hp : map_find cur P with
    | none =>
      rw [hp] at h
      simp only [Option.some.injEq] at h
      exact ⟨[], by simp [h], List.chain'_nil, fun x hx => by simp at hx⟩
    | some p =>
      rw [hp] at h
      simp only at h
      by_cases hs : cur = start
      · rw [if_pos hs] at h
        simp only [Option.some.injEq] at h
        exact ⟨[cur], h.symm, List.chain'_singleton _, fun x hx => by simpa using hx.symm⟩
      · rw [if_neg hs] at h
        obtain ⟨l, h1, h2, h3⟩ := ih p (acc ++ [cur]) res h
        refine ⟨cur :: l, by rw [h1]; simp, ?_, fun x hx => by simpa using hx.symm⟩
        cases l with
        | nil => exact List.chain'_singleton _
        | cons y ys =>
          have hy : y = p := h3 y rfl
          subst hy
          exact List.chain'_cons.mpr ⟨⟨hs, hp⟩, h2⟩

theorem chain_to_walk {adj : List (Int × List Edge)} {sc : Edge → ℚ} {known : Int → Prop}
    {start : Int} {D : List Int} {s : SearchState} (hI : Inv adj sc known start D s) :
    ∀ (l : List Int) (x : Int), l.head? = some x → l.getLast? = some start →
      List.Chain' (fun x y => x ≠ start ∧ map_find x s.parent_map = some y) l →
      ∃ es, IsWalk adj (fun _ => True) start es x ∧
        l.reverse = start :: es.map (fun e => e.to_node_id) ∧
        gval s.g_costs x = ((walk_cost sc es : ℚ) : Cost) := by
  intro l
  induction l with
  | nil => intro x h; simp at h
  | cons a l ih =>
    intro x hx hlast hc
    have hxa : a = x := by simpa using hx
    subst hxa
    cases l with
    | nil =>
      have : a = start := by simpa using hlast
      subst this
      exact ⟨[], rfl, rfl, by rw [hI.start_zero]; simp [walk_cost]⟩
    | cons b rest =>
      obtain ⟨⟨hne, hp⟩, hc'⟩ := List.chain'_cons.mp hc
      rw [List.getLast?_cons_cons] at hlast
      obtain ⟨es, hw, hrev, hg⟩ := ih b rfl hlast hc'
      obtain ⟨_, l', e, hl', he, hto, hga⟩ := hI.parent_ok a b hp hne
      refine ⟨es ++ [e], ?_, ?_, ?_⟩
      · rw [← hto]; exact IsWalk_snoc hw e l' hl' he trivial
      · rw [List.reverse_cons, hrev]; simp [hto]
      · rw [hga, hg, walk_cost_snoc]; rfl

theorem chain_monotone {adj : List (Int × List Edge)} {sc : Edge → ℚ} {known : Int → Prop}
    {start : Int} {D : List Int} {s : SearchState}
    (hsc : ∀ w l e, map_find w adj = some l → e ∈ l → 0 ≤ sc e)
    (hI : Inv adj sc known start D s) {l : List Int}
    (hc : List.Chain' (fun x y => x ≠ start ∧ map_find x s.parent_map = some y) l) :
    List.Chain' (fun x y => gval s.g_costs y ≤ gval s.g_costs x) l := by
  refine List.Chain'.imp ?_ hc
  rintro x y ⟨hne, hp⟩
  obtain ⟨_, l', e, hl', he, _, hga⟩ := hI.parent_ok x y hp hne
  rw [hga]
  exact le_add_of_nonneg_right (by exact_mod_cast hsc y l' e hl' he)

theorem chain_head_greatest (f : Int → Cost) :
    ∀ (l : List Int) (x : Int), List.Chain' (fun a b => f b ≤ f a) (x :: l) →
      ∀ n ∈ x :: l, f n ≤ f x := by
  intro l
  induction l with
  | nil => intro x _ n hn; simp at hn; rw [hn]
  | cons y l ih =>
    intro x hc n hn
    obtain ⟨hxy, hc'⟩ := List.chain'_cons.mp hc
    rcases List.mem_cons.mp hn with h | h
    · rw [h]
    · exact le_trans (ih y hc' n h) hxy

theorem path_report_facts {g : Graph} {w_time w_dist w_cost : ℚ} (start endn : Int)
    (hsc : ∀ w l e, map_find w g.adj_list = some l → e ∈ l →
      0 ≤ unified_score (compute_maxes g.adj_list) w_time w_dist w_cost e)
    (fuel : Nat) (hfuel : edge_count g.adj_list + 2 ≤ fuel) :
    ∃ b s', search_loop g.adj_list
        (unified_score (compute_maxes g.adj_list) w_time w_dist w_cost) endn fuel
        (init_state g.nodes_info start) = some (b, s') ∧
      (∃ r g', find_optimal_path fuel g start endn w_time w_dist w_cost = some (r, g')) ∧
      ∀ nodes names score g',
        find_optimal_path fuel g start endn w_time w_dist w_cost
          = some (Report.path nodes names score, g') →
        ∃ es, IsWalk g.adj_list (fun _ => True) start es endn ∧
          nodes = start :: es.map (fun e => e.to_node_id) ∧
          score = ((walk_cost
            (unified_score (compute_maxes g.adj_list) w_time w_dist w_cost) es : ℚ) : Cost) ∧
          gval s'.g_costs endn = score ∧ gval s'.g_costs start = 0 ∧
          List.Chain' (fun a b => gval s'.g_costs a ≤ gval s'.g_costs b) nodes ∧
          (∀ n ∈ nodes, gval s'.g_costs n ≤ score) ∧
          (∀ n ∈ nodes, n = start ∨ known_in g.nodes_info n) ∧
          nodes.getLast? = some endn := by
  obtain ⟨b, s', hs, hP⟩ := search_post start endn hsc fuel hfuel
  refine ⟨b, s', hs, ?_⟩
  cases b with
  | false =>
    have h := find_optimal_path_false hs hP
    refine ⟨⟨_, _, h⟩, ?_⟩
    intro nodes names score g' h'
    rw [h] at h'
    simp at h'
  | true =>
    obtain ⟨l, es0, hwb, hhead, hlast, hall, _, hq, hres⟩ := find_optimal_path_true hs hP
    refine ⟨⟨_, _, hres⟩, ?_⟩
    intro nodes names score g' h'
    rw [hres] at h'
    simp only [Option.some.injEq, Prod.mk.injEq, Report.path.injEq] at h'
    obtain ⟨⟨hn, _, hscore⟩, _⟩ := h'
    obtain ⟨D, s0, hI, _, _, _, hg, hp, _⟩ := hP
    obtain ⟨l', hl', hchain, _⟩ := walk_back_shape fuel endn [] l hwb
    have hll : l' = l := by simpa using hl'.symm
    subst hll
    rw [hp] at hchain
    obtain ⟨es, hw, hrev, hge⟩ := chain_to_walk hI l' endn hhead hlast hchain
    have hmono := chain_monotone hsc hI hchain
    have hgend : gval s'.g_costs endn = score := by rw [gval_of_find hq]; exact hscore
    refine ⟨es, hw, by rw [← hn, hrev], ?_, hgend, by rw [hg]; exact hI.start_zero, ?_, ?_, ?_, ?_⟩
    · rw [← hgend, hg]; exact hge
    · rw [← hn, hg]
      exact List.chain'_reverse.mpr hmono
    · intro n hnn
      rw [← hn] at hnn
      rw [← hgend, hg]
      cases l' with
      | nil => simp at hhead
      | cons x xs =>
        have hx : x = endn := by simpa using hhead
        subst hx
        exact chain_head_greatest (gval s0.g_costs) xs x hmono n (List.mem_reverse.mp hnn)
    · intro n hnn
      rw [← hn] at hnn
      exact (hall n (List.mem_reverse.mp hnn)).2
    · rw [← hn, List.getLast?_reverse]; exact hhead

/-! ## Scores are positive when the weights sum to 1 -/

theorem unified_score_pos {m : Maxes} {w_time w_dist w_cost : ℚ} {e : Edge}
    (h : valid_edge e) (hc : m.covers e) (ht : 0 ≤ w_time) (hd : 0 ≤ w_dist) (hw : 0 ≤ w_cost)
    (hsum : w_time + w_dist + w_cost = 1) :
    0 < unified_score m w_time w_dist w_cost e := by
  obtain ⟨h1, h2, h3, h4⟩ := h
  have htime : 0 < edge_time e := by
    unfold edge_time
    have : 0 < e.traffic_multiplier := lt_of_lt_of_le zero_lt_one h3
    positivity
  have hcost : 0 < edge_cost e := by
    unfold edge_cost fuel_price_per_km
    positivity
  have nt : 0 < norm_time m e := by
    unfold norm_time
    rw [if_pos (lt_of_lt_of_le htime hc.1)]
    exact div_pos htime (lt_of_lt_of_le htime hc.1)
  have nd : 0 < norm_dist m e := by
    unfold norm_dist
    rw [if_pos (lt_of_lt_of_le h1 hc.2.1)]
    exact div_pos h1 (lt_of_lt_of_le h1 hc.2.1)
  have nc : 0 < norm_cost m e := by
    unfold norm_cost
    rw [if_pos (lt_of_lt_of_le hcost hc.2.2)]
    exact div_pos hcost (lt_of_lt_of_le hcost hc.2.2)
  unfold unified_score
  have a1 := mul_nonneg nt.le ht
  have a2 := mul_nonneg nd.le hd
  have a3 := mul_nonneg nc.le hw
  by_contra hneg
  have hz : norm_time m e * w_time + norm_dist m e * w_dist + norm_cost m e * w_cost = 0 := by
    linarith
  have z1 : norm_time m e * w_time = 0 := by linarith
  have z2 : norm_dist m e * w_dist = 0 := by linarith
  have z3 : norm_cost m e * w_cost = 0 := by linarith
  have w1 : w_time = 0 := (mul_eq_zero.mp z1).resolve_left (ne_of_gt nt)
  have w2 : w_dist = 0 := (mul_eq_zero.mp z2).resolve_left (ne_of_gt nd)
  have w3 : w_cost = 0 := (mul_eq_zero.mp z3).resolve_left (ne_of_gt nc)
  rw [w1, w2, w3] at hsum
  norm_num at hsum

theorem walk_cost_pos {adj : List (Int × List Edge)} {ok : Int → Prop} {sc : Edge → ℚ}
    (hsc : ∀ w l e, map_find w adj = some l → e ∈ l → 0 < sc e) {u v : Int}
    {es : List Edge} (h : IsWalk adj ok u es v) (hne : es ≠ []) : 0 < walk_cost sc es := by
  cases es with
  | nil => exact absurd rfl hne
  | cons x xs =>
    obtain ⟨⟨l, hl, he⟩, _, h3⟩ := h
    rw [walk_cost_cons]
    exact add_pos_of_pos_of_nonneg (hsc u l x hl he)
      (walk_cost_nonneg (fun w l e hl he => (hsc w l e hl he).le) h3)

/-! ## How the search loop ends -/

theorem search_loop_exit {adj : List (Int × List Edge)} {sc : Edge → ℚ} {endn : Int} :
    ∀ (fuel : Nat) (s : SearchState) (b : Bool) (s' : SearchState),
      search_loop adj sc endn fuel s = some (b, s') →
      (b = false ∧ s'.pq = []) ∨
      (b = true ∧ ∃ (s0 : SearchState) (top : Cost × Int), pq_top s0.pq = some top ∧ top.2 = endn ∧
        s' = { s0 with pq := pq_pop s0.pq }) := by
  intro fuel
  induction fuel with
  | zero => intro s b s' h; simp [search_loop] at h
  | succ n ih =>
    intro s b s' h
    unfold search_loop at h
    cases ht : pq_top s.pq with
    | none =>
      rw [ht] at h
      simp only [Option.some.injEq, Prod.mk.injEq] at h
      obtain ⟨hb, hs⟩ := h
      subst hs
      exact Or.inl ⟨hb.symm, pq_top_eq_none.mp ht⟩
    | some top =>
      rw [ht] at h
      simp only at h
      by_cases hte : top.2 = endn
      · rw [if_pos hte] at h
        simp only [Option.some.injEq, Prod.mk.injEq] at h
        obtain ⟨hb, hs⟩ := h
        exact Or.inr ⟨hb.symm, s, top, ht, hte, hs.symm⟩
      · rw [if_neg hte] at h
        cases hes : map_find top.2 adj with
        | none => rw [hes] at h; exact ih _ b s' h
        | some es => rw [hes] at h; exact ih _ b s' h

/-! ## The iterations of the search loop -/

theorem search_loop_step {adj : List (Int × List Edge)} {sc : Edge → ℚ} {endn : Int}
    (fuel : Nat) (s : SearchState) (top : Cost × Int) (ht : pq_top s.pq = some top)
    (hte : top.2 ≠ endn) :
    search_loop adj sc endn (fuel + 1) s
      = search_loop adj sc endn fuel (process_pop adj sc s top) := by
  rw [search_loop]
  simp only [ht, if_neg hte, process_pop]
  cases map_find top.2 adj <;> rfl

theorem relax_edge_keys (sc : Edge → ℚ) (cur : Int) (s : SearchState) (e : Edge) :
    map_find e.to_node_id (relax_edge sc cur s e).g_costs ≠ none ∧
    ∀ v, map_find v s.g_costs ≠ none → map_find v (relax_edge sc cur s e).g_costs ≠ none := by
  by_cases h : gval s.g_costs cur + ((sc e : ℚ) : Cost) < gval s.g_costs e.to_node_id
  · have hf := (relax_edge_hit sc cur s e h).2.2
    refine ⟨by rw [hf]; simp, fun v hv => ?_⟩
    rw [hf]
    by_cases h1 : v = e.to_node_id
    · simp [h1]
    · by_cases h2 : v = cur
      · subst h2; simp [h1]
      · simp [h1, h2, hv]
  · have hf := (relax_edge_miss sc cur s e h).2.2
    refine ⟨by rw [hf]; simp, fun v hv => ?_⟩
    rw [hf]
    by_cases h1 : v = e.to_node_id ∨ v = cur
    · simp [h1]
    · simp [h1, hv]

theorem fold_relax_keys (sc : Edge → ℚ) (cur : Int) (l : List Edge) :
    ∀ (s : SearchState),
      (∀ e ∈ l, map_find e.to_node_id (l.foldl (relax_edge sc cur) s).g_costs ≠ none) ∧
      ∀ v, map_find v s.g_costs ≠ none →
        map_find v (l.foldl (relax_edge sc cur) s).g_costs ≠ none := by
  induction l with
  | nil => intro s; exact ⟨fun e he => absurd he (List.not_mem_nil e), fun v hv => hv⟩
  | cons x l ih =>
    intro s
    obtain ⟨h1, h2⟩ := relax_edge_keys sc cur s x
    obtain ⟨k1, k2⟩ := ih (relax_edge sc cur s x)
    refine ⟨fun e he => ?_, fun v hv => k2 v (h2 v hv)⟩
    rcases List.mem_cons.mp he with h | h
    · rw [h]; exact k2 _ h1
    · exact k1 e h

theorem relax_edge_noop (sc : Edge → ℚ) (cur : Int) (s : SearchState) (e : Edge)
    (hc : map_find cur s.g_costs ≠ none) (ht : map_find e.to_node_id s.g_costs ≠ none)
    (h : ¬ gval s.g_costs cur + ((sc e : ℚ) : Cost) < gval s.g_costs e.to_node_id) :
    relax_edge sc cur s e = s := by
  rw [relax_edge_cond, if_neg h]
  cases h1 : map_find cur s.g_costs with
  | none => exact absurd h1 hc
  | some a =>
    cases h2 : map_find e.to_node_id s.g_costs with
    | none => exact absurd h2 ht
    | some b =>
      rw [map_index_of_find _ _ _ _ h1]
      simp only
      rw [map_index_of_find _ _ _ _ h2]

theorem fold_relax_noop (sc : Edge → ℚ) (cur : Int) (l : List Edge) (s : SearchState)
    (hc : map_find cur s.g_costs ≠ none)
    (ht : ∀ e ∈ l, map_find e.to_node_id s.g_costs ≠ none)
    (h : ∀ e ∈ l, gval s.g_costs e.to_node_id ≤ gval s.g_costs cur + ((sc e : ℚ) : Cost)) :
    l.foldl (relax_edge sc cur) s = s := by
  induction l with
  | nil => rfl
  | cons e l ih =>
    simp only [List.foldl_cons]
    rw [relax_edge_noop sc cur s e hc (ht e (List.mem_cons_self _ _))
      (not_lt.mpr (h e (List.mem_cons_self _ _)))]
    exact ih (fun x hx => ht x (List.mem_cons_of_mem _ hx))
      (fun x hx => h x (List.mem_cons_of_mem _ hx))

theorem process_pop_inv {adj : List (Int × List Edge)} {sc : Edge → ℚ} {known : Int → Prop}
    {start : Int} {D : List Int} {s : SearchState} {top : Cost × Int}
    (hsc : ∀ w l e, map_find w adj = some l → e ∈ l → 0 ≤ sc e)
    (hI : Inv adj sc known start D s) (hC : Closed adj sc D s) (hT : Touched adj D s)
    (ht : pq_top s.pq = some top) :
    ∃ D', (∀ u ∈ D, u ∈ D') ∧ top.2 ∈ D' ∧
      Inv adj sc known start D' (process_pop adj sc s top) ∧
      Closed adj sc D' (process_pop adj sc s top) ∧
      Touched adj D' (process_pop adj sc s top) ∧
      (∀ u ∈ D', gval (process_pop adj sc s top).g_costs u = gval s.g_costs u ∧
        map_find u (process_pop adj sc s top).parent_map = map_find u s.parent_map) ∧
      (top.2 ∈ D → process_pop adj sc s top = { s with pq := pq_pop s.pq }) := by
  by_cases hD : top.2 ∈ D
  · have hI1 := Inv_pop_stale hI ht hD
    have hC1 : Closed adj sc D { s with pq := pq_pop s.pq } := Closed_transfer hC (fun _ => rfl)
    have heq : process_pop adj sc s top = { s with pq := pq_pop s.pq } := by
      unfold process_pop
      cases hes : map_find top.2 adj with
      | none => rfl
      | some es =>
        simp only
        refine fold_relax_noop sc top.2 es _ ?_ (fun e he => hT top.2 hD es hes e he)
          (fun e he => hC1 top.2 hD es hes e he)
        obtain ⟨q, hq⟩ := hI.disc_fin top.2 (hI.done_disc top.2 hD)
        show map_find top.2 s.g_costs ≠ none
        rw [hq]; simp
    rw [heq]
    exact ⟨D, fun u hu => hu, hD, hI1, hC1, hT, fun u _ => ⟨rfl, rfl⟩, fun _ => rfl⟩
  · obtain ⟨hI1, hle⟩ := Inv_pop_fresh hI ht hD
    have hC1 : Closed adj sc D { s with pq := pq_pop s.pq } := Closed_transfer hC (fun _ => rfl)
    refine ⟨top.2 :: D, fun u hu => List.mem_cons_of_mem _ hu, List.mem_cons_self _ _, ?_⟩
    unfold process_pop
    cases hes : map_find top.2 adj with
    | none =>
      dsimp only
      refine ⟨hI1, ?_, ?_, fun u _ => ⟨rfl, rfl⟩, fun h => absurd h hD⟩
      · intro u hu es' hes' e he
        rcases List.mem_cons.mp hu with hu | hu
        · rw [hu, hes] at hes'; exact absurd hes' (by simp)
        · exact hC1 u hu es' hes' e he
      · intro u hu es' hes' e he
        rcases List.mem_cons.mp hu with hu | hu
        · rw [hu, hes] at hes'; exact absurd hes' (by simp)
        · exact hT u hu es' hes' e he
    | some es =>
      dsimp only
      obtain ⟨k1, k2, k3, k4, k5, _⟩ := fold_relax_fresh (fun e he => hsc top.2 es e hes he)
        (List.mem_cons_self _ _) hes es (fun _ h => h) _ hI1 hle
      obtain ⟨t1, t2⟩ := fold_relax_keys sc top.2 es { s with pq := pq_pop s.pq }
      refine ⟨k1, ?_, ?_, fun u hu => ⟨k2 u hu, k3 u hu⟩, fun h => absurd h hD⟩
      · intro u hu es' hes' e he
        rw [k2 u hu]
        rcases List.mem_cons.mp hu with hu' | hu'
        · rw [hu', hes] at hes'
          have : es = es' := by simpa using hes'
          subst this
          rw [hu']
          exact k5 e he
        · exact le_trans (k4 _) (hC1 u hu' es' hes' e he)
      · intro u hu es' hes' e he
        rcases List.mem_cons.mp hu with hu' | hu'
        · rw [hu', hes] at hes'
          have : es = es' := by simpa using hes'
          subst this
          exact t1 e he
        · exact t2 _ (hT u hu' es' hes' e he)

theorem search_trace_inv {adj : List (Int × List Edge)} {sc : Edge → ℚ} {known : Int → Prop}
    {start endn : Int} (hsc : ∀ w l e, map_find w adj = some l → e ∈ l → 0 ≤ sc e) :
    ∀ (fuel : Nat) (s : SearchState) (D : List Int),
      Inv adj sc known start D s → Closed adj sc D s → Touched adj D s →
      ∀ a ∈ search_trace adj sc endn fuel s,
        (∃ D1, Inv adj sc known start D1 a.2.2) ∧
        (∀ u ∈ D, gval a.2.2.g_costs u = gval s.g_costs u ∧
          map_find u a.2.2.parent_map = map_find u s.parent_map) ∧
        (a.1 ∈ D → a.2.2 = { a.2.1 with pq := pq_pop a.2.1.pq }) ∧
        gval a.2.2.g_costs a.1 = gval a.2.1.g_costs a.1 ∧
        map_find a.1 a.2.2.parent_map = map_find a.1 a.2.1.parent_map := by
  intro fuel
  induction fuel with
  | zero => intro s D _ _ _ a ha; simp [search_trace] at ha
  | succ n ih =>
    intro s D hI hC hT a ha
    unfold search_trace at ha
    cases ht : pq_top s.pq with
    | none => rw [ht] at ha; simp at ha
    | some top =>
      rw [ht] at ha
      simp only at ha
      by_cases hte : top.2 = endn
      · rw [if_pos hte] at ha; simp at ha
      · rw [if_neg hte] at ha
        obtain ⟨D', hsub, htop, hI', hC', hT', hfr, hst⟩ := process_pop_inv hsc hI hC hT ht
        rcases List.mem_cons.mp ha with h | h
        · subst h
          exact ⟨⟨D', hI'⟩, fun u hu => hfr u (hsub u hu), hst, (hfr _ htop).1, (hfr _ htop).2⟩
        · obtain ⟨h1, h2, h3, h4, h5⟩ := ih _ D' hI' hC' hT' a h
          refine ⟨h1, fun u hu => ?_, fun hu => h3 (hsub _ hu), h4, h5⟩
          have := h2 u (hsub u hu)
          have := hfr u (hsub u hu)
          constructor
          · rw [(h2 u (hsub u hu)).1, (hfr u (hsub u hu)).1]
          · rw [(h2 u (hsub u hu)).2, (hfr u (hsub u hu)).2]

theorem search_trace_frozen {adj : List (Int × List Edge)} {sc : Edge → ℚ}
    {known : Int → Prop} {start endn : Int}
    (hsc : ∀ w l e, map_find w adj = some l → e ∈ l → 0 ≤ sc e) :
    ∀ (fuel : Nat) (s : SearchState) (D : List Int),
      Inv adj sc known start D s → Closed adj sc D s → Touched adj D s →
      (search_trace adj sc endn fuel s).Pairwise Frozen := by
  intro fuel
  induction fuel with
  | zero => intro s D _ _ _; simp [search_trace]
  | succ n ih =>
    intro s D hI hC hT
    unfold search_trace
    cases ht : pq_top s.pq with
    | none => simp
    | some top =>
      simp only
      by_cases hte : top.2 = endn
      · rw [if_pos hte]; simp
      · rw [if_neg hte]
        obtain ⟨D', _, htop, hI', hC', hT', hfr, _⟩ := process_pop_inv hsc hI hC hT ht
        refine List.Pairwise.cons ?_ (ih _ D' hI' hC' hT')
        intro b hb
        obtain ⟨_, h2, h3, _, _⟩ := search_trace_inv hsc n _ D' hI' hC' hT' b hb
        refine ⟨?_, ?_, fun hbn => h3 (by rw [hbn]; exact htop)⟩
        · show gval b.2.2.g_costs top.2 = gval s.g_costs top.2
          rw [(h2 top.2 htop).1, (hfr top.2 htop).1]
        · show map_find top.2 b.2.2.parent_map = map_find top.2 s.parent_map
          rw [(h2 top.2 htop).2, (hfr top.2 htop).2]

theorem Touched_nil (adj : List (Int × List Edge)) (s : SearchState) : Touched adj [] s := by
  intro u hu; exact absurd hu (List.not_mem_nil u)

/-! ## Scores are non-negative when the edge quantities are -/

theorem unified_score_nonneg_weak (m : Maxes) {w_time w_dist w_cost : ℚ} {e : Edge}
    (h : nonneg_edge e) (ht : 0 ≤ w_time) (hd : 0 ≤ w_dist) (hc : 0 ≤ w_cost) :
    0 ≤ unified_score m w_time w_dist w_cost e := by
  have n1 : 0 ≤ norm_time m e := by
    unfold norm_time
    split
    · exact div_nonneg (edge_time_nonneg_weak h) (le_of_lt (by assumption))
    · exact le_refl _
  have n2 : 0 ≤ norm_dist m e := by
    unfold norm_dist
    split
    · exact div_nonneg h.1 (le_of_lt (by assumption))
    · exact le_refl _
  have n3 : 0 ≤ norm_cost m e := by
    unfold norm_cost
    split
    · exact div_nonneg (edge_cost_nonneg_weak h) (le_of_lt (by assumption))
    · exact le_refl _
  unfold unified_score
  have h1 := mul_nonneg n1 ht
  have h2 := mul_nonneg n2 hd
  have h3 := mul_nonneg n3 hc
  linarith

theorem score_nonneg_of_nonneg {g : Graph} (hv : nonneg_graph g) (m : Maxes)
    {w_time w_dist w_cost : ℚ} (ht : 0 ≤ w_time) (hd : 0 ≤ w_dist) (hc : 0 ≤ w_cost) :
    ∀ w l e, map_find w g.adj_list = some l → e ∈ l →
      0 ≤ unified_score m w_time w_dist w_cost e := by
  intro w l e hl he
  exact unified_score_nonneg_weak m (hv (w, l) (map_find_mem hl) e he) ht hd hc

theorem no_path_of_unknown_end_sc {g : Graph} {start endn : Int} {w_time w_dist w_cost : ℚ}
    (hsc : ∀ w l e, map_find w g.adj_list = some l → e ∈ l →
      0 ≤ unified_score (compute_maxes g.adj_list) w_time w_dist w_cost e)
    (hunk : ¬ known_in g.nodes_info endn) (hne : endn ≠ start)
    (fuel : Nat) (hfuel : edge_count g.adj_list + 2 ≤ fuel) :
    find_optimal_path fuel g start endn w_time w_dist w_cost = some (Report.no_path, g) := by
  obtain ⟨b, s', hs, hP⟩ := search_post start endn hsc fuel hfuel
  cases b with
  | false => exact find_optimal_path_false hs hP
  | true =>
    rcases (Post_true_disc hP).2 with h | h
    · exact absurd h hne
    · exact absurd h hunk

/-! ## Graphs built by loading are mirrored -/

theorem edges_from_of_find {adj : List (Int × List Edge)} {k : Int} {l : List Edge}
    (h : map_find k adj = some l) : edges_from adj k = l := by
  simp [edges_from, h]

theorem find_of_mem_edges_from {adj : List (Int × List Edge)} {k : Int} {e : Edge}
    (h : e ∈ edges_from adj k) : ∃ l, map_find k adj = some l ∧ e ∈ l := by
  unfold edges_from at h
  cases hf : map_find k adj with
  | none => rw [hf] at h; simp at h
  | some l => rw [hf] at h; exact ⟨l, rfl, by simpa using h⟩

theorem loaded_edge_origin (rs : List EdgeRecord) :
    ∀ (adj : List (Int × List Edge)) (k : Int) (e : Edge),
      e ∈ edges_from (rs.foldl load_edge adj) k →
      e ∈ edges_from adj k ∨
        ∃ r ∈ rs, (k = r.from_node ∧ e = forward_edge r) ∨
          (k = r.to_node ∧ e = backward_edge r) := by
  induction rs with
  | nil => intro adj k e h; exact Or.inl h
  | cons r rs ih =>
    intro adj k e h
    rcases ih (load_edge adj r) k e h with h1 | ⟨r', hr', h1⟩
    · rw [edges_from_load_edge] at h1
      rcases List.mem_append.mp h1 with h2 | h2
      · rcases List.mem_append.mp h2 with h3 | h3
        · exact Or.inl h3
        · by_cases hk : k = r.from_node
          · rw [if_pos hk] at h3
            exact Or.inr ⟨r, List.mem_cons_self _ _, Or.inl ⟨hk, by simpa using h3⟩⟩
          · rw [if_neg hk] at h3; simp at h3
      · by_cases hk : k = r.to_node
        · rw [if_pos hk] at h2
          exact Or.inr ⟨r, List.mem_cons_self _ _, Or.inr ⟨hk, by simpa using h2⟩⟩
        · rw [if_neg hk] at h2; simp at h2
    · exact Or.inr ⟨r', List.mem_cons_of_mem _ hr', h1⟩

theorem loaded_edge_valid {ni : List (Int × Node)} {rs : List EdgeRecord}
    (hrec : ∀ r ∈ rs, valid_record ni r) :
    ∀ w l e, map_find w (load_edges rs) = some l → e ∈ l →
      valid_edge e ∧ known_in ni e.to_node_id := by
  intro w l e hl he
  have hm : e ∈ edges_from (load_edges rs) w := by rw [edges_from_of_find hl]; exact he
  rcases loaded_edge_origin rs [] w e hm with h | ⟨r, hr, h⟩
  · simp [edges_from, map_find] at h
  · obtain ⟨h1, h2, h3, h4, h5, h6⟩ := hrec r hr
    rcases h with ⟨_, h⟩ | ⟨_, h⟩
    · subst h; exact ⟨⟨h1, h2, h3, h4⟩, h6⟩
    · subst h; exact ⟨⟨h1, h2, h3, h4⟩, h5⟩

theorem mirror_in_loaded (rs : List EdgeRecord) :
    ∀ u l e, map_find u (load_edges rs) = some l → e ∈ l →
      ∃ l', map_find e.to_node_id (load_edges rs) = some l' ∧ mirror_edge u e ∈ l' := by
  intro u l e hl he
  have hsym := mirrored_fold rs []
    (fun u v d s t c => by simp [edge_multiplicity, edges_from, map_find])
    u e.to_node_id e.distance e.speed_limit e.traffic_multiplier e.toll
  have hpos : 0 < edge_multiplicity (load_edges rs) u e.to_node_id e.distance e.speed_limit
      e.traffic_multiplier e.toll := by
    unfold edge_multiplicity
    rw [edges_from_of_find hl]
    exact List.count_pos_iff.mpr he
  have hpos' : 0 < edge_multiplicity (load_edges rs) e.to_node_id u e.distance e.speed_limit
      e.traffic_multiplier e.toll := by
    unfold load_edges at hpos ⊢
    rw [← hsym]; exact hpos
  unfold edge_multiplicity at hpos'
  exact find_of_mem_edges_from (List.count_pos_iff.mp hpos')

theorem unified_score_mirror (m : Maxes) (w_time w_dist w_cost : ℚ) (u : Int) (e : Edge) :
    unified_score m w_time w_dist w_cost (mirror_edge u e)
      = unified_score m w_time w_dist w_cost e := rfl

theorem walk_reverse {adj : List (Int × List Edge)} (sc : Edge → ℚ)
    (hmir : ∀ u l e, map_find u adj = some l → e ∈ l →
      ∃ l', map_find e.to_node_id adj = some l' ∧ mirror_edge u e ∈ l')
    (hscm : ∀ u e, sc (mirror_edge u e) = sc e) :
    ∀ (es : List Edge) (u v : Int), IsWalk adj (fun _ => True) u es v →
      ∃ es', IsWalk adj (fun _ => True) v es' u ∧ walk_cost sc es' = walk_cost sc es := by
  intro es
  induction es with
  | nil =>
    intro u v h
    simp only [IsWalk] at h
    subst h
    exact ⟨[], rfl, rfl⟩
  | cons e es ih =>
    intro u v h
    obtain ⟨⟨l, hl, he⟩, _, hw⟩ := h
    obtain ⟨es', hw', hc⟩ := ih e.to_node_id v hw
    obtain ⟨l', hl', hm⟩ := hmir u l e hl he
    refine ⟨es' ++ [mirror_edge u e], IsWalk_snoc hw' (mirror_edge u e) l' hl' hm trivial, ?_⟩
    rw [walk_cost_snoc, walk_cost_cons, hc, hscm]
    ring

theorem direction_facts {g : Graph} {w_time w_dist w_cost : ℚ} (a b : Int)
    (hsc : ∀ w l e, map_find w g.adj_list = some l → e ∈ l →
      0 ≤ unified_score (compute_maxes g.adj_list) w_time w_dist w_cost e)
    (hok : ∀ w l e, map_find w g.adj_list = some l → e ∈ l → known_in g.nodes_info e.to_node_id)
    (fuel : Nat) (hfuel : edge_count g.adj_list + 2 ≤ fuel) :
    ∃ r g', find_optimal_path fuel g a b w_time w_dist w_cost = some (r, g') ∧
      ((∃ nodes names score, r = Report.path nodes names score) ↔
        ∃ es, IsWalk g.adj_list (fun _ => True) a es b) ∧
      ∀ nodes names score, r = Report.path nodes names score →
        (∃ es, IsWalk g.adj_list (fun _ => True) a es b ∧
          score = ((walk_cost
            (unified_score (compute_maxes g.adj_list) w_time w_dist w_cost) es : ℚ) : Cost)) ∧
        ∀ es, IsWalk g.adj_list (fun _ => True) a es b →
          score ≤ ((walk_cost
            (unified_score (compute_maxes g.adj_list) w_time w_dist w_cost) es : ℚ) : Cost) := by
  have hok' : ∀ w l e, map_find w g.adj_list = some l → e ∈ l →
      (e.to_node_id = a ∨ known_in g.nodes_info e.to_node_id) :=
    fun w l e hl he => Or.inr (hok w l e hl he)
  obtain ⟨fl, s', hs, hP⟩ := search_post a b hsc fuel hfuel
  cases fl with
  | false =>
    refine ⟨_, _, find_optimal_path_false hs hP, ⟨?_, ?_⟩, ?_⟩
    · rintro ⟨nodes, names, score, h⟩; simp at h
    · rintro ⟨es, hw⟩
      exact absurd (IsWalk_mono hw hok') (Post_false_unreach hP es)
    · intro nodes names score h; simp at h
  | true =>
    obtain ⟨l, es, _, _, _, _, hw, hq, hres⟩ := find_optimal_path_true hs hP
    refine ⟨_, _, hres, ⟨fun _ => ⟨es, hw⟩, fun _ => ⟨_, _, _, rfl⟩⟩, ?_⟩
    intro nodes names score h
    simp only [Report.path.injEq] at h
    obtain ⟨_, _, hscore⟩ := h
    refine ⟨⟨es, hw, hscore.symm⟩, ?_⟩
    intro es' hw'
    have := Post_true_opt hsc hP es' (IsWalk_mono hw' hok')
    rw [gval_of_find hq, hscore] at this
    exact this

/-! ## The search over machine arithmetic ends -/

theorem machine_pq_top_eq_none {F : Type} (A : Machine.Arith F) {pq : List (F × Int)} :
    Machine.pq_top A pq = none ↔ pq = [] := by
  cases pq with
  | nil => simp [Machine.pq_top]
  | cons x xs =>
    simp only [Machine.pq_top]
    cases Machine.pq_top A xs with
    | none => simp
    | some m => by_cases h : Machine.pair_lt A x m = true <;> simp [h]

/-- Absorption in double precision: `-2^53 + (-0.8)` is `-2^53` again, so a cost that has
sunk that far is not lowered by adding the same negative score once more. -/
theorem binary64_absorbs :
    Machine.F64.add (Machine.F64.of_num (-(2 ^ 53))) (Machine.F64.of_num (-(4 / 5))) =
      Machine.F64.of_num (-(2 ^ 53)) := by
  decide!

/-- The two readings agree on the scenario of the specification: in double precision too the
query from 1 to 3 with weights (1, 0, 0) reports the path A, B, C with the score 1.5. -/
theorem machine_scenario_path :
    Machine.find_optimal_path Machine.binary64 4 scenario_graph 1 3 (Machine.F64.of_num 1)
      (Machine.F64.of_num 0) (Machine.F64.of_num 0) =
      some (Machine.Report.path [1, 2, 3] ["A", "B", "C"] (Machine.F64.of_num (3 / 2)),
        scenario_graph) := by
  decide!

/-! ## The claims -/

/-- C1. Optimality: on a graph with valid edge attributes whose edge targets are keys of the
node map, with non-negative weights, if some edge sequence leads from start to end then
`find_optimal_path` (given `edge_count + 2` units of fuel or more) reports a path, and the
reported score is the cost of an edge sequence from start to end and is at most the cost of
every edge sequence from start to end. -/
theorem find_optimal_path_optimal (g : Graph) (start_node end_node : Int)
    (w_time w_dist w_cost : ℚ) (hvalid : valid_graph g)
    (htargets : ∀ p ∈ g.adj_list, ∀ e ∈ p.2, known_in g.nodes_info e.to_node_id)
    (hwt : 0 ≤ w_time) (hwd : 0 ≤ w_dist) (hwc : 0 ≤ w_cost)
    (hreach : ∃ es, IsWalk g.adj_list (fun _ => True) start_node es end_node)
    (fuel : Nat) (hfuel : edge_count g.adj_list + 2 ≤ fuel) :
    ∃ nodes names c g',
      find_optimal_path fuel g start_node end_node w_time w_dist w_cost
        = some (Report.path nodes names ((c : ℚ) : Cost), g') ∧
      (∃ es, IsWalk g.adj_list (fun _ => True) start_node es end_node ∧
        walk_cost (unified_score (compute_maxes g.adj_list) w_time w_dist w_cost) es = c) ∧
      ∀ es, IsWalk g.adj_list (fun _ => True) start_node es end_node →
        c ≤ walk_cost (unified_score (compute_maxes g.adj_list) w_time w_dist w_cost) es := by
  have hsc := score_nonneg_of_valid hvalid (compute_maxes g.adj_list) hwt hwd hwc
  have hok : ∀ w l e, map_find w g.adj_list = some l → e ∈ l →
      (e.to_node_id = start_node ∨ known_in g.nodes_info e.to_node_id) :=
    fun w l e hl he => Or.inr (htargets (w, l) (map_find_mem hl) e he)
  obtain ⟨b, s', hs, hP⟩ := search_post start_node end_node hsc fuel hfuel
  cases b with
  | false =>
    obtain ⟨es, hw⟩ := hreach
    exact absurd (IsWalk_mono hw hok) (Post_false_unreach hP es)
  | true =>
    obtain ⟨l, es, _, _, _, _, hw, hq, hres⟩ := find_optimal_path_true hs hP
    refine ⟨_, _, _, _, hres, ⟨es, hw, rfl⟩, ?_⟩
    intro es' hw'
    have := Post_true_opt hsc hP es' (IsWalk_mono hw' hok)
    rw [gval_of_find hq] at this
    exact_mod_cast this

/-- C1 at the scenario graph: start 1, end 3, weights (1, 0, 0). -/
theorem find_optimal_path_optimal_witness :
    ∃ nodes names c g',
      find_optimal_path 6 scenario_graph 1 3 1 0 0
        = some (Report.path nodes names ((c : ℚ) : Cost), g') ∧
      (∃ es, IsWalk scenario_graph.adj_list (fun _ => True) 1 es 3 ∧
        walk_cost (unified_score (compute_maxes scenario_graph.adj_list) 1 0 0) es = c) ∧
      ∀ es, IsWalk scenario_graph.adj_list (fun _ => True) 1 es 3 →
        c ≤ walk_cost (unified_score (compute_maxes scenario_graph.adj_list) 1 0 0) es :=
  find_optimal_path_optimal scenario_graph 1 3 1 0 0 (by decide!) (by decide!)
    (by decide!) (by decide!) (by decide!)
    ⟨[⟨2, 10, 50, 1, 0⟩, ⟨3, 5, 50, 1, 0⟩],
      ⟨[⟨2, 10, 50, 1, 0⟩], by decide!, by decide!⟩, trivial,
      ⟨[⟨1, 10, 50, 1, 0⟩, ⟨3, 5, 50, 1, 0⟩], by decide!, by decide!⟩, trivial, rfl⟩
    6 (by decide!)

/-- C3. With `end_node` equal to `start_node` the first pop ends the search:
`find_optimal_path` reports the path made of the one node `start_node`, with score 0
(whatever the graph and the weights, and with any fuel of at least 1). -/
theorem find_optimal_path_same_node (g : Graph) (start_node : Int) (w_time w_dist w_cost : ℚ)
    (fuel : Nat) :
    find_optimal_path (fuel + 1) g start_node start_node w_time w_dist w_cost =
      some (Report.path [start_node]
          [(map_index (⟨0, ""⟩ : Node) start_node g.nodes_info).1.name] (0 : Cost),
        { g with nodes_info := (map_index (⟨0, ""⟩ : Node) start_node g.nodes_info).2 }) := by
  have hq : map_find start_node (init_state g.nodes_info start_node).g_costs = some 0 := by
    rw [init_state_find]; simp
  have hw : walk_back (init_state g.nodes_info start_node).parent_map start_node (fuel + 1)
      start_node [] = some [start_node] := by
    simp [walk_back, init_state_parent]
  have hs : search_loop g.adj_list
      (unified_score (compute_maxes g.adj_list) w_time w_dist w_cost) start_node (fuel + 1)
      (init_state g.nodes_info start_node)
      = some (true, { init_state g.nodes_info start_node with
          pq := pq_pop (init_state g.nodes_info start_node).pq }) := by
    simp [search_loop, init_state, pq_top]
  unfold find_optimal_path
  simp only [hs]
  rw [reconstruct_path_found (fuel + 1) g start_node start_node _ _ [start_node] 0 hw rfl hq]
  rfl

/-- C4. The scenario: on the graph loaded from nodes 1:"A", 2:"B", 3:"C" and road segments
1-2 (10, 50, 1.0, 0) and 2-3 (5, 50, 1.0, 0), the query from 1 to 3 with weights (1, 0, 0)
reports the path 1, 2, 3, printed as A, B, C (with any fuel of at least 4). -/
theorem scenario_path_A_B_C (n : Nat) :
    find_optimal_path (4 + n) scenario_graph 1 3 1 0 0 =
      some (Report.path [1, 2, 3] ["A", "B", "C"] ((3 / 2 : ℚ) : Cost), scenario_graph) :=
  find_optimal_path_mono n (by decide!)

/-- C5. On a graph with valid edge attributes, with non-negative weights that sum to 1, each
of `norm_time`, `norm_dist`, `norm_cost` of every edge of every adjacency list lies in [0, 1],
and so does the edge's `unified_score` (the search only traverses edges of adjacency lists). -/
theorem normalized_terms_in_unit_interval (g : Graph) (w_time w_dist w_cost : ℚ)
    (hvalid : valid_graph g) (hwt : 0 ≤ w_time) (hwd : 0 ≤ w_dist) (hwc : 0 ≤ w_cost)
    (hsum : w_time + w_dist + w_cost = 1) :
    ∀ p ∈ g.adj_list, ∀ e ∈ p.2,
      (0 ≤ norm_time (compute_maxes g.adj_list) e ∧ norm_time (compute_maxes g.adj_list) e ≤ 1) ∧
      (0 ≤ norm_dist (compute_maxes g.adj_list) e ∧ norm_dist (compute_maxes g.adj_list) e ≤ 1) ∧
      (0 ≤ norm_cost (compute_maxes g.adj_list) e ∧ norm_cost (compute_maxes g.adj_list) e ≤ 1) ∧
      (0 ≤ unified_score (compute_maxes g.adj_list) w_time w_dist w_cost e ∧
        unified_score (compute_maxes g.adj_list) w_time w_dist w_cost e ≤ 1) := by
  intro p hp e he
  have hv := hvalid p hp e he
  have hc := compute_maxes_covers g.adj_list p hp e he
  have t0 := norm_time_nonneg (compute_maxes g.adj_list) hv
  have d0 := norm_dist_nonneg (compute_maxes g.adj_list) hv
  have c0 := norm_cost_nonneg (compute_maxes g.adj_list) hv
  have t1 := norm_time_le_one hc
  have d1 := norm_dist_le_one hc
  have c1 := norm_cost_le_one hc
  refine ⟨⟨t0, t1⟩, ⟨d0, d1⟩, ⟨c0, c1⟩, unified_score_nonneg _ hv hwt hwd hwc, ?_⟩
  unfold unified_score
  have h1 := mul_le_mul_of_nonneg_right t1 hwt
  have h2 := mul_le_mul_of_nonneg_right d1 hwd
  have h3 := mul_le_mul_of_nonneg_right c1 hwc
  linarith

/-- C5 at the scenario graph with weights (1/2, 1/4, 1/4), for the edge from 1 to 2. -/
theorem normalized_terms_in_unit_interval_witness :
    (0 ≤ norm_time (compute_maxes scenario_graph.adj_list) ⟨2, 10, 50, 1, 0⟩ ∧
      norm_time (compute_maxes scenario_graph.adj_list) ⟨2, 10, 50, 1, 0⟩ ≤ 1) ∧
    (0 ≤ norm_dist (compute_maxes scenario_graph.adj_list) ⟨2, 10, 50, 1, 0⟩ ∧
      norm_dist (compute_maxes scenario_graph.adj_list) ⟨2, 10, 50, 1, 0⟩ ≤ 1) ∧
    (0 ≤ norm_cost (compute_maxes scenario_graph.adj_list) ⟨2, 10, 50, 1, 0⟩ ∧
      norm_cost (compute_maxes scenario_graph.adj_list) ⟨2, 10, 50, 1, 0⟩ ≤ 1) ∧
    (0 ≤ unified_score (compute_maxes scenario_graph.adj_list) (1 / 2) (1 / 4) (1 / 4)
        ⟨2, 10, 50, 1, 0⟩ ∧
      unified_score (compute_maxes scenario_graph.adj_list) (1 / 2) (1 / 4) (1 / 4)
        ⟨2, 10, 50, 1, 0⟩ ≤ 1) :=
  normalized_terms_in_unit_interval scenario_graph (1 / 2) (1 / 4) (1 / 4) (by decide!)
    (by decide!) (by decide!) (by decide!) (by decide!)
    (1, [⟨2, 10, 50, 1, 0⟩]) (by decide!) ⟨2, 10, 50, 1, 0⟩ (by decide!)

/-- C6 (failing input). The query start = end = 4 on the scenario graph, where 4 is not a
key of the node map: the printing loop reads `nodes_info[4]`, so the node map that the call
leaves behind has a fourth entry, a default node under the key 4. -/
theorem query_inserts_into_nodes_info :
    scenario_graph.nodes_info = [(1, ⟨1, "A"⟩), (2, ⟨2, "B"⟩), (3, ⟨3, "C"⟩)] ∧
    find_optimal_path 1 scenario_graph 4 4 1 0 0 =
      some (Report.path [4] [""] (0 : Cost),
        { nodes_info := [(1, ⟨1, "A"⟩), (2, ⟨2, "B"⟩), (3, ⟨3, "C"⟩), (4, ⟨0, ""⟩)]
          adj_list := scenario_graph.adj_list }) := by
  decide!

/-- C8 (counterexample). On the scenario graph the query from 1 to the absent node 4 ends
with exactly the "no path found" report. -/
theorem scenario_unknown_end_reports_no_path :
    find_optimal_path 4 scenario_graph 1 4 1 0 0 = some (Report.no_path, scenario_graph) := by
  decide!

/-- C8 (amended). On the scenario graph the query from 1 to the absent node 4 reports
"no path found" and leaves the graph as it was, for all non-negative weights (with any fuel
of at least 6); the report type has no unknown-node value. -/
theorem scenario_unknown_end_no_path (w_time w_dist w_cost : ℚ)
    (hwt : 0 ≤ w_time) (hwd : 0 ≤ w_dist) (hwc : 0 ≤ w_cost) (n : Nat) :
    find_optimal_path (6 + n) scenario_graph 1 4 w_time w_dist w_cost
      = some (Report.no_path, scenario_graph) :=
  no_path_of_unknown_end (by decide!) hwt hwd hwc (by decide!) (by decide!) (6 + n)
    (by have : edge_count scenario_graph.adj_list = 4 := by decide!
        omega)

/-- C8 (amended) at the weights (1, 0, 0) and fuel 6. -/
theorem scenario_unknown_end_no_path_witness :
    find_optimal_path (6 + 0) scenario_graph 1 4 1 0 0 = some (Report.no_path, scenario_graph) :=
  scenario_unknown_end_no_path 1 0 0 (by decide!) (by decide!) (by decide!) 0

/-- C9 (counterexample). Two queries with an unknown start that report a path: start = end = 4
on the scenario graph, and the query from the unknown node 1 to node 2 on the graph whose
only road segment is 1-2 and whose only listed node is 2. -/
theorem unknown_start_reports_path :
    (map_find 4 scenario_graph.nodes_info = none ∧
      find_optimal_path 1 scenario_graph 4 4 1 0 0
        = some (Report.path [4] [""] (0 : Cost),
            { nodes_info := [(1, ⟨1, "A"⟩), (2, ⟨2, "B"⟩), (3, ⟨3, "C"⟩), (4, ⟨0, ""⟩)]
              adj_list := scenario_graph.adj_list })) ∧
    (map_find 1 dangling_graph.nodes_info = none ∧
      find_optimal_path 2 dangling_graph 1 2 1 0 0
        = some (Report.path [1, 2] ["", "B"] ((1 : ℚ) : Cost),
            { nodes_info := [(1, ⟨0, ""⟩), (2, ⟨2, "B"⟩)]
              adj_list := dangling_graph.adj_list })) := by
  decide!

/-- C9 (amended). On a graph with valid edge attributes, with non-negative weights and
start different from end: when the end is not a key of the node map, or the start is a key of
neither the node map nor the adjacency map, `find_optimal_path` reports "no path found" and
leaves the graph as it was (with `edge_count + 2` units of fuel or more). -/
theorem unknown_node_no_path (g : Graph) (start_node end_node : Int)
    (w_time w_dist w_cost : ℚ) (hvalid : valid_graph g)
    (hwt : 0 ≤ w_time) (hwd : 0 ≤ w_dist) (hwc : 0 ≤ w_cost)
    (hne : end_node ≠ start_node)
    (hunk : ¬ known_in g.nodes_info end_node ∨
      (¬ known_in g.nodes_info start_node ∧ map_find start_node g.adj_list = none))
    (fuel : Nat) (hfuel : edge_count g.adj_list + 2 ≤ fuel) :
    find_optimal_path fuel g start_node end_node w_time w_dist w_cost
      = some (Report.no_path, g) := by
  rcases hunk with h | ⟨_, h⟩
  · exact no_path_of_unknown_end hvalid hwt hwd hwc h hne fuel hfuel
  · exact no_path_of_unreachable hvalid hwt hwd hwc (no_walk_of_no_adj h hne) fuel hfuel

/-- C9 (amended) at the scenario graph: from the unknown node 4 to node 1. -/
theorem unknown_node_no_path_witness :
    find_optimal_path 6 scenario_graph 4 1 1 0 0 = some (Report.no_path, scenario_graph) :=
  unknown_node_no_path scenario_graph 4 1 1 0 0 (by decide!) (by decide!) (by decide!)
    (by decide!) (by decide!) (Or.inr ⟨by decide!, by decide!⟩) 6 (by decide!)

/-- C10 (counterexample). The weights (0.5, 0.3, 0.3) sum to 1.1, and the test of line 163
rejects them. -/
theorem weights_05_03_03_rejected :
    weights_rejected (1 / 2) (3 / 10) (3 / 10) = true := by
  decide!

/-- C10 (amended). Both weight triples of the scenario, (0.5, 0.3, 0.3) with sum 1.1 and
(0.5, 0.3, 0.1) with sum 0.9, are rejected by `main` before the map is loaded and before the
search is run, whatever the map file and the two node IDs. -/
theorem main_rejects_both_scenario_weights (fuel : Nat) (file : Option MapData)
    (start_node end_node : Int) :
    main fuel file start_node end_node (1 / 2) (3 / 10) (3 / 10)
      = some MainResult.invalid_weights ∧
    main fuel file start_node end_node (1 / 2) (3 / 10) (1 / 10)
      = some MainResult.invalid_weights := by
  have h1 : weights_rejected (1 / 2) (3 / 10) (3 / 10) = true := by decide!
  have h2 : weights_rejected (1 / 2) (3 / 10) (1 / 10) = true := by decide!
  unfold main
  rw [h1, h2]
  exact ⟨rfl, rfl⟩

/-- C7 (counterexample). On the graph loaded from the road segments 1-2, 1-3, 3-2 with only
the nodes 1 and 3 listed, with the weights (3, -2, 0): the first query from 1 to 2 reports the
path 1, 3, 2 with score -1/5 and leaves node 2 in the node map; the second query, on the graph
the first one left behind, reports the path 1, 2 with score 6/5. -/
theorem second_call_differs :
    find_optimal_path 3 detour_graph 1 2 3 (-2) 0 =
      some (Report.path [1, 3, 2] ["A", "C", ""] ((-1 / 5 : ℚ) : Cost),
        { nodes_info := [(1, ⟨1, "A"⟩), (2, ⟨0, ""⟩), (3, ⟨3, "C"⟩)]
          adj_list := detour_graph.adj_list }) ∧
    find_optimal_path 3
        { nodes_info := [(1, ⟨1, "A"⟩), (2, ⟨0, ""⟩), (3, ⟨3, "C"⟩)]
          adj_list := detour_graph.adj_list } 1 2 3 (-2) 0 =
      some (Report.path [1, 2] ["A", ""] ((6 / 5 : ℚ) : Cost),
        { nodes_info := [(1, ⟨1, "A"⟩), (2, ⟨0, ""⟩), (3, ⟨3, "C"⟩)]
          adj_list := detour_graph.adj_list }) := by
  decide!

/-- C7 (amended). Idempotence on a graph with valid edge attributes, with non-negative
weights: the call returns (with `edge_count + 2` units of fuel or more), and the same call on
the graph that it left behind returns the same report and leaves the same graph. -/
theorem second_call_same (g : Graph) (start_node end_node : Int)
    (w_time w_dist w_cost : ℚ) (hvalid : valid_graph g)
    (hwt : 0 ≤ w_time) (hwd : 0 ≤ w_dist) (hwc : 0 ≤ w_cost)
    (fuel : Nat) (hfuel : edge_count g.adj_list + 2 ≤ fuel) :
    ∃ r g1,
      find_optimal_path fuel g start_node end_node w_time w_dist w_cost = some (r, g1) ∧
      find_optimal_path fuel g1 start_node end_node w_time w_dist w_cost = some (r, g1) := by
  have hsc := score_nonneg_of_valid hvalid (compute_maxes g.adj_list) hwt hwd hwc
  obtain ⟨b, s', hs, hP⟩ := search_post start_node end_node hsc fuel hfuel
  cases b with
  | false =>
    have h := find_optimal_path_false hs hP
    exact ⟨_, _, h, h⟩
  | true =>
    obtain ⟨l, es, hwb, _, hlast, hall, _, hq, hres⟩ := find_optimal_path_true hs hP
    refine ⟨_, _, hres, ?_⟩
    have heq : SEquiv (init_state g.nodes_info start_node)
        (init_state (print_names g.nodes_info l.reverse).2 start_node) := by
      refine ⟨rfl, rfl, fun v => ?_⟩
      rw [init_state_find, init_state_find]
      by_cases hv : v = start_node
      · rw [if_pos hv, if_pos hv]
      · rw [if_neg hv, if_neg hv]
        by_cases hk : map_find v g.nodes_info ≠ none
        · have : map_find v (print_names g.nodes_info l.reverse).2 ≠ none := by
            rw [print_names_find, if_pos hk]; exact hk
          rw [if_pos hk, if_pos this]
        · have hvl : v ∉ l.reverse := by
            intro hm
            rcases (hall v (List.mem_reverse.mp hm)).2 with h1 | h1
            · exact hv h1
            · exact hk h1
          have : ¬ map_find v (print_names g.nodes_info l.reverse).2 ≠ none := by
            rw [print_names_find, if_neg hk, if_neg hvl]; simp
          rw [if_neg hk, if_neg this]
    obtain ⟨s2, hs2, _, hP2, hg2⟩ := search_loop_congr fuel _ _ true s' heq hs
    unfold find_optimal_path
    simp only [hs2]
    rw [reconstruct_path_found fuel _ start_node end_node _ _ l _ (by rw [← hP2]; exact hwb)
      hlast (by rw [← hg2]; exact hq)]
    simp only [print_names_idem]

/-- C7 (amended) at the scenario graph: the query from 1 to 3, weights (1, 0, 0), fuel 6. -/
theorem second_call_same_witness :
    ∃ r g1, find_optimal_path 6 scenario_graph 1 3 1 0 0 = some (r, g1) ∧
      find_optimal_path 6 g1 1 3 1 0 0 = some (r, g1) :=
  second_call_same scenario_graph 1 3 1 0 0 (by decide!) (by decide!) (by decide!)
    (by decide!) 6 (by decide!)

/-- C11. The weight check of `main`: the triple is rejected, before the map is loaded and
before `find_optimal_path` is called, exactly when |w_time + w_dist + w_cost - 1| > 0.01;
a triple whose sum is within 0.01 of 1 goes on to the loading of the map and, when the map
loads, to the search, whose report `main` hands on. -/
theorem main_weight_check (fuel : Nat) (file : Option MapData) (start_node end_node : Int)
    (w_time w_dist w_cost : ℚ) :
    (main fuel file start_node end_node w_time w_dist w_cost = some MainResult.invalid_weights
      ↔ |w_time + w_dist + w_cost - 1| > 1 / 100) ∧
    (|w_time + w_dist + w_cost - 1| ≤ 1 / 100 →
      main fuel file start_node end_node w_time w_dist w_cost =
        match file with
        | none => some MainResult.load_failed
        | some data =>
          (find_optimal_path fuel (parse_map_file ⟨[], []⟩ data) start_node end_node
            w_time w_dist w_cost).map (fun p => MainResult.searched p.1 p.2)) := by
  have key : ¬ |w_time + w_dist + w_cost - 1| > 1 / 100 →
      main fuel file start_node end_node w_time w_dist w_cost =
        match file with
        | none => some MainResult.load_failed
        | some data =>
          (find_optimal_path fuel (parse_map_file ⟨[], []⟩ data) start_node end_node
            w_time w_dist w_cost).map (fun p => MainResult.searched p.1 p.2) := by
    intro h
    have hr : weights_rejected w_time w_dist w_cost = false := by
      unfold weights_rejected; exact decide_eq_false h
    unfold main
    rw [hr]
    cases file with
    | none => rfl
    | some data =>
      simp only
      cases find_optimal_path fuel (parse_map_file ⟨[], []⟩ data) start_node end_node
        w_time w_dist w_cost with
      | none => rfl
      | some p => rfl
  refine ⟨⟨?_, ?_⟩, fun h => key (not_lt.mpr h)⟩
  · intro h
    by_contra hn
    rw [key hn] at h
    cases file with
    | none => simp at h
    | some data =>
      simp only at h
      cases hf : find_optimal_path fuel (parse_map_file ⟨[], []⟩ data) start_node end_node
        w_time w_dist w_cost with
      | none => rw [hf] at h; simp at h
      | some p => rw [hf] at h; simp at h
  · intro h
    have hr : weights_rejected w_time w_dist w_cost = true := by
      unfold weights_rejected; exact decide_eq_true h
    unfold main
    rw [hr]
    rfl

/-- C11 at the weights (0.7, 0.1, 0.2) and the scenario map file, query from 1 to 3. -/
theorem main_weight_check_witness :
    (main 6 (some scenario_data) 1 3 (7 / 10) (1 / 10) (1 / 5) = some MainResult.invalid_weights
      ↔ |(7 / 10 : ℚ) + 1 / 10 + 1 / 5 - 1| > 1 / 100) ∧
    (|(7 / 10 : ℚ) + 1 / 10 + 1 / 5 - 1| ≤ 1 / 100 →
      main 6 (some scenario_data) 1 3 (7 / 10) (1 / 10) (1 / 5) =
        (find_optimal_path 6 (parse_map_file ⟨[], []⟩ scenario_data) 1 3
          (7 / 10) (1 / 10) (1 / 5)).map (fun p => MainResult.searched p.1 p.2)) :=
  main_weight_check 6 (some scenario_data) 1 3 (7 / 10) (1 / 10) (1 / 5)

/-- C18. On a graph whose edges have non-negative distance, toll and traffic multiplier and
a positive speed limit, the pre-pass leaves in `max_time`, `max_dist`, `max_cost` the maxima
over all edges of all adjacency lists of the edge's time, distance and cost: each is at or
above the quantity of every edge and, when the graph has an edge, is the quantity of some
edge; all three are 0 when no adjacency list has an edge. They are computed from the
adjacency map alone. -/
theorem compute_maxes_is_maximum (g : Graph) (hnn : nonneg_graph g) :
    (∀ p ∈ g.adj_list, ∀ e ∈ p.2,
      edge_time e ≤ (compute_maxes g.adj_list).max_time ∧
      e.distance ≤ (compute_maxes g.adj_list).max_dist ∧
      edge_cost e ≤ (compute_maxes g.adj_list).max_cost) ∧
    ((∃ p ∈ g.adj_list, ∃ e, e ∈ p.2) →
      (∃ p ∈ g.adj_list, ∃ e ∈ p.2, edge_time e = (compute_maxes g.adj_list).max_time) ∧
      (∃ p ∈ g.adj_list, ∃ e ∈ p.2, e.distance = (compute_maxes g.adj_list).max_dist) ∧
      (∃ p ∈ g.adj_list, ∃ e ∈ p.2, edge_cost e = (compute_maxes g.adj_list).max_cost)) ∧
    ((∀ p ∈ g.adj_list, p.2 = []) → compute_maxes g.adj_list = ⟨0, 0, 0⟩) := by
  refine ⟨compute_maxes_covers g.adj_list, ?_, compute_maxes_no_edges g.adj_list⟩
  rintro ⟨p, hp, e, he⟩
  have hc := compute_maxes_covers g.adj_list p hp e he
  have hv := hnn p hp e he
  obtain ⟨h1, h2, h3⟩ := compute_maxes_attained g.adj_list
  refine ⟨?_, ?_, ?_⟩
  · rcases h1 with h1 | h1
    · exact ⟨p, hp, e, he, le_antisymm hc.1 (by rw [h1]; exact edge_time_nonneg_weak hv)⟩
    · exact h1
  · rcases h2 with h2 | h2
    · exact ⟨p, hp, e, he, le_antisymm hc.2.1 (by rw [h2]; exact hv.1)⟩
    · exact h2
  · rcases h3 with h3 | h3
    · exact ⟨p, hp, e, he, le_antisymm hc.2.2 (by rw [h3]; exact edge_cost_nonneg_weak hv)⟩
    · exact h3

/-- C18 at the scenario graph: the maxima are 12 minutes, 10 km and 15 currency units. -/
theorem compute_maxes_is_maximum_witness :
    compute_maxes scenario_graph.adj_list = ⟨12, 10, 15⟩ ∧
    ((∀ p ∈ scenario_graph.adj_list, ∀ e ∈ p.2,
      edge_time e ≤ (compute_maxes scenario_graph.adj_list).max_time ∧
      e.distance ≤ (compute_maxes scenario_graph.adj_list).max_dist ∧
      edge_cost e ≤ (compute_maxes scenario_graph.adj_list).max_cost) ∧
    ((∃ p ∈ scenario_graph.adj_list, ∃ e, e ∈ p.2) →
      (∃ p ∈ scenario_graph.adj_list, ∃ e ∈ p.2,
        edge_time e = (compute_maxes scenario_graph.adj_list).max_time) ∧
      (∃ p ∈ scenario_graph.adj_list, ∃ e ∈ p.2,
        e.distance = (compute_maxes scenario_graph.adj_list).max_dist) ∧
      (∃ p ∈ scenario_graph.adj_list, ∃ e ∈ p.2,
        edge_cost e = (compute_maxes scenario_graph.adj_list).max_cost)) ∧
    ((∀ p ∈ scenario_graph.adj_list, p.2 = []) →
      compute_maxes scenario_graph.adj_list = ⟨0, 0, 0⟩)) :=
  ⟨by decide!, compute_maxes_is_maximum scenario_graph (by decide!)⟩

/-- C12. Mirrored edges. Loading one edge record appends the edge with target `to_node` to
the adjacency list of `from_node` and the edge with target `from_node` and the same four
attributes to the adjacency list of `to_node`, and leaves every other adjacency list as it
was (a record with `from_node = to_node` gets both edges on its one list). Hence in the
adjacency map built by loading edge records, the number of edges from `u` to `v` with given
attributes is the number of edges from `v` to `u` with these attributes. -/
theorem load_edge_mirrors :
    (∀ (adj : List (Int × List Edge)) (r : EdgeRecord) (k : Int),
      map_find k (load_edge adj r) =
        if k = r.from_node ∨ k = r.to_node then
          some (edges_from adj k ++
            (if k = r.from_node then
              [(⟨r.to_node, r.distance, r.speed_limit, r.traffic, r.toll⟩ : Edge)] else []) ++
            (if k = r.to_node then
              [(⟨r.from_node, r.distance, r.speed_limit, r.traffic, r.toll⟩ : Edge)] else []))
        else map_find k adj) ∧
    (∀ (rs : List EdgeRecord) (u v : Int) (d s t c : ℚ),
      edge_multiplicity (load_edges rs) u v d s t c
        = edge_multiplicity (load_edges rs) v u d s t c) := by
  refine ⟨fun adj r k => map_find_load_edge adj r k, fun rs => ?_⟩
  exact mirrored_fold rs [] (fun u v d s t c => by simp [edge_multiplicity, edges_from, map_find])

/-- C13. On a graph with valid edge attributes, with non-negative weights, the call returns
(with `edge_count + 2` units of fuel or more), and whenever it reports a path n0, ..., nk the
costs that the search has recorded for these nodes satisfy 0 = g_cost[n0] <= g_cost[n1] <=
... <= g_cost[nk], where nk is the end and g_cost[nk] is the reported score; so the cost
recorded for every node of the path is at most the reported score. -/
theorem path_scores_monotone (g : Graph) (start_node end_node : Int)
    (w_time w_dist w_cost : ℚ) (hvalid : valid_graph g)
    (hwt : 0 ≤ w_time) (hwd : 0 ≤ w_dist) (hwc : 0 ≤ w_cost)
    (fuel : Nat) (hfuel : edge_count g.adj_list + 2 ≤ fuel) :
    ∃ b s', search_loop g.adj_list
        (unified_score (compute_maxes g.adj_list) w_time w_dist w_cost) end_node fuel
        (init_state g.nodes_info start_node) = some (b, s') ∧
      (∃ r g', find_optimal_path fuel g start_node end_node w_time w_dist w_cost
        = some (r, g')) ∧
      ∀ nodes names score g',
        find_optimal_path fuel g start_node end_node w_time w_dist w_cost
          = some (Report.path nodes names score, g') →
        nodes.head? = some start_node ∧ gval s'.g_costs start_node = 0 ∧
        List.Chain' (fun a b => gval s'.g_costs a ≤ gval s'.g_costs b) nodes ∧
        nodes.getLast? = some end_node ∧ gval s'.g_costs end_node = score ∧
        ∀ n ∈ nodes, gval s'.g_costs n ≤ score := by
  have hsc := score_nonneg_of_valid hvalid (compute_maxes g.adj_list) hwt hwd hwc
  obtain ⟨b, s', hs, hret, hall⟩ := path_report_facts start_node end_node hsc fuel hfuel
  refine ⟨b, s', hs, hret, ?_⟩
  intro nodes names score g' h
  obtain ⟨es, _, hn, _, h4, h5, h6, h7, _, h9⟩ := hall nodes names score g' h
  exact ⟨by rw [hn]; rfl, h5, h6, h9, h4, h7⟩

/-- C13 at the scenario graph: the query from 1 to 3 with weights (1, 0, 0). -/
theorem path_scores_monotone_witness :
    ∃ b s', search_loop scenario_graph.adj_list
        (unified_score (compute_maxes scenario_graph.adj_list) 1 0 0) 3 6
        (init_state scenario_graph.nodes_info 1) = some (b, s') ∧
      (∃ r g', find_optimal_path 6 scenario_graph 1 3 1 0 0 = some (r, g')) ∧
      ∀ nodes names score g',
        find_optimal_path 6 scenario_graph 1 3 1 0 0
          = some (Report.path nodes names score, g') →
        nodes.head? = some 1 ∧ gval s'.g_costs 1 = 0 ∧
        List.Chain' (fun a b => gval s'.g_costs a ≤ gval s'.g_costs b) nodes ∧
        nodes.getLast? = some 3 ∧ gval s'.g_costs 3 = score ∧
        ∀ n ∈ nodes, gval s'.g_costs n ≤ score :=
  path_scores_monotone scenario_graph 1 3 1 0 0 (by decide!) (by decide!) (by decide!)
    (by decide!) 6 (by decide!)

/-- C14 (counterexample). In IEEE 754 double precision, on the graph loaded from the road
segments 1-2 of distance 1e-200 and 2-3 of distance 1e200 (speed limit 50, traffic
multiplier 1, no toll), with the weights (1/2, 1/4, 1/4): the attributes are in the data
model's ranges, the weights are non-negative and sum to 1, the distance 1e-200 is a positive
`double`, yet the three normalized terms of the edge from 1 to 2 underflow to `0.0` and the
query from 1 to 2 reports the path A, B with the score `0.0`. -/
theorem underflow_reports_zero_score :
    valid_graph underflow_graph ∧
    (0 : ℚ) ≤ 1 / 2 ∧ (0 : ℚ) ≤ 1 / 4 ∧ (1 / 2 + 1 / 4 + 1 / 4 : ℚ) = 1 ∧
    Machine.F64.add (Machine.F64.add (Machine.F64.of_num (1 / 2)) (Machine.F64.of_num (1 / 4)))
      (Machine.F64.of_num (1 / 4)) = Machine.F64.of_num 1 ∧
    Machine.F64.lt (Machine.F64.of_num 0) (Machine.F64.of_num (1 / 10 ^ 200)) = true ∧
    (1 : Int) ≠ 2 ∧
    Machine.find_optimal_path Machine.binary64 3 underflow_graph 1 2
      (Machine.F64.of_num (1 / 2)) (Machine.F64.of_num (1 / 4)) (Machine.F64.of_num (1 / 4)) =
      some (Machine.Report.path [1, 2] ["A", "B"] (Machine.F64.of_num 0), underflow_graph) := by
  decide!

/-- C14 (amended). With arithmetic read as exact: on a graph with valid edge attributes, with
non-negative weights that sum to 1, the call returns (with `edge_count + 2` units of fuel or
more), and whenever it reports a path with score 0 the start is the end; a path reported for
a start different from the end has a score greater than 0. -/
theorem zero_score_only_same_node (g : Graph) (start_node end_node : Int)
    (w_time w_dist w_cost : ℚ) (hvalid : valid_graph g)
    (hwt : 0 ≤ w_time) (hwd : 0 ≤ w_dist) (hwc : 0 ≤ w_cost)
    (hsum : w_time + w_dist + w_cost = 1)
    (fuel : Nat) (hfuel : edge_count g.adj_list + 2 ≤ fuel) :
    (∃ r g', find_optimal_path fuel g start_node end_node w_time w_dist w_cost
      = some (r, g')) ∧
    ∀ nodes names score g',
      find_optimal_path fuel g start_node end_node w_time w_dist w_cost
        = some (Report.path nodes names score, g') →
      (score = 0 → start_node = end_node) ∧ (start_node ≠ end_node → 0 < score) := by
  have hsc := score_nonneg_of_valid hvalid (compute_maxes g.adj_list) hwt hwd hwc
  have hpos : ∀ w l e, map_find w g.adj_list = some l → e ∈ l →
      0 < unified_score (compute_maxes g.adj_list) w_time w_dist w_cost e := by
    intro w l e hl he
    exact unified_score_pos (hvalid (w, l) (map_find_mem hl) e he)
      (compute_maxes_covers g.adj_list (w, l) (map_find_mem hl) e he) hwt hwd hwc hsum
  obtain ⟨b, s', hs, hret, hall⟩ := path_report_facts start_node end_node hsc fuel hfuel
  refine ⟨hret, ?_⟩
  intro nodes names score g' h
  obtain ⟨es, hw, _, hscore, _⟩ := hall nodes names score g' h
  have key : start_node ≠ end_node → 0 < score := by
    intro hne
    have hes : es ≠ [] := by
      intro he
      rw [he] at hw
      exact hne hw
    rw [hscore]
    exact_mod_cast walk_cost_pos hpos hw hes
  refine ⟨fun h0 => ?_, key⟩
  by_contra hne
  have := key hne
  rw [h0] at this
  exact lt_irrefl _ this

/-- C14 (amended) at the scenario graph: the query from 1 to 3 with weights (1/2, 1/4, 1/4). -/
theorem zero_score_only_same_node_witness :
    (∃ r g', find_optimal_path 6 scenario_graph 1 3 (1 / 2) (1 / 4) (1 / 4) = some (r, g')) ∧
    ∀ nodes names score g',
      find_optimal_path 6 scenario_graph 1 3 (1 / 2) (1 / 4) (1 / 4)
        = some (Report.path nodes names score, g') →
      (score = 0 → (1 : Int) = 3) ∧ ((1 : Int) ≠ 3 → 0 < score) :=
  zero_score_only_same_node scenario_graph 1 3 (1 / 2) (1 / 4) (1 / 4) (by decide!)
    (by decide!) (by decide!) (by decide!) (by decide!) 6 (by decide!)

/-- C15. Termination. On a graph with valid edge attributes, with non-negative weights, the
search loop stops within `edge_count + 2` tests of the queue, either with the end popped or
with the queue empty; the predecessor walk that follows it stops within as many steps, and
`find_optimal_path` returns. -/
theorem search_terminates (g : Graph) (start_node end_node : Int)
    (w_time w_dist w_cost : ℚ) (hvalid : valid_graph g)
    (hwt : 0 ≤ w_time) (hwd : 0 ≤ w_dist) (hwc : 0 ≤ w_cost)
    (fuel : Nat) (hfuel : edge_count g.adj_list + 2 ≤ fuel) :
    ∃ b s' path,
      search_loop g.adj_list
        (unified_score (compute_maxes g.adj_list) w_time w_dist w_cost) end_node fuel
        (init_state g.nodes_info start_node) = some (b, s') ∧
      ((b = false ∧ s'.pq = []) ∨
        (b = true ∧ ∃ (s0 : SearchState) (top : Cost × Int), pq_top s0.pq = some top ∧ top.2 = end_node ∧
          s' = { s0 with pq := pq_pop s0.pq })) ∧
      walk_back s'.parent_map start_node fuel end_node [] = some path ∧
      ∃ r g', find_optimal_path fuel g start_node end_node w_time w_dist w_cost
        = some (r, g') := by
  have hsc := score_nonneg_of_valid hvalid (compute_maxes g.adj_list) hwt hwd hwc
  obtain ⟨b, s', hs, hP⟩ := search_post start_node end_node hsc fuel hfuel
  have hexit := search_loop_exit fuel _ b s' hs
  cases b with
  | false =>
    have hd := Post_false_undisc hP
    refine ⟨false, s', [], hs, hexit, ?_, _, _, find_optimal_path_false hs hP⟩
    cases fuel with
    | zero => omega
    | succ n => simp [walk_back, hd]
  | true =>
    obtain ⟨l, _, hwb, _, _, _, _, _, hres⟩ := find_optimal_path_true hs hP
    exact ⟨true, s', l, hs, hexit, hwb, _, _, hres⟩

/-- C15 at the scenario graph: the query from 1 to 3 with weights (1, 0, 0). -/
theorem search_terminates_witness :
    ∃ b s' path,
      search_loop scenario_graph.adj_list
        (unified_score (compute_maxes scenario_graph.adj_list) 1 0 0) 3 6
        (init_state scenario_graph.nodes_info 1) = some (b, s') ∧
      ((b = false ∧ s'.pq = []) ∨
        (b = true ∧ ∃ (s0 : SearchState) (top : Cost × Int), pq_top s0.pq = some top ∧ top.2 = 3 ∧
          s' = { s0 with pq := pq_pop s0.pq })) ∧
      walk_back s'.parent_map 1 6 3 [] = some path ∧
      ∃ r g', find_optimal_path 6 scenario_graph 1 3 1 0 0 = some (r, g') :=
  search_terminates scenario_graph 1 3 1 0 0 (by decide!) (by decide!) (by decide!)
    (by decide!) 6 (by decide!)

/-- C16. On a graph with valid edge attributes, with non-negative weights, the call returns
(with `edge_count + 2` units of fuel or more), and whenever it reports a path n0, ..., nk the
first node is the start, the last node is the end, and there are edges e1, ..., ek, with ei
in the adjacency list of n(i-1) and with target ni, whose unified scores sum to the reported
score. -/
theorem reported_path_is_route (g : Graph) (start_node end_node : Int)
    (w_time w_dist w_cost : ℚ) (hvalid : valid_graph g)
    (hwt : 0 ≤ w_time) (hwd : 0 ≤ w_dist) (hwc : 0 ≤ w_cost)
    (fuel : Nat) (hfuel : edge_count g.adj_list + 2 ≤ fuel) :
    (∃ r g', find_optimal_path fuel g start_node end_node w_time w_dist w_cost
      = some (r, g')) ∧
    ∀ nodes names score g',
      find_optimal_path fuel g start_node end_node w_time w_dist w_cost
        = some (Report.path nodes names score, g') →
      nodes.head? = some start_node ∧ nodes.getLast? = some end_node ∧
      ∃ es, IsWalk g.adj_list (fun _ => True) start_node es end_node ∧
        nodes = start_node :: es.map (fun e => e.to_node_id) ∧
        score = ((walk_cost
          (unified_score (compute_maxes g.adj_list) w_time w_dist w_cost) es : ℚ) : Cost) := by
  have hsc := score_nonneg_of_valid hvalid (compute_maxes g.adj_list) hwt hwd hwc
  obtain ⟨b, s', hs, hret, hall⟩ := path_report_facts start_node end_node hsc fuel hfuel
  refine ⟨hret, ?_⟩
  intro nodes names score g' h
  obtain ⟨es, hw, hn, hscore, _, _, _, _, _, h9⟩ := hall nodes names score g' h
  exact ⟨by rw [hn]; rfl, h9, es, hw, hn, hscore⟩

/-- C16 at the scenario graph: the query from 1 to 3 with weights (1, 0, 0). -/
theorem reported_path_is_route_witness :
    (∃ r g', find_optimal_path 6 scenario_graph 1 3 1 0 0 = some (r, g')) ∧
    ∀ nodes names score g',
      find_optimal_path 6 scenario_graph 1 3 1 0 0
        = some (Report.path nodes names score, g') →
      nodes.head? = some 1 ∧ nodes.getLast? = some 3 ∧
      ∃ es, IsWalk scenario_graph.adj_list (fun _ => True) 1 es 3 ∧
        nodes = 1 :: es.map (fun e => e.to_node_id) ∧
        score = ((walk_cost
          (unified_score (compute_maxes scenario_graph.adj_list) 1 0 0) es : ℚ) : Cost) :=
  reported_path_is_route scenario_graph 1 3 1 0 0 (by decide!) (by decide!) (by decide!)
    (by decide!) 6 (by decide!)

/-- C17. Finalization. On a graph with valid edge attributes, with non-negative weights, for
every two iterations of the search loop, an earlier one popping `u` and a later one: after
the later iteration the cost and the predecessor of `u` are those `u` had when it was first
popped, and if the later iteration pops `u` again it leaves the search state as it was apart
from the pop (no cost, no predecessor and no queue entry is written). An iteration does not
change the cost or the predecessor of the node it pops. -/
theorem popped_nodes_are_final (g : Graph) (start_node end_node : Int)
    (w_time w_dist w_cost : ℚ) (hvalid : valid_graph g)
    (hwt : 0 ≤ w_time) (hwd : 0 ≤ w_dist) (hwc : 0 ≤ w_cost) (fuel : Nat) :
    (search_trace g.adj_list (unified_score (compute_maxes g.adj_list) w_time w_dist w_cost)
        end_node fuel (init_state g.nodes_info start_node)).Pairwise
      (fun a b =>
        gval b.2.2.g_costs a.1 = gval a.2.1.g_costs a.1 ∧
        map_find a.1 b.2.2.parent_map = map_find a.1 a.2.1.parent_map ∧
        (b.1 = a.1 → b.2.2 = { b.2.1 with pq := pq_pop b.2.1.pq })) ∧
    ∀ a ∈ search_trace g.adj_list
        (unified_score (compute_maxes g.adj_list) w_time w_dist w_cost)
        end_node fuel (init_state g.nodes_info start_node),
      gval a.2.2.g_costs a.1 = gval a.2.1.g_costs a.1 ∧
      map_find a.1 a.2.2.parent_map = map_find a.1 a.2.1.parent_map := by
  have hsc := score_nonneg_of_valid hvalid (compute_maxes g.adj_list) hwt hwd hwc
  refine ⟨search_trace_frozen hsc fuel _ [] (Inv_init _ _ g.nodes_info start_node)
    (Closed_nil _ _ _) (Touched_nil _ _), ?_⟩
  intro a ha
  obtain ⟨_, _, _, h4, h5⟩ := search_trace_inv hsc fuel _ [] (Inv_init _ _ g.nodes_info start_node)
    (Closed_nil _ _ _) (Touched_nil _ _) a ha
  exact ⟨h4, h5⟩

/-- C17 at the scenario graph: the query from 1 to 3 with weights (1, 0, 0), six tests of
the queue. -/
theorem popped_nodes_are_final_witness :
    (search_trace scenario_graph.adj_list
        (unified_score (compute_maxes scenario_graph.adj_list) 1 0 0)
        3 6 (init_state scenario_graph.nodes_info 1)).Pairwise
      (fun a b =>
        gval b.2.2.g_costs a.1 = gval a.2.1.g_costs a.1 ∧
        map_find a.1 b.2.2.parent_map = map_find a.1 a.2.1.parent_map ∧
        (b.1 = a.1 → b.2.2 = { b.2.1 with pq := pq_pop b.2.1.pq })) ∧
    ∀ a ∈ search_trace scenario_graph.adj_list
        (unified_score (compute_maxes scenario_graph.adj_list) 1 0 0)
        3 6 (init_state scenario_graph.nodes_info 1),
      gval a.2.2.g_costs a.1 = gval a.2.1.g_costs a.1 ∧
      map_find a.1 a.2.2.parent_map = map_find a.1 a.2.1.parent_map :=
  popped_nodes_are_final scenario_graph 1 3 1 0 0 (by decide!) (by decide!) (by decide!)
    (by decide!) 6

/-- C19. Dangling edge targets are never entered. On a graph whose edges have distance >= 0,
speed limit > 0, traffic multiplier >= 0 and toll >= 0, with non-negative weights, let `v` be
an ID that is not a key of the node map and is not the start. After every iteration of the
search loop, as before the first, `v` has no predecessor, and its cost reads as 0; `v` is on no reported path; and
the query whose end is `v` reports "no path found" (with `edge_count + 2` units of fuel or
more), whatever edges lead to `v`. -/
theorem dangling_target_never_entered (g : Graph) (start_node : Int)
    (w_time w_dist w_cost : ℚ) (hnn : nonneg_graph g)
    (hwt : 0 ≤ w_time) (hwd : 0 ≤ w_dist) (hwc : 0 ≤ w_cost)
    (v : Int) (hv : ¬ known_in g.nodes_info v) (hvs : v ≠ start_node) :
    (map_find v (init_state g.nodes_info start_node).parent_map = none ∧
      ∀ end_node fuel, ∀ a ∈ search_trace g.adj_list
        (unified_score (compute_maxes g.adj_list) w_time w_dist w_cost)
        end_node fuel (init_state g.nodes_info start_node),
      map_find v a.2.2.parent_map = none ∧ gval a.2.2.g_costs v = 0) ∧
    (∀ end_node fuel, edge_count g.adj_list + 2 ≤ fuel →
      (∃ r g', find_optimal_path fuel g start_node end_node w_time w_dist w_cost
        = some (r, g')) ∧
      ∀ nodes names score g',
        find_optimal_path fuel g start_node end_node w_time w_dist w_cost
          = some (Report.path nodes names score, g') → v ∉ nodes) ∧
    (∀ fuel, edge_count g.adj_list + 2 ≤ fuel →
      find_optimal_path fuel g start_node v w_time w_dist w_cost
        = some (Report.no_path, g)) := by
  have hsc := score_nonneg_of_nonneg hnn (compute_maxes g.adj_list) hwt hwd hwc
  refine ⟨⟨by rw [init_state_parent, if_neg hvs], ?_⟩, ?_, ?_⟩
  · intro end_node fuel a ha
    obtain ⟨⟨D1, hI⟩, _⟩ := search_trace_inv hsc fuel _ []
      (Inv_init _ _ g.nodes_info start_node) (Closed_nil _ _ _) (Touched_nil _ _) a ha
    have hnone : map_find v a.2.2.parent_map = none := by
      by_contra hd
      rcases hI.disc_known v hd with h | h
      · exact hvs h
      · exact hv h
    exact ⟨hnone, (hI.undisc v hnone).2 hv⟩
  · intro end_node fuel hfuel
    obtain ⟨b, s', _, hret, hall⟩ := path_report_facts start_node end_node hsc fuel hfuel
    refine ⟨hret, ?_⟩
    intro nodes names score g' h hmem
    obtain ⟨_, _, _, _, _, _, _, _, hk, _⟩ := hall nodes names score g' h
    rcases hk v hmem with h1 | h1
    · exact hvs h1
    · exact hv h1
  · intro fuel hfuel
    exact no_path_of_unknown_end_sc hsc hv hvs fuel hfuel

/-- C19 at the graph of the road segments 1-2, 1-3, 3-2 in which node 2 is not listed: the
query from 1 to 2 with weights (1, 0, 0) reports "no path found". -/
theorem dangling_target_never_entered_witness :
    find_optimal_path 8 detour_graph 1 2 1 0 0 = some (Report.no_path, detour_graph) :=
  (dangling_target_never_entered detour_graph 1 1 0 0 (by decide!) (by decide!) (by decide!)
    (by decide!) 2 (by decide!) (by decide!)).2.2 8 (by decide!)

/-- C20. Symmetry on a loaded graph. Let the adjacency map be built by loading edge records
with distance > 0, speed limit > 0, traffic >= 1, toll >= 0 whose end points are keys of the
node map, and let the weights be non-negative. Then for all `s` and `t` the two calls, from
`s` to `t` and from `t` to `s`, return (with `edge_count + 2` units of fuel or more), one
reports a path exactly when the other does, and the two reported scores are equal. -/
theorem loaded_graph_symmetric (g : Graph) (rs : List EdgeRecord) (s t : Int)
    (w_time w_dist w_cost : ℚ) (hload : g.adj_list = load_edges rs)
    (hrec : ∀ r ∈ rs, valid_record g.nodes_info r)
    (hwt : 0 ≤ w_time) (hwd : 0 ≤ w_dist) (hwc : 0 ≤ w_cost)
    (fuel : Nat) (hfuel : edge_count g.adj_list + 2 ≤ fuel) :
    ∃ r1 g1 r2 g2,
      find_optimal_path fuel g s t w_time w_dist w_cost = some (r1, g1) ∧
      find_optimal_path fuel g t s w_time w_dist w_cost = some (r2, g2) ∧
      ((∃ nodes names score, r1 = Report.path nodes names score) ↔
        (∃ nodes names score, r2 = Report.path nodes names score)) ∧
      ∀ nodes1 names1 score1 nodes2 names2 score2,
        r1 = Report.path nodes1 names1 score1 → r2 = Report.path nodes2 names2 score2 →
        score1 = score2 := by
  have hval : ∀ w l e, map_find w g.adj_list = some l → e ∈ l →
      valid_edge e ∧ known_in g.nodes_info e.to_node_id := by
    rw [hload]; exact loaded_edge_valid hrec
  have hsc : ∀ w l e, map_find w g.adj_list = some l → e ∈ l →
      0 ≤ unified_score (compute_maxes g.adj_list) w_time w_dist w_cost e :=
    fun w l e hl he => unified_score_nonneg _ (hval w l e hl he).1 hwt hwd hwc
  have hok : ∀ w l e, map_find w g.adj_list = some l → e ∈ l →
      known_in g.nodes_info e.to_node_id := fun w l e hl he => (hval w l e hl he).2
  have hmir : ∀ u l e, map_find u g.adj_list = some l → e ∈ l →
      ∃ l', map_find e.to_node_id g.adj_list = some l' ∧ mirror_edge u e ∈ l' := by
    rw [hload]; exact mirror_in_loaded rs
  have hrev := walk_reverse (unified_score (compute_maxes g.adj_list) w_time w_dist w_cost)
    hmir (fun u e => unified_score_mirror _ _ _ _ u e)
  obtain ⟨r1, g1, h1, hiff1, hopt1⟩ := direction_facts s t hsc hok fuel hfuel
  obtain ⟨r2, g2, h2, hiff2, hopt2⟩ := direction_facts t s hsc hok fuel hfuel
  refine ⟨r1, g1, r2, g2, h1, h2, ?_, ?_⟩
  · rw [hiff1, hiff2]
    constructor
    · rintro ⟨es, hw⟩
      obtain ⟨es', hw', _⟩ := hrev es s t hw
      exact ⟨es', hw'⟩
    · rintro ⟨es, hw⟩
      obtain ⟨es', hw', _⟩ := hrev es t s hw
      exact ⟨es', hw'⟩
  · intro nodes1 names1 score1 nodes2 names2 score2 e1 e2
    obtain ⟨⟨es1, hw1, hc1⟩, hmin1⟩ := hopt1 nodes1 names1 score1 e1
    obtain ⟨⟨es2, hw2, hc2⟩, hmin2⟩ := hopt2 nodes2 names2 score2 e2
    obtain ⟨es1', hw1', hcost1⟩ := hrev es1 s t hw1
    obtain ⟨es2', hw2', hcost2⟩ := hrev es2 t s hw2
    apply le_antisymm
    · have := hmin1 es2' hw2'
      rw [hcost2, ← hc2] at this
      exact this
    · have := hmin2 es1' hw1'
      rw [hcost1, ← hc1] at this
      exact this

/-- C20 at the scenario graph: the queries from 1 to 3 and from 3 to 1, weights (1, 0, 0). -/
theorem loaded_graph_symmetric_witness :
    ∃ r1 g1 r2 g2,
      find_optimal_path 6 scenario_graph 1 3 1 0 0 = some (r1, g1) ∧
      find_optimal_path 6 scenario_graph 3 1 1 0 0 = some (r2, g2) ∧
      ((∃ nodes names score, r1 = Report.path nodes names score) ↔
        (∃ nodes names score, r2 = Report.path nodes names score)) ∧
      ∀ nodes1 names1 score1 nodes2 names2 score2,
        r1 = Report.path nodes1 names1 score1 → r2 = Report.path nodes2 names2 score2 →
        score1 = score2 :=
  loaded_graph_symmetric scenario_graph scenario_data.edges 1 3 1 0 0 rfl (by decide!)
    (by decide!) (by decide!) (by decide!) 6 (by decide!)

end ApexPathfinder
